import Mathlib

/-!
# xv6 physical page allocator (kalloc.c) and image loader (exec.c)

A shallow embedding of `src/kalloc.c`, `src/exec.c` and `src/elf.h`.

* Machine words are `Nat` with explicit `% 2^32`.
* Kernel memory is a byte map `Nat → Nat`; the free list lives inside it, exactly as
  `struct run` overlays the first word of a free page.
* Constants that come from headers which are not among the sources (`PGSIZE`, `PHYSTOP`,
  `end`, `V2P`, `MAXARG`, `sizeof(curproc->name)`) are fields of `Consts`.
* The functions `exec` calls but does not define are fields of `Env`, over an arbitrary
  world state; every call is logged in a chronological trace.
-/

namespace Xv6

/-! ## Constants taken from headers outside the sources -/

/-- Constants and macros used by `kalloc.c` and `exec.c` whose defining headers
(`mmu.h`, `memlayout.h`, `param.h`, `proc.h`) and linker script are not among the sources.
`kend` stands for the linker symbol `end`. -/
structure Consts where
  PGSIZE : Nat
  PHYSTOP : Nat
  kend : Nat
  V2P : Nat → Nat
  MAXARG : Nat
  NAMESZ : Nat

/-- Two to the thirty-two: the modulus of `uint` arithmetic. -/
def U32 : Nat := 4294967296

/-- The values of the stock xv6 headers, with a page-aligned `end`. -/
def xv6Consts : Consts where
  PGSIZE := 4096
  PHYSTOP := 0xE000000
  kend := 0x80116000
  V2P := fun a => (a + U32 - 0x80000000) % U32
  MAXARG := 32
  NAMESZ := 16

/-- Modelled from the spec: the macro `PGROUNDUP` of `mmu.h` (not among the sources),
"round the running top up to a frame boundary", in `uint` arithmetic. -/
def PGROUNDUP (c : Consts) (sz : Nat) : Nat :=
  ((sz + c.PGSIZE - 1) % U32) / c.PGSIZE * c.PGSIZE

/-! ## Byte-addressed memory -/

/-- Memory: a byte for every address. -/
abbrev Mem := Nat → Nat

/-- Modelled from the spec: `memset(dst, c, n)` of `string.c` (not among the sources),
"overwrites every byte of the frame with a fixed non-zero pattern". -/
def memset (m : Mem) (dst c n : Nat) : Mem :=
  fun a => if dst ≤ a ∧ a < dst + n then c else m a

/-- Read the little-endian 32-bit word at address `a`. -/
def load32 (m : Mem) (a : Nat) : Nat :=
  m a % 256 + 256 * (m (a + 1) % 256) + 65536 * (m (a + 2) % 256)
    + 16777216 * (m (a + 3) % 256)

/-- Write the 32-bit word `x` at address `a`, little-endian. -/
def store32 (m : Mem) (a x : Nat) : Mem :=
  fun b =>
    if b = a then x % 256
    else if b = a + 1 then x / 256 % 256
    else if b = a + 2 then x / 65536 % 256
    else if b = a + 3 then x / 16777216 % 256
    else m b

/-! ## kalloc.c -/

/-- The global `kmem` (lock, `use_lock`, `freelist`) together with kernel memory. -/
structure KState where
  locked : Bool
  use_lock : Bool
  freelist : Nat
  mem : Mem

/-- Modelled from the spec: `acquire` of `spinlock.c` (not among the sources); it takes the
lock and touches neither the free list nor memory. -/
def acquire (s : KState) : KState := { s with locked := true }

/-- Modelled from the spec: `release` of `spinlock.c` (not among the sources). -/
def release (s : KState) : KState := { s with locked := false }

/-- Outcome of a call that may `panic`: `panic` never returns, the state it carries is the
state at the moment of the panic. -/
inductive KResult where
  | ok (s : KState)
  | panic (s : KState)

/-- The state a call ended in. -/
def KResult.state : KResult → KState
  | KResult.ok s => s
  | KResult.panic s => s

/-- Whether a call panicked. -/
def KResult.panicked : KResult → Bool
  | KResult.ok _ => false
  | KResult.panic _ => true

/-- The guard of `kfree`: `(uint)v % PGSIZE || v < end || V2P(v) >= PHYSTOP`. -/
def kfreeBad (c : Consts) (v : Nat) : Prop :=
  v % c.PGSIZE ≠ 0 ∨ v < c.kend ∨ c.V2P v ≥ c.PHYSTOP

instance (c : Consts) (v : Nat) : Decidable (kfreeBad c v) :=
  inferInstanceAs (Decidable (v % c.PGSIZE ≠ 0 ∨ v < c.kend ∨ c.V2P v ≥ c.PHYSTOP))

/-- The function `kfree` of kalloc.c. -/
def kfree (c : Consts) (v : Nat) (s : KState) : KResult :=
  if kfreeBad c v then KResult.panic s
  else
    let s1 := { s with mem := memset s.mem v 1 c.PGSIZE }
    let s2 := if s1.use_lock then acquire s1 else s1
    let s3 := { s2 with mem := store32 s2.mem v s2.freelist }
    let s4 := { s3 with freelist := v }
    KResult.ok (if s4.use_lock then release s4 else s4)

/-- The function `kalloc` of kalloc.c: the returned pointer and the new state. -/
def kalloc (s : KState) : Nat × KState :=
  let s1 := if s.use_lock then acquire s else s
  let r := s1.freelist
  let s2 := if r ≠ 0 then { s1 with freelist := load32 s1.mem r } else s1
  let s3 := if s2.use_lock then release s2 else s2
  (r, s3)

/-- Free the frames of a list in order, stopping at the first panic. -/
def kfreeAll (c : Consts) : List Nat → KState → KResult
  | [], s => KResult.ok s
  | v :: vs, s =>
    match kfree c v s with
    | KResult.ok s1 => kfreeAll c vs s1
    | KResult.panic s1 => KResult.panic s1

/-- The frames `freerange(vstart, vend)` frees: `p = PGROUNDUP(vstart)`, then every `p` with
`p + PGSIZE <= vend`, stepping by `PGSIZE`. -/
def rangeFrames (c : Consts) (vstart vend : Nat) : List Nat :=
  (List.range ((vend - PGROUNDUP c vstart) / c.PGSIZE)).map
    (fun i => PGROUNDUP c vstart + i * c.PGSIZE)

/-- Modelled from the spec: `freerange` is declared and called in kalloc.c but its body is
not among the sources; "given a byte range, splits it into frame-aligned frames (rounding
the start up) and calls free_frame on each". -/
def freerange (c : Consts) (vstart vend : Nat) (s : KState) : KResult :=
  kfreeAll c (rangeFrames c vstart vend) s

/-- The function `kinit1` of kalloc.c (`initlock` only names the lock). -/
def kinit1 (c : Consts) (vstart vend : Nat) (s : KState) : KResult :=
  freerange c vstart vend { s with locked := false, use_lock := false }

/-- The function `kinit2` of kalloc.c. -/
def kinit2 (c : Consts) (vstart vend : Nat) (s : KState) : KResult :=
  match freerange c vstart vend s with
  | KResult.ok s1 => KResult.ok { s1 with use_lock := true }
  | KResult.panic s1 => KResult.panic s1

/-- The allocator before any call: `kmem` is zero-initialised, memory is arbitrary. -/
def kmem0 (m : Mem) : KState := { locked := false, use_lock := false, freelist := 0, mem := m }

/-! ## elf.h -/

/-- The constant `ELF_MAGIC`, the bytes 7F 45 4C 46 read as a little-endian word. -/
def ELF_MAGIC : Nat := 0x464C457F

/-- The constant `ELF_PROG_LOAD`. -/
def ELF_PROG_LOAD : Nat := 1

/-- The record `struct elfhdr`. -/
structure elfhdr where
  magic : Nat
  elf : List Nat
  type : Nat
  machine : Nat
  version : Nat
  entry : Nat
  phoff : Nat
  shoff : Nat
  flags : Nat
  ehsize : Nat
  phentsize : Nat
  phnum : Nat
  shentsize : Nat
  shnum : Nat
  shstrndx : Nat

/-- The record `struct proghdr`. -/
structure proghdr where
  type : Nat
  off : Nat
  vaddr : Nat
  paddr : Nat
  filesz : Nat
  memsz : Nat
  flags : Nat
  align : Nat

/-- The size `sizeof(struct elfhdr)`: 4 + 12 + 2 + 2 + 5 * 4 + 6 * 2. -/
def SIZEOF_ELFHDR : Nat := 52

/-- The size `sizeof(struct proghdr)`: 8 * 4. -/
def SIZEOF_PROGHDR : Nat := 32

/-- Byte `i` of a buffer (`uchar`). -/
def byteAt (b : List Nat) (i : Nat) : Nat := b.getD i 0 % 256

/-- The `ushort` stored little-endian at offset `i` of a buffer. -/
def le16 (b : List Nat) (i : Nat) : Nat := byteAt b i + 256 * byteAt b (i + 1)

/-- The `uint` stored little-endian at offset `i` of a buffer. -/
def le32 (b : List Nat) (i : Nat) : Nat :=
  byteAt b i + 256 * byteAt b (i + 1) + 65536 * byteAt b (i + 2) + 16777216 * byteAt b (i + 3)

/-- The buffer `elf` that `readi` filled, read through `struct elfhdr`. -/
def parse_elfhdr (b : List Nat) : elfhdr where
  magic := le32 b 0
  elf := (List.range 12).map (fun i => byteAt b (4 + i))
  type := le16 b 16
  machine := le16 b 18
  version := le32 b 20
  entry := le32 b 24
  phoff := le32 b 28
  shoff := le32 b 32
  flags := le32 b 36
  ehsize := le16 b 40
  phentsize := le16 b 42
  phnum := le16 b 44
  shentsize := le16 b 46
  shnum := le16 b 48
  shstrndx := le16 b 50

/-- The buffer `ph` that `readi` filled, read through `struct proghdr`. -/
def parse_proghdr (b : List Nat) : proghdr where
  type := le32 b 0
  off := le32 b 4
  vaddr := le32 b 8
  paddr := le32 b 12
  filesz := le32 b 16
  memsz := le32 b 20
  flags := le32 b 24
  align := le32 b 28

/-! ## exec.c -/

/-- The fields of `struct proc` (and of its trap frame) that `exec` reads or writes. -/
structure Proc where
  pgdir : Nat
  sz : Nat
  tf_eip : Nat
  tf_esp : Nat
  name : List Nat
deriving DecidableEq

/-- A call `exec` makes, with its arguments and, where `exec` looks at it, its result. -/
inductive Event where
  | begin_op
  | end_op
  | cprintf
  | namei (path : List Nat) (ret : Nat)
  | ilock (ip : Nat)
  | readi (ip off n : Nat) (ret : Int)
  | setupkvm (ret : Nat)
  | allocuvm (pgdir oldsz newsz ret : Nat)
  | loaduvm (pgdir va ip off sz : Nat) (ret : Int)
  | iunlockput (ip : Nat)
  | clearpteu (pgdir va : Nat)
  | copyout (pgdir va : Nat) (data : List Nat) (ret : Int)
  | safestrcpy (src : List Nat) (n : Nat)
  | switchuvm (p : Proc)
  | freevm (pgdir : Nat)
deriving DecidableEq

/-- The functions `exec` calls and does not define, acting on an arbitrary world `W`.
A pointer result is a `Nat` (0 is the null pointer), an `int` result is an `Int`; the
result of `allocuvm` is a `Nat` that `exec` stores in the `uint sz`, hence reads `% 2^32`.
`readi` also yields the contents of the destination buffer after the call, and
`safestrcpy` the contents of the destination string. The collaborators act on the world
only: the locals of `exec` and the process record are out of their reach. -/
structure Env (W : Type) where
  begin_op : W → W
  end_op : W → W
  cprintf : W → W
  namei : List Nat → W → Nat × W
  ilock : Nat → W → W
  readi : Nat → Nat → Nat → W → (Int × List Nat) × W
  setupkvm : W → Nat × W
  allocuvm : Nat → Nat → Nat → W → Nat × W
  loaduvm : Nat → Nat → Nat → Nat → Nat → W → Int × W
  iunlockput : Nat → W → W
  clearpteu : Nat → Nat → W → W
  copyout : Nat → Nat → List Nat → W → Int × W
  safestrcpy : List Nat → List Nat → Nat → W → List Nat × W
  switchuvm : Proc → W → W
  freevm : Nat → W → W

/-- The world and the chronological trace of calls made so far. -/
structure XState (W : Type) where
  w : W
  tr : List Event

/-- What `exec` leaves behind: its return value, the process record, the world, the trace. -/
structure ExecResult (W : Type) where
  ret : Int
  proc : Proc
  w : W
  tr : List Event

/-- Subtraction of `uint` values. -/
def usub (a b : Nat) : Nat := (a + U32 - b % U32) % U32

/-- The four bytes of a `uint`, little-endian. -/
def bytes32 (x : Nat) : List Nat :=
  [x % 256, x / 256 % 256, x / 65536 % 256, x / 16777216 % 256]

/-- The first `n` words of an `uint` array as the bytes `copyout` is handed. -/
def wordsBytes (us : List Nat) (n : Nat) : List Nat :=
  ((us.take n).map bytes32).flatten

/-- The label `bad` of exec (lines 158-165). -/
def bad {W : Type} (env : Env W) (pgdir ip : Nat) (curproc : Proc) (s : XState W) :
    ExecResult W :=
  let s1 : XState W :=
    if pgdir ≠ 0 then ⟨env.freevm pgdir s.w, s.tr ++ [Event.freevm pgdir]⟩ else s
  let s2 : XState W :=
    if ip ≠ 0 then
      ⟨env.end_op (env.iunlockput ip s1.w), s1.tr ++ [Event.iunlockput ip, Event.end_op]⟩
    else s1
  ⟨-1, curproc, s2.w, s2.tr⟩

/-- The segment loop of exec (lines 69-87), with `n` iterations left: `none` is `goto bad`,
`some sz` is the running size when the loop is left. -/
def loadSegments {W : Type} (env : Env W) (c : Consts) (ip pgdir : Nat) :
    Nat → Nat → Nat → XState W → Option Nat × XState W
  | 0, _, sz, s => (some sz, s)
  | n + 1, off, sz, s =>
    let rd := env.readi ip off SIZEOF_PROGHDR s.w
    let s1 : XState W := ⟨rd.2, s.tr ++ [Event.readi ip off SIZEOF_PROGHDR rd.1.1]⟩
    if rd.1.1 ≠ SIZEOF_PROGHDR then (none, s1)
    else
      let ph := parse_proghdr rd.1.2
      if ph.type ≠ ELF_PROG_LOAD then
        loadSegments env c ip pgdir n ((off + SIZEOF_PROGHDR) % U32) sz s1
      else if ph.memsz < ph.filesz then (none, s1)
      else if (ph.vaddr + ph.memsz) % U32 < ph.vaddr then (none, s1)
      else
        let al := env.allocuvm pgdir sz ((ph.vaddr + ph.memsz) % U32) s1.w
        let s2 : XState W :=
          ⟨al.2, s1.tr ++ [Event.allocuvm pgdir sz ((ph.vaddr + ph.memsz) % U32) al.1]⟩
        if al.1 % U32 = 0 then (none, s2)
        else if ph.vaddr % c.PGSIZE ≠ 0 then (none, s2)
        else
          let ld := env.loaduvm pgdir ph.vaddr ip ph.off ph.filesz s2.w
          let s3 : XState W :=
            ⟨ld.2, s2.tr ++ [Event.loaduvm pgdir ph.vaddr ip ph.off ph.filesz ld.1]⟩
          if ld.1 < 0 then (none, s3)
          else loadSegments env c ip pgdir n ((off + SIZEOF_PROGHDR) % U32) (al.1 % U32) s3

/-- The argument loop of exec (lines 111-118) over the non-null entries of `argv` still to
come: `none` is `goto bad`, otherwise the final `argc`, `sp` and `ustack`. -/
def pushArgs {W : Type} (env : Env W) (c : Consts) (pgdir : Nat) :
    List (List Nat) → Nat → Nat → List Nat → XState W →
      Option (Nat × Nat × List Nat) × XState W
  | [], argc, sp, ustack, s => (some (argc, sp, ustack), s)
  | a :: rest, argc, sp, ustack, s =>
    if argc ≥ c.MAXARG then (none, s)
    else
      let sp1 := usub sp (a.length + 1) / 4 * 4
      let co := env.copyout pgdir sp1 (a ++ [0]) s.w
      let s1 : XState W := ⟨co.2, s.tr ++ [Event.copyout pgdir sp1 (a ++ [0]) co.1]⟩
      if co.1 < 0 then (none, s1)
      else pushArgs env c pgdir rest (argc + 1) sp1 (ustack.set (3 + argc) sp1) s1

/-- The loop of exec (lines 130-132) that finds the last path element: `s` is what is left
to scan, `last` the current candidate. -/
def lastElem : List Nat → List Nat → List Nat
  | [], last => last
  | ch :: s, last => if ch = 47 then lastElem s s else lastElem s last

/-- Lines 129-145 of exec: save the program name and commit to the user image. -/
def execCommit {W : Type} (env : Env W) (c : Consts) (path : List Nat) (curproc : Proc)
    (pgdir sz entry sp : Nat) (s : XState W) : ExecResult W :=
  let last := lastElem path path
  let nm := env.safestrcpy curproc.name last c.NAMESZ s.w
  let s1 : XState W := ⟨nm.2, s.tr ++ [Event.safestrcpy last c.NAMESZ]⟩
  let oldpgdir := curproc.pgdir
  let p1 : Proc := { pgdir := pgdir, sz := sz, tf_eip := entry, tf_esp := sp, name := nm.1 }
  let s2 : XState W := ⟨env.switchuvm p1 s1.w, s1.tr ++ [Event.switchuvm p1]⟩
  let s3 : XState W := ⟨env.freevm oldpgdir s2.w, s2.tr ++ [Event.freevm oldpgdir]⟩
  ⟨0, p1, s3.w, s3.tr⟩

/-- Lines 119-123 of exec: the terminating null pointer, the fake return PC, `argc` and
the `argv` pointer, stored in `ustack`. -/
def finishUstack (ustack : List Nat) (argc sp : Nat) : List Nat :=
  (((ustack.set (3 + argc) 0).set 0 0xffffffff).set 1 argc).set 2 (usub sp ((argc + 1) * 4))

/-- Lines 108-127 of exec: with `sp = sz`, push the argument strings, fill in and copy out
`ustack`; then the commit. `ip` is already 0 here. The local array `ustack` has
`3+MAXARG+1` words; it starts as zeros here, and `exec` writes every word it copies out. -/
def execArgs {W : Type} (env : Env W) (c : Consts) (path : List Nat)
    (argv : List (List Nat)) (curproc : Proc) (pgdir sz entry : Nat) (s : XState W) :
    ExecResult W :=
  match pushArgs env c pgdir argv 0 sz (List.replicate (3 + c.MAXARG + 1) 0) s with
  | (none, s3) => bad env pgdir 0 curproc s3
  | (some (argc, sp, ustack), s3) =>
    let sp1 := usub sp ((3 + argc + 1) * 4)
    let data := wordsBytes (finishUstack ustack argc sp) (3 + argc + 1)
    let co := env.copyout pgdir sp1 data s3.w
    let s4 : XState W := ⟨co.2, s3.tr ++ [Event.copyout pgdir sp1 data co.1]⟩
    if co.1 < 0 then bad env pgdir 0 curproc s4
    else execCommit env c path curproc pgdir sz entry sp1 s4

/-- Lines 104-107 of exec: the guard page and the stack page; then the arguments. -/
def execStack {W : Type} (env : Env W) (c : Consts) (path : List Nat)
    (argv : List (List Nat)) (curproc : Proc) (pgdir sz entry : Nat) (s : XState W) :
    ExecResult W :=
  let sz1 := PGROUNDUP c sz
  let al := env.allocuvm pgdir sz1 ((sz1 + 2 * c.PGSIZE) % U32) s.w
  let s1 : XState W :=
    ⟨al.2, s.tr ++ [Event.allocuvm pgdir sz1 ((sz1 + 2 * c.PGSIZE) % U32) al.1]⟩
  if al.1 % U32 = 0 then bad env pgdir 0 curproc s1
  else
    let sz2 := al.1 % U32
    let s2 : XState W :=
      ⟨env.clearpteu pgdir (usub sz2 (2 * c.PGSIZE)) s1.w,
        s1.tr ++ [Event.clearpteu pgdir (usub sz2 (2 * c.PGSIZE))]⟩
    execArgs env c path argv curproc pgdir sz2 entry s2

/-- Lines 51-91 of exec, entered once `namei` has returned the inode `ip`: the header
checks, `setupkvm`, the segment loop and the release of the inode. -/
def execOpened {W : Type} (env : Env W) (c : Consts) (path : List Nat)
    (argv : List (List Nat)) (curproc : Proc) (ip : Nat) (s : XState W) : ExecResult W :=
  let s1 : XState W := ⟨env.ilock ip s.w, s.tr ++ [Event.ilock ip]⟩
  let rd := env.readi ip 0 SIZEOF_ELFHDR s1.w
  let s2 : XState W := ⟨rd.2, s1.tr ++ [Event.readi ip 0 SIZEOF_ELFHDR rd.1.1]⟩
  if rd.1.1 ≠ SIZEOF_ELFHDR then bad env 0 ip curproc s2
  else
    let elf := parse_elfhdr rd.1.2
    if elf.magic ≠ ELF_MAGIC then bad env 0 ip curproc s2
    else
      let pg := env.setupkvm s2.w
      let s3 : XState W := ⟨pg.2, s2.tr ++ [Event.setupkvm pg.1]⟩
      if pg.1 = 0 then bad env pg.1 ip curproc s3
      else
        match loadSegments env c ip pg.1 elf.phnum elf.phoff 0 s3 with
        | (none, s4) => bad env pg.1 ip curproc s4
        | (some sz, s4) =>
          let s5 : XState W :=
            ⟨env.end_op (env.iunlockput ip s4.w),
              s4.tr ++ [Event.iunlockput ip, Event.end_op]⟩
          execStack env c path argv curproc pg.1 sz elf.entry s5

/-- The function `exec` of exec.c. `path` is the string `path`, `argv` the strings before
the terminating null pointer of `argv`, `curproc` the record `myproc()` returns and `w` the
world at the call. -/
def exec {W : Type} (env : Env W) (c : Consts) (path : List Nat) (argv : List (List Nat))
    (curproc : Proc) (w : W) : ExecResult W :=
  let s0 : XState W := ⟨env.begin_op w, [Event.begin_op]⟩
  let nm := env.namei path s0.w
  let s1 : XState W := ⟨nm.2, s0.tr ++ [Event.namei path nm.1]⟩
  if nm.1 = 0 then
    ⟨-1, curproc, env.cprintf (env.end_op s1.w), s1.tr ++ [Event.end_op, Event.cprintf]⟩
  else execOpened env c path argv curproc nm.1 s1

/-! ## Vocabulary of the allocator properties -/

/-- A call to the allocator. -/
inductive Op where
  | kalloc
  | kfree (v : Nat)
deriving DecidableEq

/-- What a call did: `alloc r` is a `kalloc` that returned `r`, `free v` a `kfree(v)` that
returned, `panicked v` a `kfree(v)` that panicked. -/
inductive KEvent where
  | alloc (r : Nat)
  | free (v : Nat)
  | panicked (v : Nat)
deriving DecidableEq

/-- Run a sequence of calls; a panic stops the machine. The history and the last state. -/
def runOps (c : Consts) : List Op → KState → List KEvent × KState
  | [], s => ([], s)
  | Op.kalloc :: ops, s =>
    (KEvent.alloc (kalloc s).1 :: (runOps c ops (kalloc s).2).1,
      (runOps c ops (kalloc s).2).2)
  | Op.kfree v :: ops, s =>
    match kfree c v s with
    | KResult.ok s1 => (KEvent.free v :: (runOps c ops s1).1, (runOps c ops s1).2)
    | KResult.panic s1 => ([KEvent.panicked v], s1)

/-- The free list as the code walks it: `chain m h l` says that following `next` pointers
from the head `h` visits exactly the frames of `l`, in order, and then reaches null. -/
def chain (m : Mem) : Nat → List Nat → Prop
  | h, [] => h = 0
  | h, v :: l => h = v ∧ v ≠ 0 ∧ chain m (load32 m v) l

/-- Frame `v` is reachable from head `h` by following `next` pointers. -/
inductive Reach (m : Mem) : Nat → Nat → Prop where
  | head (h : Nat) (hne : h ≠ 0) : Reach m h h
  | next (h v : Nat) (hne : h ≠ 0) (hr : Reach m (load32 m h) v) : Reach m h v

/-- The assumptions on the constants: a page holds at least the `next` pointer, and the
kernel image is not empty. -/
def Consts.WF (c : Consts) : Prop := 4 ≤ c.PGSIZE ∧ 0 < c.kend

/-- A frame `kfree` accepts, given as a 32-bit pointer. -/
def okFrame (c : Consts) (v : Nat) : Prop := ¬ kfreeBad c v ∧ v < U32

instance (c : Consts) (v : Nat) : Decidable (okFrame c v) :=
  inferInstanceAs (Decidable (¬ kfreeBad c v ∧ v < U32))

instance (c : Consts) : Decidable c.WF :=
  inferInstanceAs (Decidable (4 ≤ c.PGSIZE ∧ 0 < c.kend))

/-- The free list of `s` is the duplicate-free list `l` of acceptable frames. -/
def FreeList (c : Consts) (s : KState) (l : List Nat) : Prop :=
  chain s.mem s.freelist l ∧ l.Nodup ∧ ∀ v ∈ l, okFrame c v

/-- States reachable from an empty free list by `kalloc` calls and by `kfree` calls, on
32-bit pointers, that do not panic. -/
inductive Reachable (c : Consts) : KState → Prop where
  | init (s : KState) (h : s.freelist = 0) : Reachable c s
  | kalloc (s : KState) (h : Reachable c s) : Reachable c (kalloc s).2
  | kfree (s s1 : KState) (v : Nat) (h : Reachable c s) (hv : v < U32)
      (hk : kfree c v s = KResult.ok s1) : Reachable c s1

/-- Frame `v` is reachable from `kmem.freelist`. -/
def OnFreeList (s : KState) (v : Nat) : Prop := Reach s.mem s.freelist v

/-- Frame-aligned, strictly after `end`, and physically below `PHYSTOP`. -/
def FrameStrict (c : Consts) (v : Nat) : Prop :=
  v % c.PGSIZE = 0 ∧ c.kend < v ∧ c.V2P v < c.PHYSTOP

/-- Frame-aligned, at or after `end`, and physically below `PHYSTOP`. -/
def FrameOK (c : Consts) (v : Nat) : Prop :=
  v % c.PGSIZE = 0 ∧ c.kend ≤ v ∧ c.V2P v < c.PHYSTOP

/-- No frame is returned by `kalloc` twice without a `kfree` of that frame in between;
`held` lists the frames returned and not freed since. -/
def noDoubleReturn : List Nat → List KEvent → Bool
  | _, [] => true
  | held, KEvent.alloc r :: es =>
    if r = 0 then noDoubleReturn held es
    else if r ∈ held then false
    else noDoubleReturn (r :: held) es
  | held, KEvent.free v :: es => noDoubleReturn (held.filter (fun u => u ≠ v)) es
  | held, KEvent.panicked v :: es => noDoubleReturn (held.filter (fun u => u ≠ v)) es

/-- Every `kfree` is of a frame that `kalloc` returned and that was not freed since. -/
def freesHeld : List Nat → List KEvent → Bool
  | _, [] => true
  | held, KEvent.alloc r :: es => freesHeld (if r = 0 then held else r :: held) es
  | held, KEvent.free v :: es =>
    decide (v ∈ held) && freesHeld (held.filter (fun u => u ≠ v)) es
  | held, KEvent.panicked v :: es =>
    decide (v ∈ held) && freesHeld (held.filter (fun u => u ≠ v)) es

/-- The two `freerange` calls of the boot sequence: `kinit1`, then `kinit2`. -/
def boot (c : Consts) (m : Mem) (a1 b1 a2 b2 : Nat) : KResult :=
  match kinit1 c a1 b1 (kmem0 m) with
  | KResult.ok s1 => kinit2 c a2 b2 s1
  | KResult.panic s1 => KResult.panic s1

/-- A frame inside the range `freerange(vstart, vend)` establishes. -/
def inRange (c : Consts) (vstart vend r : Nat) : Prop :=
  PGROUNDUP c vstart ≤ r ∧ r + c.PGSIZE ≤ vend ∧ r ∈ rangeFrames c vstart vend

/-! ## Vocabulary of the loader properties -/

/-- Calls made by the segment loop. -/
def Event.isSeg : Event → Bool
  | Event.readi _ _ _ _ => true
  | Event.allocuvm _ _ _ _ => true
  | Event.loaduvm _ _ _ _ _ _ => true
  | _ => false

/-- Calls made while the stack is built. -/
def Event.isStk : Event → Bool
  | Event.allocuvm _ _ _ _ => true
  | Event.clearpteu _ _ => true
  | Event.copyout _ _ _ _ => true
  | _ => false

/-- A call of `freevm`. -/
def Event.isFreevm : Event → Bool
  | Event.freevm _ => true
  | _ => false

/-- A call of `switchuvm`. -/
def Event.isSwitchuvm : Event → Bool
  | Event.switchuvm _ => true
  | _ => false

/-- A call of `setupkvm`. -/
def Event.isSetupkvm : Event → Bool
  | Event.setupkvm _ => true
  | _ => false

/-- A call of `iunlockput`. -/
def Event.isIunlockput : Event → Bool
  | Event.iunlockput _ => true
  | _ => false

/-- Trace `t1` is trace `t` followed by calls that all satisfy `q`. -/
def Extends (q : Event → Bool) (t t1 : List Event) : Prop :=
  ∃ l, t1 = t ++ l ∧ ∀ e ∈ l, q e = true

/-- Modelled from the spec: `read_bytes(handle, offset, length) -> bytes | fail`, the
function `readi` of `fs.c` (not among the sources) on a file with contents `file`, reading
into a buffer that holds `buf`: the count returned and the buffer afterwards. -/
def readiFile (file buf : List Nat) (off n : Nat) : Int × List Nat :=
  if off > file.length then (-1, buf)
  else
    (((min n (file.length - off) : Nat) : Int),
      (file.drop off).take n ++ buf.drop (min n (file.length - off)))

/-- Collaborators that always succeed, over a trivial world: the inode is 1 and holds
`file`, the new page table is 2, `allocuvm` grants the size asked for, `safestrcpy` keeps
at most `n - 1` characters. -/
def fileEnv (file : List Nat) : Env Unit where
  begin_op := id
  end_op := id
  cprintf := id
  namei := fun _ w => (1, w)
  ilock := fun _ w => w
  readi := fun _ off n w => (readiFile file [] off n, w)
  setupkvm := fun w => (2, w)
  allocuvm := fun _ _ newsz w => (newsz, w)
  loaduvm := fun _ _ _ _ _ w => (0, w)
  iunlockput := fun _ w => w
  clearpteu := fun _ _ w => w
  copyout := fun _ _ _ w => (0, w)
  safestrcpy := fun _ src n w => (src.take (n - 1), w)
  switchuvm := fun _ w => w
  freevm := fun _ w => w

/-- A file that is just the four magic bytes followed by zeros: a header with no segment. -/
def emptyElf : List Nat := [0x7F, 0x45, 0x4C, 0x46] ++ List.replicate 48 0

/-- A 52-byte file whose header announces one program header at offset 52, which the
file does not contain. -/
def truncElf : List Nat :=
  [0x7F, 0x45, 0x4C, 0x46] ++ List.replicate 24 0 ++ [52, 0, 0, 0] ++ List.replicate 12 0
    ++ [1, 0] ++ List.replicate 6 0

/-- A process record to start from. -/
def proc0 : Proc := { pgdir := 3, sz := 4096, tf_eip := 0, tf_esp := 4096, name := [105] }

/-- Modelled from the spec: `write_bytes_into(space, vaddr, bytes) -> ok | fail`, the
function `copyout` of `vm.c` (not among the sources), when it succeeds: the bytes land at
`va`, `va + 1`, ... of the address space. -/
def writeBytes (m : Mem) (va : Nat) (data : List Nat) : Mem :=
  fun a => if va ≤ a ∧ a < va + data.length then data.getD (a - va) 0 else m a

/-- The effect of one call on the memory of the new address space: a `copyout` that did
not fail writes its bytes, no other call of the stack phase writes. -/
def Event.write : Event → Mem → Mem
  | Event.copyout _ va data ret, m => if ret < 0 then m else writeBytes m va data
  | _, m => m

/-- The memory of the new address space after the calls of a trace, from memory `m`. -/
def userMem (tr : List Event) (m : Mem) : Mem :=
  tr.foldl (fun acc e => e.write acc) m

/-- The word `k` words above the stack pointer that `exec` committed, read in the memory
of the new address space. -/
def stackWord {W : Type} (r : ExecResult W) (m : Mem) (k : Nat) : Nat :=
  load32 (userMem r.tr m) (r.proc.tf_esp + 4 * k)

/-- The ways `exec` can end, each with the trace it leaves: the file is not found; the
header is short or has the wrong magic; `setupkvm` fails; a segment is rejected; the
stack cannot be built; the image is committed. -/
inductive ExecShape {W : Type} (path : List Nat) (p : Proc) : ExecResult W → Prop where
  | noFile (r : ExecResult W) (hret : r.ret = -1) (hproc : r.proc = p)
      (htr : r.tr = [Event.begin_op, Event.namei path 0, Event.end_op, Event.cprintf]) :
      ExecShape path p r
  | badHeader (r : ExecResult W) (ip : Nat) (n : Int) (hip : ip ≠ 0) (hret : r.ret = -1)
      (hproc : r.proc = p)
      (htr : r.tr = [Event.begin_op, Event.namei path ip, Event.ilock ip,
        Event.readi ip 0 SIZEOF_ELFHDR n, Event.iunlockput ip, Event.end_op]) :
      ExecShape path p r
  | noPgdir (r : ExecResult W) (ip : Nat) (n : Int) (hip : ip ≠ 0) (hret : r.ret = -1)
      (hproc : r.proc = p)
      (htr : r.tr = [Event.begin_op, Event.namei path ip, Event.ilock ip,
        Event.readi ip 0 SIZEOF_ELFHDR n, Event.setupkvm 0, Event.iunlockput ip,
        Event.end_op]) :
      ExecShape path p r
  | badSegment (r : ExecResult W) (ip : Nat) (n : Int) (pg : Nat) (segs : List Event)
      (hip : ip ≠ 0) (hpg : pg ≠ 0) (hsegs : ∀ e ∈ segs, e.isSeg = true)
      (hret : r.ret = -1) (hproc : r.proc = p)
      (htr : r.tr = [Event.begin_op, Event.namei path ip, Event.ilock ip,
        Event.readi ip 0 SIZEOF_ELFHDR n, Event.setupkvm pg] ++ segs
        ++ [Event.freevm pg, Event.iunlockput ip, Event.end_op]) :
      ExecShape path p r
  | badStack (r : ExecResult W) (ip : Nat) (n : Int) (pg : Nat) (segs stk : List Event)
      (hip : ip ≠ 0) (hpg : pg ≠ 0) (hsegs : ∀ e ∈ segs, e.isSeg = true)
      (hstk : ∀ e ∈ stk, e.isStk = true) (hret : r.ret = -1) (hproc : r.proc = p)
      (htr : r.tr = [Event.begin_op, Event.namei path ip, Event.ilock ip,
        Event.readi ip 0 SIZEOF_ELFHDR n, Event.setupkvm pg] ++ segs
        ++ [Event.iunlockput ip, Event.end_op] ++ stk ++ [Event.freevm pg]) :
      ExecShape path p r
  | committed (r : ExecResult W) (ip : Nat) (n : Int) (pg : Nat) (segs stk : List Event)
      (src : List Nat) (k : Nat)
      (hip : ip ≠ 0) (hpg : pg ≠ 0) (hsegs : ∀ e ∈ segs, e.isSeg = true)
      (hstk : ∀ e ∈ stk, e.isStk = true) (hret : r.ret = 0) (hproc : r.proc.pgdir = pg)
      (htr : r.tr = [Event.begin_op, Event.namei path ip, Event.ilock ip,
        Event.readi ip 0 SIZEOF_ELFHDR n, Event.setupkvm pg] ++ segs
        ++ [Event.iunlockput ip, Event.end_op] ++ stk
        ++ [Event.safestrcpy src k, Event.switchuvm r.proc, Event.freevm p.pgdir]) :
      ExecShape path p r

/-- The inode `namei` returns to `exec` (0 when the file is not found). -/
def openedInode {W : Type} (env : Env W) (path : List Nat) (w : W) : Nat :=
  (env.namei path (env.begin_op w)).1

/-- What the header read of `exec` returns: the count, the buffer `elf`, the world. -/
def headerRead {W : Type} (env : Env W) (path : List Nat) (w : W) : (Int × List Nat) × W :=
  env.readi (openedInode env path w) 0 SIZEOF_ELFHDR
    (env.ilock (openedInode env path w) (env.namei path (env.begin_op w)).2)

/-- The header `exec` works with. -/
def headerOf {W : Type} (env : Env W) (path : List Nat) (w : W) : elfhdr :=
  parse_elfhdr (headerRead env path w).1.2

/-- The page table `setupkvm` returns to `exec`. -/
def newPgdir {W : Type} (env : Env W) (path : List Nat) (w : W) : Nat :=
  (env.setupkvm (headerRead env path w).2).1

/-- The state in which `exec` enters the segment loop. -/
def loopStart {W : Type} (env : Env W) (path : List Nat) (w : W) : XState W :=
  ⟨(env.setupkvm (headerRead env path w).2).2,
    [Event.begin_op] ++ [Event.namei path (openedInode env path w)]
      ++ [Event.ilock (openedInode env path w)]
      ++ [Event.readi (openedInode env path w) 0 SIZEOF_ELFHDR (headerRead env path w).1.1]
      ++ [Event.setupkvm (newPgdir env path w)]⟩

/-- The segment loop of `exec` as it is run on the file at `path`. -/
def segmentLoop {W : Type} (env : Env W) (c : Consts) (path : List Nat) (w : W) :
    Option Nat × XState W :=
  loadSegments env c (openedInode env path w) (newPgdir env path w)
    (headerOf env path w).phnum (headerOf env path w).phoff 0 (loopStart env path w)

/-- The indices at which line 117 of exec (`ustack[3+argc] = sp`) writes `ustack`, along
the run of the argument loop `pushArgs` makes from the same arguments. -/
def loopWrites {W : Type} (env : Env W) (c : Consts) (pgdir : Nat) :
    List (List Nat) → Nat → Nat → XState W → List Nat
  | [], _, _, _ => []
  | a :: rest, argc, sp, s =>
    if argc ≥ c.MAXARG then []
    else
      let sp1 := usub sp (a.length + 1) / 4 * 4
      let co := env.copyout pgdir sp1 (a ++ [0]) s.w
      let s1 : XState W := ⟨co.2, s.tr ++ [Event.copyout pgdir sp1 (a ++ [0]) co.1]⟩
      if co.1 < 0 then []
      else (3 + argc) :: loopWrites env c pgdir rest (argc + 1) sp1 s1

/-- Every index at which lines 117-123 of exec write `ustack` in the argument phase
entered with size `sz` in state `s`: those of the loop, then, when the loop is left
normally, `3+argc`, 0, 1 and 2. -/
def ustackWrites {W : Type} (env : Env W) (c : Consts) (pgdir : Nat)
    (argv : List (List Nat)) (sz : Nat) (s : XState W) : List Nat :=
  loopWrites env c pgdir argv 0 sz s
    ++ (match (pushArgs env c pgdir argv 0 sz (List.replicate (3 + c.MAXARG + 1) 0) s).1 with
      | none => []
      | some (argc, _, _) => [3 + argc, 0, 1, 2])

/-- A call of `loaduvm`. -/
def Event.isLoaduvm : Event → Bool
  | Event.loaduvm _ _ _ _ _ _ => true
  | _ => false

/-- Every `loaduvm` call of the trace comes right after the `allocuvm` call of the same
descriptor: the size asked for is `va + msz` for a memory size `msz` that is at least
the file size loaded, the sum does not wrap, `va` is page-aligned and `allocuvm` did not
return 0. -/
def LoadGuarded (c : Consts) (t : List Event) : Prop :=
  ∀ pg va ip off fsz lret, Event.loaduvm pg va ip off fsz lret ∈ t →
    ∃ msz oldsz aret, fsz ≤ msz ∧ va + msz < U32 ∧ va % c.PGSIZE = 0 ∧ aret % U32 ≠ 0
      ∧ [Event.allocuvm pg oldsz (va + msz) aret, Event.loaduvm pg va ip off fsz lret] <:+: t

/-- The program header the segment loop reads at file offset `off` in state `s`. -/
def descAt {W : Type} (env : Env W) (ip off : Nat) (s : XState W) : proghdr :=
  parse_proghdr (env.readi ip off SIZEOF_PROGHDR s.w).1.2

/-- The state of the segment loop right after it has read the header at `off`. -/
def afterRead {W : Type} (env : Env W) (ip off : Nat) (s : XState W) : XState W :=
  ⟨(env.readi ip off SIZEOF_PROGHDR s.w).2,
    s.tr ++ [Event.readi ip off SIZEOF_PROGHDR (env.readi ip off SIZEOF_PROGHDR s.w).1.1]⟩

/-- What `allocuvm` returns for the header read at `off` in state `s`, when asked to
extend the size `sz` to `vaddr + memsz`. -/
def allocAt {W : Type} (env : Env W) (ip pgdir off sz : Nat) (s : XState W) : Nat × W :=
  env.allocuvm pgdir sz
    (((descAt env ip off s).vaddr + (descAt env ip off s).memsz) % U32)
    (afterRead env ip off s).w

/-- The state of the segment loop right after that `allocuvm` call. -/
def afterAlloc {W : Type} (env : Env W) (ip pgdir off sz : Nat) (s : XState W) : XState W :=
  ⟨(allocAt env ip pgdir off sz s).2,
    (afterRead env ip off s).tr ++ [Event.allocuvm pgdir sz
      (((descAt env ip off s).vaddr + (descAt env ip off s).memsz) % U32)
      (allocAt env ip pgdir off sz s).1]⟩

/-- What `loaduvm` returns for the header read at `off` in state `s`. -/
def loadAt {W : Type} (env : Env W) (ip pgdir off sz : Nat) (s : XState W) : Int × W :=
  env.loaduvm pgdir (descAt env ip off s).vaddr ip (descAt env ip off s).off
    (descAt env ip off s).filesz (afterAlloc env ip pgdir off sz s).w

/-- The state of the segment loop right after that `loaduvm` call. -/
def afterLoad {W : Type} (env : Env W) (ip pgdir off sz : Nat) (s : XState W) : XState W :=
  ⟨(loadAt env ip pgdir off sz s).2,
    (afterAlloc env ip pgdir off sz s).tr ++ [Event.loaduvm pgdir (descAt env ip off s).vaddr
      ip (descAt env ip off s).off (descAt env ip off s).filesz
      (loadAt env ip pgdir off sz s).1]⟩

/-- The conditions under which `exec` enters the segment loop: the file is found, the
header read is complete, the magic is right and `setupkvm` returns a page table. -/
def ReachesLoop {W : Type} (env : Env W) (path : List Nat) (w : W) : Prop :=
  openedInode env path w ≠ 0 ∧ (headerRead env path w).1.1 = SIZEOF_ELFHDR
    ∧ (headerOf env path w).magic = ELF_MAGIC ∧ newPgdir env path w ≠ 0

instance {W : Type} (env : Env W) (path : List Nat) (w : W) :
    Decidable (ReachesLoop env path w) :=
  inferInstanceAs (Decidable (openedInode env path w ≠ 0
    ∧ (headerRead env path w).1.1 = SIZEOF_ELFHDR
    ∧ (headerOf env path w).magic = ELF_MAGIC ∧ newPgdir env path w ≠ 0))

/-- The bytes of an ELF header with entry point `entry` and `phnum` program headers
placed right after it, at offset 52. -/
def elfHeaderBytes (entry phnum : Nat) : List Nat :=
  [0x7F, 0x45, 0x4C, 0x46] ++ List.replicate 20 0 ++ bytes32 entry ++ bytes32 52
    ++ List.replicate 12 0 ++ [phnum % 256, phnum / 256 % 256] ++ List.replicate 6 0

/-- The bytes of a program header. -/
def progHeaderBytes (type off vaddr filesz memsz : Nat) : List Nat :=
  bytes32 type ++ bytes32 off ++ bytes32 vaddr ++ bytes32 0 ++ bytes32 filesz
    ++ bytes32 memsz ++ bytes32 0 ++ bytes32 0

/-- A file with one loadable segment at the misaligned address 1. -/
def misalignedElf : List Nat :=
  elfHeaderBytes 0 1 ++ progHeaderBytes 1 0 1 0 16

/-- A file with one loadable segment of size zero at address 0. -/
def zeroSegElf : List Nat :=
  elfHeaderBytes 0 1 ++ progHeaderBytes 1 0 0 0 0

/-- A file with one loadable segment of size zero at address 4096. -/
def zeroSegHighElf : List Nat :=
  elfHeaderBytes 0 1 ++ progHeaderBytes 1 0 4096 0 0

/-- A call of `copyout`. -/
def Event.isCopyout : Event → Bool
  | Event.copyout _ _ _ _ => true
  | _ => false

/-- What `allocuvm` returns when `exec`, having left the segment loop with the size `top`
in state `s4` and released the inode, asks for the two pages of the stack. -/
def stackAlloc {W : Type} (env : Env W) (c : Consts) (path : List Nat) (w : W) (top : Nat)
    (s4 : XState W) : Nat × W :=
  env.allocuvm (newPgdir env path w) (PGROUNDUP c top)
    ((PGROUNDUP c top + 2 * c.PGSIZE) % U32)
    (env.end_op (env.iunlockput (openedInode env path w) s4.w))

/-- The state in which `exec` enters the argument loop, after `clearpteu`. -/
def argsStart {W : Type} (env : Env W) (c : Consts) (path : List Nat) (w : W) (top : Nat)
    (s4 : XState W) : XState W :=
  ⟨env.clearpteu (newPgdir env path w)
      (usub ((stackAlloc env c path w top s4).1 % U32) (2 * c.PGSIZE))
      (stackAlloc env c path w top s4).2,
    s4.tr ++ [Event.iunlockput (openedInode env path w), Event.end_op]
      ++ [Event.allocuvm (newPgdir env path w) (PGROUNDUP c top)
        ((PGROUNDUP c top + 2 * c.PGSIZE) % U32) (stackAlloc env c path w top s4).1]
      ++ [Event.clearpteu (newPgdir env path w)
        (usub ((stackAlloc env c path w top s4).1 % U32) (2 * c.PGSIZE))]⟩

/-- Every fallible step of `exec` succeeds: the loop is reached and left normally, the
stack `allocuvm` returns a non-zero size, the argument loop is left normally and the
`copyout` of `ustack` does not fail. -/
def StepsSucceed {W : Type} (env : Env W) (c : Consts) (path : List Nat)
    (argv : List (List Nat)) (w : W) : Prop :=
  ReachesLoop env path w
  ∧ ∃ top s4, segmentLoop env c path w = (some top, s4)
    ∧ (stackAlloc env c path w top s4).1 % U32 ≠ 0
    ∧ ∃ argc sp us s3,
        pushArgs env c (newPgdir env path w) argv 0 ((stackAlloc env c path w top s4).1 % U32)
            (List.replicate (3 + c.MAXARG + 1) 0) (argsStart env c path w top s4)
          = (some (argc, sp, us), s3)
        ∧ ¬ (env.copyout (newPgdir env path w) (usub sp ((3 + argc + 1) * 4))
            (wordsBytes (finishUstack us argc sp) (3 + argc + 1)) s3.w).1 < 0

/-- The stack phase of `exec` as lines 104-108 describe it, for the aligned size `base` the
phase starts from and the trace `t0` the segment loop has left: `allocuvm` is asked for and
returns `base + 2*PGSIZE`, `clearpteu` is called on `base`, the argument phase is entered
with that size as `sz` and as the first `sp`, and a run that returns 0 commits that
size. -/
def StackBuilt {W : Type} (env : Env W) (c : Consts) (path : List Nat)
    (argv : List (List Nat)) (p : Proc) (w : W) (t0 : List Event) (base : Nat) : Prop :=
  ∃ st : XState W,
    exec env c path argv p w
      = execArgs env c path argv p (newPgdir env path w) ((base + 2 * c.PGSIZE) % U32)
          (headerOf env path w).entry st
    ∧ st.tr = t0 ++ [Event.iunlockput (openedInode env path w), Event.end_op,
        Event.allocuvm (newPgdir env path w) base ((base + 2 * c.PGSIZE) % U32)
          ((base + 2 * c.PGSIZE) % U32),
        Event.clearpteu (newPgdir env path w) base]
    ∧ ((exec env c path argv p w).ret = 0 ↔
        ∃ argc sp us s3,
          pushArgs env c (newPgdir env path w) argv 0 ((base + 2 * c.PGSIZE) % U32)
              (List.replicate (3 + c.MAXARG + 1) 0) st = (some (argc, sp, us), s3)
          ∧ ¬ (env.copyout (newPgdir env path w) (usub sp ((3 + argc + 1) * 4))
              (wordsBytes (finishUstack us argc sp) (3 + argc + 1)) s3.w).1 < 0)
    ∧ ((exec env c path argv p w).ret = 0 →
        (exec env c path argv p w).proc.sz = (base + 2 * c.PGSIZE) % U32)

/-- A write of `len` bytes at `va` touches the guard page `[sz - 2*PGSIZE, sz - PGSIZE)`
of a space of size `sz`; addresses are 32-bit, so the range of the write may wrap. -/
def TouchesGuard (c : Consts) (sz va len : Nat) : Prop :=
  ∃ j, j < len ∧ sz - 2 * c.PGSIZE ≤ (va + j) % U32 ∧ (va + j) % U32 < sz - c.PGSIZE

instance (c : Consts) (sz va len : Nat) : Decidable (TouchesGuard c sz va len) :=
  inferInstanceAs (Decidable (∃ j, j < len ∧ sz - 2 * c.PGSIZE ≤ (va + j) % U32
    ∧ (va + j) % U32 < sz - c.PGSIZE))

/-- The assumption on `copyout`: it fails whenever its destination range touches the
guard page of a space of size `sz`. -/
def CopyoutGuarded {W : Type} (env : Env W) (c : Consts) (sz : Nat) : Prop :=
  ∀ pgdir va data w, TouchesGuard c sz va data.length → (env.copyout pgdir va data w).1 < 0

/-- The address `a` lies in the stack page `[sz - PGSIZE, sz)` and is 4-byte aligned. -/
def InStackPage (c : Consts) (sz a : Nat) : Prop :=
  sz - c.PGSIZE ≤ a ∧ a < sz ∧ a % 4 = 0

/-- The collaborators of `fileEnv`, except that `copyout` fails when its destination
touches the guard page `[0, 4096)` of a space of two pages. -/
def guardEnv (file : List Nat) : Env Unit :=
  { fileEnv file with
    copyout := fun _ va data w =>
      if TouchesGuard xv6Consts 8192 va data.length then (-1, w) else (0, w) }

/-- The write of an event, when it is a `copyout`, starts at an aligned address of the
stack page `[sz - PGSIZE, sz)` and ends inside it. -/
def Event.inStackPage (c : Consts) (sz : Nat) : Event → Prop
  | Event.copyout _ va data _ => InStackPage c sz va ∧ va + data.length ≤ sz
  | _ => True

/-- Modelled from the spec: the effect of one call on the bytes of the new address space,
under the assumptions the zero-fill property names. `allocuvm`, when it does not fail,
zero-fills the bytes it newly maps: the bytes of every page whose base is at or above the
first page boundary at or above `oldsz` and below the size it returns; `loaduvm`, when it
does not fail, writes exactly the `sz` bytes found at offset `off` of the file behind `ip`
to the addresses from `va` on; a `copyout` that does not fail writes its bytes.
`file ip i` is byte `i` of the file behind inode `ip`. -/
def Event.effect (c : Consts) (file : Nat → Nat → Nat) : Event → Mem → Mem
  | Event.allocuvm _ oldsz _ ret, m =>
    if ret % U32 = 0 then m
    else fun a =>
      if PGROUNDUP c oldsz ≤ a ∧ a / c.PGSIZE * c.PGSIZE < ret % U32 then 0 else m a
  | Event.loaduvm _ va ip off sz ret, m =>
    if ret < 0 then m
    else fun a => if va ≤ a ∧ a < va + sz then file ip (off + (a - va)) else m a
  | Event.copyout _ va data ret, m => if ret < 0 then m else writeBytes m va data
  | _, m => m

/-- The bytes of the new address space after the calls of a trace, from memory `m`. -/
def imageMem (c : Consts) (file : Nat → Nat → Nat) (tr : List Event) (m : Mem) : Mem :=
  tr.foldl (fun acc e => e.effect c file acc) m

/-- The program headers of the segments that the segment loop of exec (lines 69-87) loads,
in the order of the loop, along the run `loadSegments` makes from the same arguments. -/
def loadedSegments {W : Type} (env : Env W) (c : Consts) (ip pgdir : Nat) :
    Nat → Nat → Nat → XState W → List proghdr
  | 0, _, _, _ => []
  | n + 1, off, sz, s =>
    let rd := env.readi ip off SIZEOF_PROGHDR s.w
    let s1 : XState W := ⟨rd.2, s.tr ++ [Event.readi ip off SIZEOF_PROGHDR rd.1.1]⟩
    if rd.1.1 ≠ SIZEOF_PROGHDR then []
    else
      let ph := parse_proghdr rd.1.2
      if ph.type ≠ ELF_PROG_LOAD then
        loadedSegments env c ip pgdir n ((off + SIZEOF_PROGHDR) % U32) sz s1
      else if ph.memsz < ph.filesz then []
      else if (ph.vaddr + ph.memsz) % U32 < ph.vaddr then []
      else
        let al := env.allocuvm pgdir sz ((ph.vaddr + ph.memsz) % U32) s1.w
        let s2 : XState W :=
          ⟨al.2, s1.tr ++ [Event.allocuvm pgdir sz ((ph.vaddr + ph.memsz) % U32) al.1]⟩
        if al.1 % U32 = 0 then []
        else if ph.vaddr % c.PGSIZE ≠ 0 then []
        else
          let ld := env.loaduvm pgdir ph.vaddr ip ph.off ph.filesz s2.w
          let s3 : XState W :=
            ⟨ld.2, s2.tr ++ [Event.loaduvm pgdir ph.vaddr ip ph.off ph.filesz ld.1]⟩
          if ld.1 < 0 then []
          else ph :: loadedSegments env c ip pgdir n ((off + SIZEOF_PROGHDR) % U32)
            (al.1 % U32) s3

/-- The loadable segments of the file at `path`, as `exec` loads them. -/
def imageSegments {W : Type} (env : Env W) (c : Consts) (path : List Nat) (w : W) :
    List proghdr :=
  loadedSegments env c (openedInode env path w) (newPgdir env path w)
    (headerOf env path w).phnum (headerOf env path w).phoff 0 (loopStart env path w)

/-- The bytes `loaduvm` writes for the segment `q`, the range `[vaddr, vaddr + filesz)` of
`q`, meet the range `[vaddr + filesz, vaddr + memsz)` of the segment `p`, the bytes of `p`
that no byte of the file is loaded to. -/
def Clobbers (q p : proghdr) : Prop :=
  p.vaddr + p.filesz < q.vaddr + q.filesz ∧ q.vaddr < p.vaddr + p.memsz
    ∧ q.vaddr < q.vaddr + q.filesz ∧ p.vaddr + p.filesz < p.vaddr + p.memsz

instance (q p : proghdr) : Decidable (Clobbers q p) :=
  inferInstanceAs (Decidable (p.vaddr + p.filesz < q.vaddr + q.filesz
    ∧ q.vaddr < p.vaddr + p.memsz
    ∧ q.vaddr < q.vaddr + q.filesz ∧ p.vaddr + p.filesz < p.vaddr + p.memsz))

/-- The assumption on `allocuvm`: asked to grow the space, it returns the size it was asked
for unless it fails. -/
def AllocGrants {W : Type} (env : Env W) : Prop :=
  ∀ pgdir oldsz newsz w, oldsz ≤ newsz → (env.allocuvm pgdir oldsz newsz w).1 % U32 ≠ 0 →
    (env.allocuvm pgdir oldsz newsz w).1 = newsz

/-- The bytes of one file, whatever the inode. -/
def fileBytes (file : List Nat) : Nat → Nat → Nat := fun _ i => file.getD i 0

/-- A file with two loadable segments in descending order that do not overlap: the first
at address 8192, the second at address 0, each with 4 bytes from the file and 4096 in
memory. -/
def descElf : List Nat :=
  elfHeaderBytes 0 2 ++ progHeaderBytes 1 0 8192 4 4096 ++ progHeaderBytes 1 0 0 4 4096

/-- The collaborators of `fileEnv`, except that `allocuvm` never shrinks the space: asked
for less than the old size, it returns the old size. -/
def maxEnv (file : List Nat) : Env Unit :=
  { fileEnv file with allocuvm := fun _ oldsz newsz w => (max oldsz newsz, w) }

/-- A file with two loadable segments at the same address 0: the first has no bytes from
the file and 4096 in memory, the second 4 bytes from the file and 4096 in memory. -/
def overlapElf : List Nat :=
  elfHeaderBytes 0 2 ++ progHeaderBytes 1 0 0 0 4096 ++ progHeaderBytes 1 0 0 4 4096

/-- The call `e` leaves a zero byte at address `a` zero. -/
def KeepsZero (c : Consts) (file : Nat → Nat → Nat) (a : Nat) (e : Event) : Prop :=
  ∀ m : Mem, m a = 0 → e.effect c file m a = 0

instance (c : Consts) (sz a : Nat) : Decidable (InStackPage c sz a) :=
  inferInstanceAs (Decidable (sz - c.PGSIZE ≤ a ∧ a < sz ∧ a % 4 = 0))

instance (c : Consts) (sz : Nat) : DecidablePred (Event.inStackPage c sz)
  | Event.copyout _ va data _ =>
    inferInstanceAs (Decidable (InStackPage c sz va ∧ va + data.length ≤ sz))
  | Event.begin_op => isTrue trivial
  | Event.end_op => isTrue trivial
  | Event.cprintf => isTrue trivial
  | Event.namei _ _ => isTrue trivial
  | Event.ilock _ => isTrue trivial
  | Event.readi _ _ _ _ => isTrue trivial
  | Event.setupkvm _ => isTrue trivial
  | Event.allocuvm _ _ _ _ => isTrue trivial
  | Event.loaduvm _ _ _ _ _ _ => isTrue trivial
  | Event.iunlockput _ => isTrue trivial
  | Event.clearpteu _ _ => isTrue trivial
  | Event.safestrcpy _ _ => isTrue trivial
  | Event.switchuvm _ => isTrue trivial
  | Event.freevm _ => isTrue trivial

/-! ## Memory lemmas -/

theorem load32_lt (m : Mem) (a : Nat) : load32 m a < U32 := by
  unfold load32 U32; omega

theorem load32_congr (m m1 : Mem) (a : Nat) (h : ∀ i, i < 4 → m1 (a + i) = m (a + i)) :
    load32 m1 a = load32 m a := by
  have h0 := h 0 (by omega)
  have h1 := h 1 (by omega)
  have h2 := h 2 (by omega)
  have h3 := h 3 (by omega)
  simp only [Nat.add_zero] at h0
  unfold load32
  rw [h0, h1, h2, h3]

theorem store32_far (m : Mem) (a x b : Nat) (h : b < a ∨ a + 4 ≤ b) :
    store32 m a x b = m b := by
  unfold store32
  have h0 : b ≠ a := by omega
  have h1 : b ≠ a + 1 := by omega
  have h2 : b ≠ a + 2 := by omega
  have h3 : b ≠ a + 3 := by omega
  simp [h0, h1, h2, h3]

theorem memset_far (m : Mem) (dst c n b : Nat) (h : b < dst ∨ dst + n ≤ b) :
    memset m dst c n b = m b := by
  unfold memset
  have : ¬ (dst ≤ b ∧ b < dst + n) := by omega
  simp [this]

theorem memset_in (m : Mem) (dst c n b : Nat) (h1 : dst ≤ b) (h2 : b < dst + n) :
    memset m dst c n b = c := by
  unfold memset
  simp [h1, h2]

theorem load32_store32 (m : Mem) (a x : Nat) :
    load32 (store32 m a x) a = x % U32 := by
  unfold load32 store32 U32 at *
  simp
  omega

theorem load32_store32_same (m : Mem) (a x : Nat) (hx : x < U32) :
    load32 (store32 m a x) a = x := by
  rw [load32_store32, Nat.mod_eq_of_lt hx]

theorem aligned_apart (p u v : Nat) (hu : u % p = 0) (hv : v % p = 0)
    (hne : u ≠ v) : u + p ≤ v ∨ v + p ≤ u := by
  obtain ⟨k, rfl⟩ := Nat.dvd_of_mod_eq_zero hu
  obtain ⟨l, rfl⟩ := Nat.dvd_of_mod_eq_zero hv
  rcases Nat.lt_trichotomy k l with h | h | h
  · left
    calc p * k + p = p * (k + 1) := by ring
      _ ≤ p * l := Nat.mul_le_mul_left p h
  · exact absurd (by rw [h]) hne
  · right
    calc p * l + p = p * (l + 1) := by ring
      _ ≤ p * k := Nat.mul_le_mul_left p h

/-! ## What one call does -/

theorem kfree_ok (c : Consts) (v : Nat) (s : KState) (h : ¬ kfreeBad c v) :
    kfree c v s = KResult.ok
      { locked := if s.use_lock then false else s.locked
        use_lock := s.use_lock
        freelist := v
        mem := store32 (memset s.mem v 1 c.PGSIZE) v s.freelist } := by
  unfold kfree
  rw [if_neg h]
  cases hl : s.use_lock <;> simp [hl, acquire, release]

theorem kfree_panic (c : Consts) (v : Nat) (s : KState) (h : kfreeBad c v) :
    kfree c v s = KResult.panic s := by
  unfold kfree
  rw [if_pos h]

theorem kalloc_fst (s : KState) : (kalloc s).1 = s.freelist := by
  unfold kalloc
  cases hl : s.use_lock <;> simp [hl, acquire]

theorem kalloc_mem (s : KState) : (kalloc s).2.mem = s.mem := by
  unfold kalloc
  cases hl : s.use_lock <;> by_cases h0 : s.freelist = 0 <;> simp [hl, h0, acquire, release]

theorem kalloc_freelist (s : KState) :
    (kalloc s).2.freelist = if s.freelist ≠ 0 then load32 s.mem s.freelist else 0 := by
  unfold kalloc
  cases hl : s.use_lock <;> by_cases h0 : s.freelist = 0 <;> simp [hl, h0, acquire, release]

/-! ## The free list as a list of frames -/

theorem chain_congr (m m1 : Mem) :
    ∀ (l : List Nat) (h : Nat), (∀ u ∈ l, load32 m1 u = load32 m u) →
      chain m h l → chain m1 h l
  | [], _, _, hc => hc
  | v :: l, _, hl, hc => by
    obtain ⟨h1, h2, h3⟩ := hc
    refine ⟨h1, h2, ?_⟩
    rw [hl v (List.mem_cons_self _ _)]
    exact chain_congr m m1 l _ (fun u hu => hl u (List.mem_cons_of_mem _ hu)) h3

theorem okFrame_ne_zero (c : Consts) (v : Nat) (hc : c.WF) (hv : okFrame c v) : v ≠ 0 := by
  have h1 : ¬ v < c.kend := fun h => hv.1 (Or.inr (Or.inl h))
  have h2 := hc.2
  omega

theorem okFrame_aligned (c : Consts) (v : Nat) (hv : okFrame c v) : v % c.PGSIZE = 0 := by
  by_contra h
  exact hv.1 (Or.inl h)

/-- The writes of `kfree(v)` leave the `next` word of every other frame alone. -/
theorem kfree_mem_other (c : Consts) (m : Mem) (u v x : Nat) (hc : c.WF)
    (hu : u % c.PGSIZE = 0) (hv : v % c.PGSIZE = 0) (hne : u ≠ v) :
    load32 (store32 (memset m v 1 c.PGSIZE) v x) u = load32 m u := by
  have h4 := hc.1
  have hap := aligned_apart c.PGSIZE u v hu hv hne
  apply load32_congr
  intro i hi
  rw [store32_far _ _ _ _ (by omega), memset_far _ _ _ _ _ (by omega)]

theorem chain_head_lt (c : Consts) (s : KState) (l : List Nat) (h : FreeList c s l) :
    s.freelist < U32 := by
  cases l with
  | nil =>
    have h0 : s.freelist = 0 := h.1
    rw [h0]; decide
  | cons v l =>
    have h0 : s.freelist = v := h.1.1
    rw [h0]
    exact (h.2.2 v (List.mem_cons_self _ _)).2

/-- Pushing: `kfree` of an acceptable frame that is not on the free list returns and puts
the frame at the head of the list. -/
theorem FreeList_kfree (c : Consts) (s : KState) (l : List Nat) (v : Nat) (hc : c.WF)
    (hl : FreeList c s l) (hv : okFrame c v) (hnew : v ∉ l) :
    ∃ s1, kfree c v s = KResult.ok s1 ∧ FreeList c s1 (v :: l)
      ∧ s1.use_lock = s.use_lock := by
  refine ⟨_, kfree_ok c v s hv.1, ⟨?_, ?_, ?_⟩, rfl⟩
  · refine ⟨rfl, okFrame_ne_zero c v hc hv, ?_⟩
    show chain _ (load32 (store32 (memset s.mem v 1 c.PGSIZE) v s.freelist) v) l
    rw [load32_store32_same _ _ _ (chain_head_lt c s l hl)]
    apply chain_congr s.mem _ l _ _ hl.1
    intro u hu
    apply kfree_mem_other c _ u v _ hc (okFrame_aligned c u (hl.2.2 u hu))
      (okFrame_aligned c v hv)
    rintro rfl
    exact hnew hu
  · exact List.nodup_cons.mpr ⟨hnew, hl.2.1⟩
  · intro u hu
    rcases List.mem_cons.mp hu with rfl | h
    · exact hv
    · exact hl.2.2 u h

/-- Popping from a non-empty free list. -/
theorem FreeList_kalloc_cons (c : Consts) (s : KState) (l : List Nat) (v : Nat)
    (hl : FreeList c s (v :: l)) :
    (kalloc s).1 = v ∧ FreeList c (kalloc s).2 l
      ∧ (kalloc s).2.use_lock = s.use_lock := by
  obtain ⟨⟨h1, h2, h3⟩, hnd, hok⟩ := hl
  refine ⟨by rw [kalloc_fst, h1], ⟨?_, (List.nodup_cons.mp hnd).2,
    fun u hu => hok u (List.mem_cons_of_mem _ hu)⟩, ?_⟩
  · rw [kalloc_mem, kalloc_freelist, h1, if_pos h2]
    exact h3
  · unfold kalloc
    cases hlk : s.use_lock <;> by_cases h0 : s.freelist = 0 <;>
      simp [hlk, h0, acquire, release]

/-- Popping from the empty free list reports exhaustion. -/
theorem FreeList_kalloc_nil (c : Consts) (s : KState) (hl : FreeList c s []) :
    (kalloc s).1 = 0 ∧ FreeList c (kalloc s).2 []
      ∧ (kalloc s).2.use_lock = s.use_lock := by
  have h0 : s.freelist = 0 := hl.1
  refine ⟨by rw [kalloc_fst, h0], ⟨?_, List.nodup_nil, fun u hu => by cases hu⟩, ?_⟩
  · show (kalloc s).2.freelist = 0
    rw [kalloc_freelist, h0]; simp
  · unfold kalloc
    cases hlk : s.use_lock <;> simp [hlk, h0, acquire, release]

/-! ## Runs of calls -/

theorem runOps_kalloc (c : Consts) (ops : List Op) (s : KState) :
    (runOps c (Op.kalloc :: ops) s).1
      = KEvent.alloc (kalloc s).1 :: (runOps c ops (kalloc s).2).1 := rfl

theorem runOps_kfree_ok (c : Consts) (ops : List Op) (s s1 : KState) (v : Nat)
    (h : kfree c v s = KResult.ok s1) :
    (runOps c (Op.kfree v :: ops) s).1 = KEvent.free v :: (runOps c ops s1).1 := by
  simp only [runOps, h]

/-- Freeing distinct acceptable frames that are not on the free list pushes them all. -/
theorem runOps_frees (c : Consts) (hc : c.WF) (rest : List Op) :
    ∀ (frames l : List Nat) (s : KState), FreeList c s l → frames.Nodup →
      (∀ v ∈ frames, okFrame c v) → (∀ v ∈ frames, v ∉ l) →
      ∃ s1, FreeList c s1 (frames.reverse ++ l) ∧
        (runOps c (frames.map Op.kfree ++ rest) s).1
          = frames.map KEvent.free ++ (runOps c rest s1).1
  | [], l, s, hl, _, _, _ => ⟨s, by simpa using hl, by simp⟩
  | v :: frames, l, s, hl, hnd, hok, hdis => by
    obtain ⟨hvn, hnd1⟩ := List.nodup_cons.mp hnd
    obtain ⟨s1, hk, hl1, _⟩ := FreeList_kfree c s l v hc hl
      (hok v (List.mem_cons_self _ _)) (hdis v (List.mem_cons_self _ _))
    obtain ⟨s2, hl2, hrun⟩ := runOps_frees c hc rest frames (v :: l) s1 hl1 hnd1
      (fun u hu => hok u (List.mem_cons_of_mem _ hu))
      (fun u hu hmem => by
        rcases List.mem_cons.mp hmem with rfl | h
        · exact hvn hu
        · exact hdis u (List.mem_cons_of_mem _ hu) h)
    refine ⟨s2, by simpa using hl2, ?_⟩
    simp only [List.map_cons, List.cons_append]
    rw [runOps_kfree_ok c _ s s1 v hk, hrun]

/-- As many `kalloc` calls as the free list has leading frames pop exactly those frames. -/
theorem runOps_allocs (c : Consts) (rest : List Op) :
    ∀ (l1 l2 : List Nat) (s : KState), FreeList c s (l1 ++ l2) →
      ∃ s1, FreeList c s1 l2 ∧
        (runOps c (List.replicate l1.length Op.kalloc ++ rest) s).1
          = l1.map KEvent.alloc ++ (runOps c rest s1).1
  | [], l2, s, hl => ⟨s, by simpa using hl, by simp⟩
  | v :: l1, l2, s, hl => by
    obtain ⟨h1, h2, _⟩ := FreeList_kalloc_cons c s (l1 ++ l2) v hl
    obtain ⟨s1, hl1, hrun⟩ := runOps_allocs c rest l1 l2 (kalloc s).2 h2
    refine ⟨s1, hl1, ?_⟩
    simp only [List.length_cons, List.replicate_succ, List.cons_append, List.map_cons]
    rw [runOps_kalloc, hrun, h1]

/-! ## The claims about the allocator -/

/-- C3 (exhaustion). Start from an empty free list, with any memory contents and either
setting of `use_lock`. Free N frames (N distinct acceptable frames, in any order), then
call `kalloc` N times: the N calls return the N frames, last freed first, all non-null.
The (N+1)-th `kalloc` returns 0. After one further `kfree` of an acceptable frame `w`,
one `kalloc` returns `w`, which is not null, and the next `kalloc` returns 0 again. -/
theorem kalloc_exhaustion (c : Consts) (s : KState) (frames : List Nat) (w : Nat)
    (hc : c.WF) (hempty : s.freelist = 0) (hnd : frames.Nodup)
    (hok : ∀ v ∈ frames, okFrame c v) (hw : okFrame c w) :
    (runOps c (frames.map Op.kfree ++ (List.replicate frames.length Op.kalloc
        ++ [Op.kalloc, Op.kfree w, Op.kalloc, Op.kalloc])) s).1
      = frames.map KEvent.free ++ (frames.reverse.map KEvent.alloc
        ++ [KEvent.alloc 0, KEvent.free w, KEvent.alloc w, KEvent.alloc 0])
    ∧ (∀ v ∈ frames, v ≠ 0) ∧ w ≠ 0 := by
  refine ⟨?_, fun v hv => okFrame_ne_zero c v hc (hok v hv), okFrame_ne_zero c w hc hw⟩
  have h0 : FreeList c s [] := ⟨hempty, List.nodup_nil, fun u hu => by cases hu⟩
  obtain ⟨s1, hl1, hrun1⟩ := runOps_frees c hc
    (List.replicate frames.length Op.kalloc
      ++ [Op.kalloc, Op.kfree w, Op.kalloc, Op.kalloc]) frames [] s h0 hnd hok
    (fun v _ hv => by cases hv)
  have hl1a : FreeList c s1 (frames.reverse ++ []) := hl1
  obtain ⟨s2, hl2, hrun2⟩ := runOps_allocs c
    [Op.kalloc, Op.kfree w, Op.kalloc, Op.kalloc] frames.reverse [] s1 hl1a
  rw [List.length_reverse] at hrun2
  rw [hrun1, hrun2]
  obtain ⟨a1, a2, _⟩ := FreeList_kalloc_nil c s2 hl2
  obtain ⟨s3, hk, hl3, _⟩ := FreeList_kfree c (kalloc s2).2 [] w hc a2 hw (by simp)
  obtain ⟨b1, b2, _⟩ := FreeList_kalloc_cons c s3 [] w hl3
  obtain ⟨d1, _, _⟩ := FreeList_kalloc_nil c (kalloc s3).2 b2
  rw [runOps_kalloc, runOps_kfree_ok c _ _ s3 w hk, runOps_kalloc, runOps_kalloc, a1, b1, d1]
  rfl

/-- C3 at a concrete input: two frames of the stock layout, then a third free. -/
theorem kalloc_exhaustion_witness :
    (runOps xv6Consts ([0x80200000, 0x80201000].map Op.kfree
        ++ (List.replicate 2 Op.kalloc
          ++ [Op.kalloc, Op.kfree 0x80200000, Op.kalloc, Op.kalloc]))
        (kmem0 (fun _ => 0))).1
      = [KEvent.free 0x80200000, KEvent.free 0x80201000, KEvent.alloc 0x80201000,
          KEvent.alloc 0x80200000, KEvent.alloc 0, KEvent.free 0x80200000,
          KEvent.alloc 0x80200000, KEvent.alloc 0] :=
  (kalloc_exhaustion xv6Consts (kmem0 (fun _ => 0)) [0x80200000, 0x80201000] 0x80200000
    (by decide) rfl (by decide) (by decide) (by decide)).1

/-- C4. `kfree(v)` panics if and only if `v` is not a multiple of `PGSIZE`, or `v < end`,
or `V2P(v) >= PHYSTOP`. When it panics the allocator state, free list and memory, is the
state before the call; when it does not, `v` is the head of the free list afterwards. -/
theorem kfree_panics_iff (c : Consts) (v : Nat) (s : KState) :
    ((kfree c v s).panicked = true ↔
        (v % c.PGSIZE ≠ 0 ∨ v < c.kend ∨ c.V2P v ≥ c.PHYSTOP))
    ∧ ((kfree c v s).panicked = true → (kfree c v s).state = s)
    ∧ ((kfree c v s).panicked = false → (kfree c v s).state.freelist = v) := by
  by_cases h : kfreeBad c v
  · rw [kfree_panic c v s h]
    exact ⟨⟨fun _ => h, fun _ => rfl⟩, fun _ => rfl, fun hp => (by cases hp)⟩
  · rw [kfree_ok c v s h]
    exact ⟨⟨fun hp => (by cases hp), fun hb => absurd hb h⟩, fun hp => (by cases hp),
      fun _ => rfl⟩

/-- C5 as stated fails: after `kfree` of a frame whose bytes were all 7, onto an empty free
list, the first byte of the frame reads 0 (the low byte of the `next` pointer), not 1. -/
theorem kfree_first_byte_counterexample :
    (kfree xv6Consts 0x80200000 (kmem0 (fun _ => 7))).panicked = false
    ∧ (kfree xv6Consts 0x80200000 (kmem0 (fun _ => 7))).state.mem (0x80200000 + 0) = 0 := by
  rw [kfree_ok xv6Consts 0x80200000 _ (by decide)]
  exact ⟨rfl, rfl⟩

/-- C5, amended. For every frame `v` that `kfree` accepts and every prior memory, after
`kfree(v)` every byte of the frame from offset 4 up to `PGSIZE` reads 1, and the first
four bytes hold the previous head of the free list (the `next` pointer of the node). -/
theorem kfree_fills_frame (c : Consts) (v : Nat) (s : KState) (hv : ¬ kfreeBad c v) :
    (kfree c v s).panicked = false
    ∧ (∀ i, 4 ≤ i → i < c.PGSIZE → (kfree c v s).state.mem (v + i) = 1)
    ∧ load32 (kfree c v s).state.mem v = s.freelist % U32 := by
  rw [kfree_ok c v s hv]
  refine ⟨rfl, fun i h4 hi => ?_, ?_⟩
  · show store32 (memset s.mem v 1 c.PGSIZE) v s.freelist (v + i) = 1
    rw [store32_far _ _ _ _ (by omega), memset_in _ _ _ _ _ (by omega) (by omega)]
  · exact load32_store32 _ _ _

/-- C5 amended, at a concrete input: the last byte of a frame of the stock layout. -/
theorem kfree_fills_frame_witness :
    (kfree xv6Consts 0x80200000 (kmem0 (fun _ => 7))).state.mem (0x80200000 + 4095) = 1 :=
  (kfree_fills_frame xv6Consts 0x80200000 (kmem0 (fun _ => 7)) (by decide)).2.1 4095
    (by decide) (by decide)

/-! ### The free-list invariant -/

theorem frameOK_iff (c : Consts) (v : Nat) : FrameOK c v ↔ ¬ kfreeBad c v := by
  unfold FrameOK kfreeBad
  constructor
  · rintro ⟨h1, h2, h3⟩ (h | h | h) <;> omega
  · intro h
    refine ⟨?_, ?_, ?_⟩
    · by_contra h1; exact h (Or.inl h1)
    · by_contra h1; exact h (Or.inr (Or.inl (by omega)))
    · by_contra h1; exact h (Or.inr (Or.inr (by omega)))

/-- After the writes of `kfree(v)`, whatever is reachable is `v` or was reachable before. -/
theorem reach_kfree (c : Consts) (m : Mem) (v hd : Nat) (h4 : 4 ≤ c.PGSIZE)
    (hv : FrameOK c v) (hhd : hd < U32) (hold : ∀ y, Reach m hd y → FrameOK c y)
    (x u : Nat) (hr : Reach (store32 (memset m v 1 c.PGSIZE) v hd) x u) :
    (x = v ∨ ∀ y, Reach m x y → FrameOK c y) → FrameOK c u := by
  induction hr with
  | head h hne =>
    rintro (rfl | hx)
    · exact hv
    · exact hx h (Reach.head h hne)
  | next h w hne _ ih =>
    intro hx
    by_cases hhv : h = v
    · subst hhv
      rw [load32_store32_same _ _ _ hhd] at ih
      exact ih (Or.inr hold)
    · have hx1 : ∀ y, Reach m h y → FrameOK c y := by
        rcases hx with hx | hx
        · exact absurd hx hhv
        · exact hx
      have hal : h % c.PGSIZE = 0 := (hx1 h (Reach.head h hne)).1
      have hap := aligned_apart c.PGSIZE h v hal hv.1 hhv
      have hld : load32 (store32 (memset m v 1 c.PGSIZE) v hd) h = load32 m h := by
        apply load32_congr
        intro i hi
        rw [store32_far _ _ _ _ (by omega), memset_far _ _ _ _ _ (by omega)]
      rw [hld] at ih
      exact ih (Or.inr (fun y hy => hx1 y (Reach.next h y hne hy)))

theorem reachable_inv (c : Consts) (h4 : 4 ≤ c.PGSIZE) (s : KState) (hr : Reachable c s) :
    s.freelist < U32 ∧ ∀ v, OnFreeList s v → FrameOK c v := by
  induction hr with
  | init s h =>
    refine ⟨by rw [h]; decide, fun v hv => ?_⟩
    unfold OnFreeList at hv
    rw [h] at hv
    cases hv with
    | head _ hne => exact absurd rfl hne
    | next _ _ hne _ => exact absurd rfl hne
  | kalloc s _ ih =>
    obtain ⟨ih1, ih2⟩ := ih
    unfold OnFreeList at *
    rw [kalloc_mem, kalloc_freelist]
    by_cases h0 : s.freelist = 0
    · simp only [h0, ne_eq, not_true_eq_false, if_false]
      rw [h0] at ih2
      exact ⟨by decide, ih2⟩
    · rw [if_pos h0]
      exact ⟨load32_lt _ _, fun v hv => ih2 v (Reach.next _ v h0 hv)⟩
  | kfree s s1 v _ hv hk ih =>
    obtain ⟨ih1, ih2⟩ := ih
    have hnb : ¬ kfreeBad c v := by
      intro hb
      rw [kfree_panic c v s hb] at hk
      cases hk
    rw [kfree_ok c v s hnb] at hk
    injection hk with hk
    subst hk
    refine ⟨hv, fun u hu => ?_⟩
    exact reach_kfree c s.mem v s.freelist h4 ((frameOK_iff c v).mpr hnb) ih1 ih2 v u hu
      (Or.inl rfl)

/-- C10 as stated fails at the lower bound: with a page-aligned `end`, `kfree(end)` does
not panic, so the frame at `end` itself is on the free list, and it does not lie strictly
after `end`. -/
theorem freelist_strict_counterexample :
    ¬ (∀ s, Reachable xv6Consts s → ∀ v, OnFreeList s v → FrameStrict xv6Consts v) := by
  intro h
  have hk := kfree_ok xv6Consts 0x80116000 (kmem0 (fun _ => 0)) (by decide)
  have hr := Reachable.kfree _ _ 0x80116000
    (Reachable.init (c := xv6Consts) (kmem0 (fun _ => 0)) rfl) (by decide) hk
  have hs := h _ hr 0x80116000 (Reach.head _ (by decide))
  exact absurd hs.2.1 (by decide)

/-- C10, amended. In every state reachable from an empty free list by `kalloc` calls and
non-panicking `kfree` calls, every frame reachable from `kmem.freelist` is a multiple of
`PGSIZE`, lies at or after `end`, and has `V2P` below `PHYSTOP`; so does every non-null
result of `kalloc`. -/
theorem freelist_invariant (c : Consts) (s : KState) (h4 : 4 ≤ c.PGSIZE)
    (hr : Reachable c s) :
    (∀ v, OnFreeList s v → FrameOK c v)
    ∧ ((kalloc s).1 ≠ 0 → FrameOK c (kalloc s).1) := by
  obtain ⟨_, h2⟩ := reachable_inv c h4 s hr
  refine ⟨h2, fun hne => ?_⟩
  rw [kalloc_fst] at hne ⊢
  exact h2 _ (Reach.head _ hne)

/-- C10 amended, at a concrete input: the state after `kfree(end)` in the stock layout. -/
theorem freelist_invariant_witness :
    FrameOK xv6Consts (kalloc (kfree xv6Consts 0x80116000 (kmem0 (fun _ => 0))).state).1 :=
  (freelist_invariant xv6Consts (kfree xv6Consts 0x80116000 (kmem0 (fun _ => 0))).state
    (by decide)
    (Reachable.kfree _ _ 0x80116000 (Reachable.init (kmem0 (fun _ => 0)) rfl) (by decide)
      rfl)).2 (by decide)

/-! ### No frame is handed out twice -/

theorem kfree_state_ok (c : Consts) (v : Nat) (s : KState) (h : ¬ kfreeBad c v) :
    kfree c v s = KResult.ok (kfree c v s).state := by
  rw [kfree_ok c v s h]; rfl

theorem FreeList_kfree_state (c : Consts) (s : KState) (l : List Nat) (v : Nat)
    (hc : c.WF) (hl : FreeList c s l) (hv : okFrame c v) (hnew : v ∉ l) :
    FreeList c (kfree c v s).state (v :: l) := by
  obtain ⟨s1, hk, hl1, _⟩ := FreeList_kfree c s l v hc hl hv hnew
  rw [hk]; exact hl1

theorem kfreeAll_frees (c : Consts) (hc : c.WF) :
    ∀ (frames l : List Nat) (s : KState), FreeList c s l → frames.Nodup →
      (∀ v ∈ frames, okFrame c v) → (∀ v ∈ frames, v ∉ l) →
      ∃ s1, kfreeAll c frames s = KResult.ok s1 ∧ FreeList c s1 (frames.reverse ++ l)
  | [], l, s, hl, _, _, _ => ⟨s, rfl, by simpa using hl⟩
  | v :: frames, l, s, hl, hnd, hok, hdis => by
    obtain ⟨hvn, hnd1⟩ := List.nodup_cons.mp hnd
    obtain ⟨s1, hk, hl1, _⟩ := FreeList_kfree c s l v hc hl
      (hok v (List.mem_cons_self _ _)) (hdis v (List.mem_cons_self _ _))
    obtain ⟨s2, hrun, hl2⟩ := kfreeAll_frees c hc frames (v :: l) s1 hl1 hnd1
      (fun u hu => hok u (List.mem_cons_of_mem _ hu))
      (fun u hu hmem => by
        rcases List.mem_cons.mp hmem with rfl | h
        · exact hvn hu
        · exact hdis u (List.mem_cons_of_mem _ hu) h)
    refine ⟨s2, ?_, by simpa using hl2⟩
    simp only [kfreeAll, hk]
    exact hrun

/-- The boot sequence over two ranges of distinct acceptable frames does not panic and
leaves exactly those frames on the free list. -/
theorem boot_freelist (c : Consts) (m : Mem) (a1 b1 a2 b2 : Nat) (hc : c.WF)
    (hnd : (rangeFrames c a1 b1 ++ rangeFrames c a2 b2).Nodup)
    (hok : ∀ v ∈ rangeFrames c a1 b1 ++ rangeFrames c a2 b2, okFrame c v) :
    ∃ s2, boot c m a1 b1 a2 b2 = KResult.ok s2
      ∧ FreeList c s2 ((rangeFrames c a1 b1 ++ rangeFrames c a2 b2).reverse) := by
  have hnd0 := List.nodup_append.mp hnd
  have h0 : FreeList c { kmem0 m with locked := false, use_lock := false } [] :=
    ⟨rfl, List.nodup_nil, fun u hu => by cases hu⟩
  obtain ⟨s1, hk1, hl1⟩ := kfreeAll_frees c hc (rangeFrames c a1 b1) [] _ h0 hnd0.1
    (fun v hv => hok v (List.mem_append_left _ hv)) (fun v _ hv => by cases hv)
  obtain ⟨s2, hk2, hl2⟩ := kfreeAll_frees c hc (rangeFrames c a2 b2)
    ((rangeFrames c a1 b1).reverse ++ []) s1 hl1 hnd0.2.1
    (fun v hv => hok v (List.mem_append_right _ hv))
    (fun v hv hmem => by
      have hmem1 : v ∈ rangeFrames c a1 b1 := by simpa using hmem
      exact hnd0.2.2 hmem1 hv)
  refine ⟨{ s2 with use_lock := true }, ?_, ?_⟩
  · simp only [boot, kinit1, kinit2, freerange, hk1, hk2]
  · have : FreeList c s2 ((rangeFrames c a1 b1 ++ rangeFrames c a2 b2).reverse) := by
      simpa using hl2
    exact this

theorem runOps_disciplined (c : Consts) (hc : c.WF) (reg : List Nat)
    (hreg : ∀ v ∈ reg, okFrame c v) :
    ∀ (ops : List Op) (s : KState) (l held : List Nat), FreeList c s l →
      (∀ v ∈ held, v ∉ l) → (∀ v ∈ held, v ∈ reg) → (∀ v ∈ l, v ∈ reg) →
      freesHeld held (runOps c ops s).1 = true →
      noDoubleReturn held (runOps c ops s).1 = true
        ∧ ∀ r, KEvent.alloc r ∈ (runOps c ops s).1 → r ≠ 0 → r ∈ reg
  | [], _, _, _, _, _, _, _, _ => ⟨rfl, fun r hr => by cases hr⟩
  | Op.kalloc :: ops, s, l, held, hl, hdis, hheld, hlreg, hd => by
    rw [runOps_kalloc] at hd ⊢
    cases l with
    | nil =>
      obtain ⟨h1, h2, _⟩ := FreeList_kalloc_nil c s hl
      rw [h1] at hd ⊢
      have hd1 : freesHeld held (runOps c ops (kalloc s).2).1 = true := by
        simpa [freesHeld] using hd
      obtain ⟨ih1, ih2⟩ := runOps_disciplined c hc reg hreg ops (kalloc s).2 [] held h2
        (fun v _ hv => by cases hv) hheld (fun v hv => by cases hv) hd1
      refine ⟨by simpa [noDoubleReturn] using ih1, fun r hr hne => ?_⟩
      rcases List.mem_cons.mp hr with h | h
      · injection h with h; exact absurd h hne
      · exact ih2 r h hne
    | cons v l1 =>
      obtain ⟨h1, h2, _⟩ := FreeList_kalloc_cons c s l1 v hl
      have hv0 : v ≠ 0 := okFrame_ne_zero c v hc (hl.2.2 v (List.mem_cons_self _ _))
      have hvh : v ∉ held := fun hm => hdis v hm (List.mem_cons_self _ _)
      rw [h1] at hd ⊢
      have hd1 : freesHeld (v :: held) (runOps c ops (kalloc s).2).1 = true := by
        simpa [freesHeld, hv0] using hd
      obtain ⟨ih1, ih2⟩ := runOps_disciplined c hc reg hreg ops (kalloc s).2 l1
        (v :: held) h2
        (fun u hu hm => by
          rcases List.mem_cons.mp hu with rfl | h
          · exact (List.nodup_cons.mp hl.2.1).1 hm
          · exact hdis u h (List.mem_cons_of_mem _ hm))
        (fun u hu => by
          rcases List.mem_cons.mp hu with rfl | h
          · exact hlreg u (List.mem_cons_self _ _)
          · exact hheld u h)
        (fun u hu => hlreg u (List.mem_cons_of_mem _ hu)) hd1
      refine ⟨by simpa [noDoubleReturn, hv0, hvh] using ih1, fun r hr hne => ?_⟩
      rcases List.mem_cons.mp hr with h | h
      · injection h with h
        rw [h]; exact hlreg v (List.mem_cons_self _ _)
      · exact ih2 r h hne
  | Op.kfree v :: ops, s, l, held, hl, hdis, hheld, hlreg, hd => by
    by_cases hb : kfreeBad c v
    · have hrun : (runOps c (Op.kfree v :: ops) s).1 = [KEvent.panicked v] := by
        simp only [runOps, kfree_panic c v s hb]
      rw [hrun]
      refine ⟨by simp [noDoubleReturn], fun r hr => ?_⟩
      rcases List.mem_cons.mp hr with h | h
      · cases h
      · cases h
    · have hk := kfree_state_ok c v s hb
      rw [runOps_kfree_ok c ops s _ v hk] at hd ⊢
      have hd0 : v ∈ held ∧
          freesHeld (held.filter (fun u => u ≠ v)) (runOps c ops (kfree c v s).state).1
            = true := by
        simpa [freesHeld] using hd
      obtain ⟨hvh, hd1⟩ := hd0
      have hl1 := FreeList_kfree_state c s l v hc hl (hreg v (hheld v hvh)) (hdis v hvh)
      obtain ⟨ih1, ih2⟩ := runOps_disciplined c hc reg hreg ops (kfree c v s).state
        (v :: l) (held.filter (fun u => u ≠ v)) hl1
        (fun u hu hm => by
          have hu1 : u ∈ held ∧ u ≠ v := by simpa using hu
          rcases List.mem_cons.mp hm with h | h
          · exact hu1.2 h
          · exact hdis u hu1.1 h)
        (fun u hu => by
          have hu1 : u ∈ held ∧ u ≠ v := by simpa using hu
          exact hheld u hu1.1)
        (fun u hu => by
          rcases List.mem_cons.mp hu with rfl | h
          · exact hheld u hvh
          · exact hlreg u h)
        hd1
      refine ⟨by simpa [noDoubleReturn] using ih1, fun r hr hne => ?_⟩
      rcases List.mem_cons.mp hr with h | h
      · cases h
      · exact ih2 r h hne

theorem rangeFrames_inRange (c : Consts) (a b r : Nat) (h : r ∈ rangeFrames c a b) :
    inRange c a b r := by
  refine ⟨?_, ?_, h⟩
  · unfold rangeFrames at h
    obtain ⟨i, _, rfl⟩ := List.mem_map.mp h
    omega
  · unfold rangeFrames at h
    obtain ⟨i, hi, rfl⟩ := List.mem_map.mp h
    have hi1 : i < (b - PGROUNDUP c a) / c.PGSIZE := List.mem_range.mp hi
    have h1 : (i + 1) * c.PGSIZE ≤ (b - PGROUNDUP c a) / c.PGSIZE * c.PGSIZE :=
      Nat.mul_le_mul_right _ hi1
    have h2 := Nat.div_mul_le_self (b - PGROUNDUP c a) c.PGSIZE
    have h3 : (i + 1) * c.PGSIZE = i * c.PGSIZE + c.PGSIZE := by ring
    have h4 : 0 < (b - PGROUNDUP c a) / c.PGSIZE := by omega
    have h5 : 0 < b - PGROUNDUP c a := by
      by_contra h0
      have : b - PGROUNDUP c a = 0 := by omega
      rw [this] at h4
      simp at h4
    omega

/-- C2 as stated fails for a sequence that frees a frame twice: after the boot sequence
has registered the single frame 0x80200000, the calls `kalloc`, `kfree(f)`, `kfree(f)`,
`kalloc`, `kalloc` return `f` three times, the last two without a `kfree` in between
(the second `kfree` makes the node its own successor). -/
theorem double_free_counterexample :
    (runOps xv6Consts
        [Op.kalloc, Op.kfree 0x80200000, Op.kfree 0x80200000, Op.kalloc, Op.kalloc]
        (boot xv6Consts (fun _ => 0) 0x80200000 0x80201000 0x80201000 0x80201000).state).1
      = [KEvent.alloc 0x80200000, KEvent.free 0x80200000, KEvent.free 0x80200000,
          KEvent.alloc 0x80200000, KEvent.alloc 0x80200000]
    ∧ noDoubleReturn []
        (runOps xv6Consts
          [Op.kalloc, Op.kfree 0x80200000, Op.kfree 0x80200000, Op.kalloc, Op.kalloc]
          (boot xv6Consts (fun _ => 0) 0x80200000 0x80201000 0x80201000
            0x80201000).state).1 = false := by
  constructor <;> rfl

/-- C2, amended. Let the boot sequence (`kinit1`, `kinit2`) register two ranges whose
frames are distinct and acceptable to `kfree`. Then it does not panic, and for every
sequence of `kalloc` and `kfree` calls in which each `kfree` is of a frame that `kalloc`
returned and that has not been freed since: no frame is returned by `kalloc` twice
without a `kfree` of that frame in between, and every non-null frame returned lies in
one of the two registered ranges. -/
theorem kalloc_no_double_return (c : Consts) (m : Mem) (a1 b1 a2 b2 : Nat)
    (ops : List Op) (hc : c.WF)
    (hnd : (rangeFrames c a1 b1 ++ rangeFrames c a2 b2).Nodup)
    (hok : ∀ v ∈ rangeFrames c a1 b1 ++ rangeFrames c a2 b2, okFrame c v)
    (hdisc : freesHeld [] (runOps c ops (boot c m a1 b1 a2 b2).state).1 = true) :
    (boot c m a1 b1 a2 b2).panicked = false
    ∧ noDoubleReturn [] (runOps c ops (boot c m a1 b1 a2 b2).state).1 = true
    ∧ ∀ r, KEvent.alloc r ∈ (runOps c ops (boot c m a1 b1 a2 b2).state).1 → r ≠ 0 →
        inRange c a1 b1 r ∨ inRange c a2 b2 r := by
  obtain ⟨s2, hb, hl⟩ := boot_freelist c m a1 b1 a2 b2 hc hnd hok
  rw [hb] at hdisc ⊢
  obtain ⟨h1, h2⟩ := runOps_disciplined c hc (rangeFrames c a1 b1 ++ rangeFrames c a2 b2)
    hok ops s2 _ [] hl (fun v hv => by cases hv) (fun v hv => by cases hv)
    (fun v hv => List.mem_reverse.mp hv) hdisc
  refine ⟨rfl, h1, fun r hr hne => ?_⟩
  rcases List.mem_append.mp (h2 r hr hne) with h | h
  · exact Or.inl (rangeFrames_inRange c a1 b1 r h)
  · exact Or.inr (rangeFrames_inRange c a2 b2 r h)

/-- C2 amended, at a concrete input: three frames registered in two ranges, then an
allocation, its release and two more allocations. -/
theorem kalloc_no_double_return_witness :
    noDoubleReturn []
      (runOps xv6Consts [Op.kalloc, Op.kfree 0x80202000, Op.kalloc, Op.kalloc]
        (boot xv6Consts (fun _ => 0) 0x80200000 0x80202000 0x80202000
          0x80203000).state).1 = true :=
  (kalloc_no_double_return xv6Consts (fun _ => 0) 0x80200000 0x80202000 0x80202000
    0x80203000 [Op.kalloc, Op.kfree 0x80202000, Op.kalloc, Op.kalloc]
    (by decide) (by decide) (by decide) (by rfl)).2.1

/-! ## The loader: how every run ends -/

theorem bad_ret {W : Type} (env : Env W) (pgdir ip : Nat) (p : Proc) (s : XState W) :
    (bad env pgdir ip p s).ret = -1 ∧ (bad env pgdir ip p s).proc = p := ⟨rfl, rfl⟩

theorem bad_tr {W : Type} (env : Env W) (pgdir ip : Nat) (p : Proc) (s : XState W) :
    (bad env pgdir ip p s).tr
      = s.tr ++ (if pgdir ≠ 0 then [Event.freevm pgdir] else [])
        ++ (if ip ≠ 0 then [Event.iunlockput ip, Event.end_op] else []) := by
  unfold bad
  by_cases h1 : pgdir = 0 <;> by_cases h2 : ip = 0 <;> simp [h1, h2]

theorem Extends.refl (q : Event → Bool) (t : List Event) : Extends q t t :=
  ⟨[], by simp, fun e he => by cases he⟩

theorem Extends.cons (q : Event → Bool) (t t1 : List Event) (e : Event)
    (h : Extends q (t ++ [e]) t1) (he : q e = true) : Extends q t t1 := by
  obtain ⟨l, h1, h2⟩ := h
  refine ⟨e :: l, by rw [h1]; simp, fun x hx => ?_⟩
  rcases List.mem_cons.mp hx with rfl | h
  · exact he
  · exact h2 x h

theorem Extends.snoc (q : Event → Bool) (t t1 : List Event) (e : Event)
    (h : Extends q t t1) (he : q e = true) : Extends q t (t1 ++ [e]) := by
  obtain ⟨l, h1, h2⟩ := h
  refine ⟨l ++ [e], by rw [h1]; simp, fun x hx => ?_⟩
  rcases List.mem_append.mp hx with h | h
  · exact h2 x h
  · rw [List.mem_singleton.mp h]; exact he

theorem loadSegments_tr {W : Type} (env : Env W) (c : Consts) (ip pgdir : Nat) :
    ∀ (n off sz : Nat) (s : XState W),
      Extends Event.isSeg s.tr (loadSegments env c ip pgdir n off sz s).2.tr
  | 0, _, _, s => Extends.refl _ _
  | n + 1, off, sz, s => by
    unfold loadSegments
    simp only
    split_ifs
    · exact Extends.cons _ _ _ _ (Extends.refl _ _) rfl
    · exact Extends.cons _ _ _ _ (loadSegments_tr env c ip pgdir n _ _ ⟨_, _⟩) rfl
    · exact Extends.cons _ _ _ _ (Extends.refl _ _) rfl
    · exact Extends.cons _ _ _ _ (Extends.refl _ _) rfl
    · exact Extends.cons _ _ _ _ (Extends.cons _ _ _ _ (Extends.refl _ _) rfl) rfl
    · exact Extends.cons _ _ _ _ (Extends.cons _ _ _ _ (Extends.refl _ _) rfl) rfl
    · exact Extends.cons _ _ _ _ (Extends.cons _ _ _ _
        (Extends.cons _ _ _ _ (Extends.refl _ _) rfl) rfl) rfl
    · exact Extends.cons _ _ _ _ (Extends.cons _ _ _ _
        (Extends.cons _ _ _ _ (loadSegments_tr env c ip pgdir n _ _ ⟨_, _⟩) rfl) rfl) rfl

theorem pushArgs_tr {W : Type} (env : Env W) (c : Consts) (pgdir : Nat) :
    ∀ (argv : List (List Nat)) (argc sp : Nat) (ustack : List Nat) (s : XState W),
      Extends Event.isStk s.tr (pushArgs env c pgdir argv argc sp ustack s).2.tr
  | [], _, _, _, s => Extends.refl _ _
  | a :: rest, argc, sp, ustack, s => by
    unfold pushArgs
    simp only
    split_ifs
    · exact Extends.refl _ _
    · exact Extends.cons _ _ _ _ (Extends.refl _ _) rfl
    · exact Extends.cons _ _ _ _ (pushArgs_tr env c pgdir rest _ _ _ ⟨_, _⟩) rfl


theorem loadSegments_tr_eq {W : Type} (env : Env W) (c : Consts) (ip pgdir : Nat)
    (n off sz : Nat) (s : XState W) (r : Option Nat × XState W)
    (h : loadSegments env c ip pgdir n off sz s = r) : Extends Event.isSeg s.tr r.2.tr := by
  rw [← h]; exact loadSegments_tr env c ip pgdir n off sz s

theorem pushArgs_tr_eq {W : Type} (env : Env W) (c : Consts) (pgdir : Nat)
    (argv : List (List Nat)) (argc sp : Nat) (ustack : List Nat) (s : XState W)
    (r : Option (Nat × Nat × List Nat) × XState W)
    (h : pushArgs env c pgdir argv argc sp ustack s = r) :
    Extends Event.isStk s.tr r.2.tr := by
  rw [← h]; exact pushArgs_tr env c pgdir argv argc sp ustack s

theorem bad_tr_stack {W : Type} (env : Env W) (pgdir : Nat) (p : Proc) (s : XState W)
    (hpg : pgdir ≠ 0) : (bad env pgdir 0 p s).tr = s.tr ++ [Event.freevm pgdir] := by
  rw [bad_tr]; simp [hpg]

theorem bad_tr_inode {W : Type} (env : Env W) (ip : Nat) (p : Proc) (s : XState W)
    (hip : ip ≠ 0) :
    (bad env 0 ip p s).tr = s.tr ++ [Event.iunlockput ip, Event.end_op] := by
  rw [bad_tr]; simp [hip]

theorem bad_tr_both {W : Type} (env : Env W) (pgdir ip : Nat) (p : Proc) (s : XState W)
    (hpg : pgdir ≠ 0) (hip : ip ≠ 0) :
    (bad env pgdir ip p s).tr
      = s.tr ++ [Event.freevm pgdir, Event.iunlockput ip, Event.end_op] := by
  rw [bad_tr]; simp [hpg, hip]

theorem execCommit_shape {W : Type} (env : Env W) (c : Consts) (path : List Nat) (p : Proc)
    (pgdir sz entry sp : Nat) (s : XState W) :
    (execCommit env c path p pgdir sz entry sp s).ret = 0
    ∧ (execCommit env c path p pgdir sz entry sp s).proc.pgdir = pgdir
    ∧ (execCommit env c path p pgdir sz entry sp s).tr
        = s.tr ++ [Event.safestrcpy (lastElem path path) c.NAMESZ,
            Event.switchuvm (execCommit env c path p pgdir sz entry sp s).proc,
            Event.freevm p.pgdir] :=
  ⟨rfl, rfl, by simp [execCommit]⟩

/-- How the argument phase ends: rolled back with the new page table freed, or
committed. -/
theorem execArgs_shape {W : Type} (env : Env W) (c : Consts) (path : List Nat)
    (argv : List (List Nat)) (p : Proc) (pgdir sz entry : Nat) (s : XState W)
    (hpg : pgdir ≠ 0) :
    ((execArgs env c path argv p pgdir sz entry s).ret = -1
      ∧ (execArgs env c path argv p pgdir sz entry s).proc = p
      ∧ ∃ t, (execArgs env c path argv p pgdir sz entry s).tr = t ++ [Event.freevm pgdir]
        ∧ Extends Event.isStk s.tr t)
    ∨ ((execArgs env c path argv p pgdir sz entry s).ret = 0
      ∧ (execArgs env c path argv p pgdir sz entry s).proc.pgdir = pgdir
      ∧ ∃ t, (execArgs env c path argv p pgdir sz entry s).tr
          = t ++ [Event.safestrcpy (lastElem path path) c.NAMESZ,
              Event.switchuvm (execArgs env c path argv p pgdir sz entry s).proc,
              Event.freevm p.pgdir]
        ∧ Extends Event.isStk s.tr t) := by
  unfold execArgs
  split
  · rename_i s3 heq
    have hext := pushArgs_tr_eq _ _ _ _ _ _ _ _ _ heq
    left
    exact ⟨rfl, rfl, _, bad_tr_stack _ _ _ _ hpg, hext⟩
  · rename_i argc sp ustack s3 heq
    have hext := pushArgs_tr_eq _ _ _ _ _ _ _ _ _ heq
    simp only
    split_ifs with h1
    · left
      refine ⟨rfl, rfl, _, bad_tr_stack _ _ _ _ hpg, ?_⟩
      exact Extends.snoc _ _ _ _ hext rfl
    · right
      obtain ⟨e1, e2, e3⟩ := execCommit_shape env c path p pgdir sz entry
        (usub sp ((3 + argc + 1) * 4))
        ⟨(env.copyout pgdir (usub sp ((3 + argc + 1) * 4))
            (wordsBytes (finishUstack ustack argc sp) (3 + argc + 1)) s3.w).2,
          s3.tr ++ [Event.copyout pgdir (usub sp ((3 + argc + 1) * 4))
            (wordsBytes (finishUstack ustack argc sp) (3 + argc + 1))
            (env.copyout pgdir (usub sp ((3 + argc + 1) * 4))
              (wordsBytes (finishUstack ustack argc sp) (3 + argc + 1)) s3.w).1]⟩
      refine ⟨e1, e2, _, e3, ?_⟩
      exact Extends.snoc _ _ _ _ hext rfl

/-- How the stack phase ends: rolled back with the new page table freed, or committed. -/
theorem execStack_shape {W : Type} (env : Env W) (c : Consts) (path : List Nat)
    (argv : List (List Nat)) (p : Proc) (pgdir sz entry : Nat) (s : XState W)
    (hpg : pgdir ≠ 0) :
    ((execStack env c path argv p pgdir sz entry s).ret = -1
      ∧ (execStack env c path argv p pgdir sz entry s).proc = p
      ∧ ∃ t, (execStack env c path argv p pgdir sz entry s).tr = t ++ [Event.freevm pgdir]
        ∧ Extends Event.isStk s.tr t)
    ∨ ((execStack env c path argv p pgdir sz entry s).ret = 0
      ∧ (execStack env c path argv p pgdir sz entry s).proc.pgdir = pgdir
      ∧ ∃ t, (execStack env c path argv p pgdir sz entry s).tr
          = t ++ [Event.safestrcpy (lastElem path path) c.NAMESZ,
              Event.switchuvm (execStack env c path argv p pgdir sz entry s).proc,
              Event.freevm p.pgdir]
        ∧ Extends Event.isStk s.tr t) := by
  unfold execStack
  simp only
  split_ifs with h0
  · left
    refine ⟨rfl, rfl, _, bad_tr_stack _ _ _ _ hpg, ?_⟩
    exact Extends.cons _ _ _ _ (Extends.refl _ _) rfl
  · rcases execArgs_shape env c path argv p pgdir _ entry
      ⟨env.clearpteu pgdir (usub ((env.allocuvm pgdir (PGROUNDUP c sz)
          ((PGROUNDUP c sz + 2 * c.PGSIZE) % U32) s.w).1 % U32) (2 * c.PGSIZE))
          (env.allocuvm pgdir (PGROUNDUP c sz)
            ((PGROUNDUP c sz + 2 * c.PGSIZE) % U32) s.w).2,
        s.tr ++ [Event.allocuvm pgdir (PGROUNDUP c sz)
            ((PGROUNDUP c sz + 2 * c.PGSIZE) % U32)
            (env.allocuvm pgdir (PGROUNDUP c sz)
              ((PGROUNDUP c sz + 2 * c.PGSIZE) % U32) s.w).1]
          ++ [Event.clearpteu pgdir (usub ((env.allocuvm pgdir (PGROUNDUP c sz)
            ((PGROUNDUP c sz + 2 * c.PGSIZE) % U32) s.w).1 % U32) (2 * c.PGSIZE))]⟩
      hpg with ⟨e1, e2, t, e3, e4⟩ | ⟨e1, e2, t, e3, e4⟩
    · left
      exact ⟨e1, e2, t, e3, Extends.cons _ _ _ _ (Extends.cons _ _ _ _ e4 rfl) rfl⟩
    · right
      exact ⟨e1, e2, t, e3, Extends.cons _ _ _ _ (Extends.cons _ _ _ _ e4 rfl) rfl⟩

/-- Every run of `exec` ends in one of the six ways of `ExecShape`. -/
theorem exec_shape {W : Type} (env : Env W) (c : Consts) (path : List Nat)
    (argv : List (List Nat)) (p : Proc) (w : W) :
    ExecShape path p (exec env c path argv p w) := by
  unfold exec
  simp only
  generalize env.namei path (env.begin_op w) = nm
  split_ifs with hn
  · exact ExecShape.noFile _ rfl rfl (by simp [hn])
  · unfold execOpened
    simp only
    generalize env.readi nm.1 0 SIZEOF_ELFHDR (env.ilock nm.1 nm.2) = rd
    generalize env.setupkvm rd.2 = pg
    split_ifs with h1 h2 h3
    · exact ExecShape.badHeader _ nm.1 rd.1.1 hn rfl rfl
        (by rw [bad_tr_inode _ _ _ _ hn]; simp)
    · exact ExecShape.badHeader _ nm.1 rd.1.1 hn rfl rfl
        (by rw [bad_tr_inode _ _ _ _ hn]; simp)
    · exact ExecShape.noPgdir _ nm.1 rd.1.1 hn rfl rfl (by rw [bad_tr]; simp [h3, hn])
    · split
      · rename_i s4 heq
        obtain ⟨l, hl1, hl2⟩ := loadSegments_tr_eq _ _ _ _ _ _ _ _ _ heq
        exact ExecShape.badSegment _ nm.1 rd.1.1 pg.1 l hn h3 hl2 rfl rfl
          (by rw [bad_tr_both _ _ _ _ _ h3 hn]; simp only at hl1; rw [hl1]; simp)
      · rename_i sz s4 heq
        obtain ⟨l, hl1, hl2⟩ := loadSegments_tr_eq _ _ _ _ _ _ _ _ _ heq
        simp only at hl1
        rcases execStack_shape env c path argv p pg.1 sz (parse_elfhdr rd.1.2).entry
          ⟨env.end_op (env.iunlockput nm.1 s4.w),
            s4.tr ++ [Event.iunlockput nm.1, Event.end_op]⟩
          h3 with ⟨e1, e2, t, e3, k, hk1, hk2⟩ | ⟨e1, e2, t, e3, k, hk1, hk2⟩
        · exact ExecShape.badStack _ nm.1 rd.1.1 pg.1 l k hn h3 hl2 hk2 e1 e2
            (by rw [e3, hk1]; simp only; rw [hl1]; simp)
        · exact ExecShape.committed _ nm.1 rd.1.1 pg.1 l k (lastElem path path) c.NAMESZ
            hn h3 hl2 hk2 e1 e2
            (by rw [e3, hk1]; simp only; rw [hl1]; simp)

/-! ## The claims about the loader -/

theorem not_mem_of_all (q : Event → Bool) (l : List Event) (h : ∀ e ∈ l, q e = true)
    (e : Event) (he : q e = false) : e ∉ l := by
  intro hm
  rw [h e hm] at he
  cases he

theorem filter_nil_of_all (q r : Event → Bool) (l : List Event) (h : ∀ e ∈ l, q e = true)
    (hr : ∀ e, q e = true → r e = false) : l.filter r = [] := by
  apply List.filter_eq_nil_iff.mpr
  intro e he
  rw [hr e (h e he)]
  simp

theorem count_zero_of_all (q : Event → Bool) (l : List Event) (h : ∀ e ∈ l, q e = true)
    (e : Event) (he : q e = false) : l.count e = 0 :=
  List.count_eq_zero.mpr (not_mem_of_all q l h e he)

theorem isSeg_not_freevm (e : Event) (h : e.isSeg = true) : e.isFreevm = false := by
  cases e <;> simp_all [Event.isSeg, Event.isFreevm]

theorem isStk_not_freevm (e : Event) (h : e.isStk = true) : e.isFreevm = false := by
  cases e <;> simp_all [Event.isStk, Event.isFreevm]

theorem isSeg_not_iunlockput (e : Event) (h : e.isSeg = true) : e.isIunlockput = false := by
  cases e <;> simp_all [Event.isSeg, Event.isIunlockput]

theorem isStk_not_iunlockput (e : Event) (h : e.isStk = true) : e.isIunlockput = false := by
  cases e <;> simp_all [Event.isStk, Event.isIunlockput]

theorem isFreevm_true (pg : Nat) : (Event.freevm pg).isFreevm = true := rfl

/-- What every failing run satisfies. -/
theorem exec_fail_facts {W : Type} (env : Env W) (c : Consts) (path : List Nat)
    (argv : List (List Nat)) (p : Proc) (w : W)
    (hfail : (exec env c path argv p w).ret = -1) :
    (exec env c path argv p w).proc = p
    ∧ (∀ q, Event.switchuvm q ∉ (exec env c path argv p w).tr)
    ∧ (∀ pg, Event.freevm pg ∈ (exec env c path argv p w).tr →
        Event.setupkvm pg ∈ (exec env c path argv p w).tr)
    ∧ (∀ pg, pg ≠ 0 → Event.setupkvm pg ∈ (exec env c path argv p w).tr →
        (exec env c path argv p w).tr.filter Event.isFreevm = [Event.freevm pg])
    ∧ ((∀ pg, Event.setupkvm pg ∈ (exec env c path argv p w).tr → pg = 0) →
        (exec env c path argv p w).tr.filter Event.isFreevm = []) := by
  have hs := exec_shape env c path argv p w
  generalize exec env c path argv p w = r at hs hfail ⊢
  rcases hs with
    ⟨hret, hproc, htr⟩ | ⟨ip, n, hip, hret, hproc, htr⟩ |
    ⟨ip, n, hip, hret, hproc, htr⟩ |
    ⟨ip, n, pg, segs, hip, hpg, hsegs, hret, hproc, htr⟩ |
    ⟨ip, n, pg, segs, stk, hip, hpg, hsegs, hstk, hret, hproc, htr⟩ |
    ⟨ip, n, pg, segs, stk, src, k, hip, hpg, hsegs, hstk, hret, hproc, htr⟩
  · refine ⟨hproc, fun q => ?_, fun pg => ?_, fun pg h0 => ?_, fun _ => ?_⟩ <;>
      rw [htr] <;> simp [Event.isFreevm]
  · refine ⟨hproc, fun q => ?_, fun pg => ?_, fun pg h0 => ?_, fun _ => ?_⟩ <;>
      rw [htr] <;> simp [Event.isFreevm]
  · refine ⟨hproc, fun q => ?_, fun pg => ?_, fun pg h0 => ?_, fun _ => ?_⟩ <;>
      rw [htr] <;> simp [Event.isFreevm]
    exact fun h => absurd h h0
  · have a1 : ∀ q, Event.switchuvm q ∉ segs := fun q =>
      not_mem_of_all _ segs hsegs _ rfl
    have a2 : ∀ x, Event.freevm x ∉ segs := fun x =>
      not_mem_of_all _ segs hsegs _ rfl
    have a3 : ∀ x, Event.setupkvm x ∉ segs := fun x =>
      not_mem_of_all _ segs hsegs _ rfl
    have a4 := filter_nil_of_all _ Event.isFreevm segs hsegs isSeg_not_freevm
    refine ⟨hproc, fun q => ?_, fun x => ?_, fun x h0 hx => ?_, fun h => ?_⟩
    · rw [htr]; simp [a1]
    · rw [htr]; simp [a2]; tauto
    · rw [htr] at hx ⊢
      have hx1 : x = pg := by simpa [a3] using hx
      simp [List.filter_append, a4, Event.isFreevm, hx1]
    · exact absurd (h pg (by rw [htr]; simp)) hpg
  · have a1 : ∀ q, Event.switchuvm q ∉ segs := fun q =>
      not_mem_of_all _ segs hsegs _ rfl
    have a2 : ∀ x, Event.freevm x ∉ segs := fun x =>
      not_mem_of_all _ segs hsegs _ rfl
    have a3 : ∀ x, Event.setupkvm x ∉ segs := fun x =>
      not_mem_of_all _ segs hsegs _ rfl
    have a4 := filter_nil_of_all _ Event.isFreevm segs hsegs isSeg_not_freevm
    have b1 : ∀ q, Event.switchuvm q ∉ stk := fun q =>
      not_mem_of_all _ stk hstk _ rfl
    have b2 : ∀ x, Event.freevm x ∉ stk := fun x =>
      not_mem_of_all _ stk hstk _ rfl
    have b3 : ∀ x, Event.setupkvm x ∉ stk := fun x =>
      not_mem_of_all _ stk hstk _ rfl
    have b4 := filter_nil_of_all _ Event.isFreevm stk hstk isStk_not_freevm
    refine ⟨hproc, fun q => ?_, fun x => ?_, fun x h0 hx => ?_, fun h => ?_⟩
    · rw [htr]; simp [a1, b1]
    · rw [htr]; simp [a2, b2]; tauto
    · rw [htr] at hx ⊢
      have hx1 : x = pg := by simpa [a3, b3] using hx
      simp [List.filter_append, a4, b4, Event.isFreevm, hx1]
    · exact absurd (h pg (by rw [htr]; simp)) hpg
  · rw [hret] at hfail
    cases hfail

/-- On every run on which `namei` finds an inode, the inode is released once and `end_op`
is called once. -/
theorem exec_inode_facts {W : Type} (env : Env W) (c : Consts) (path : List Nat)
    (argv : List (List Nat)) (p : Proc) (w : W) (ip : Nat) (hip : ip ≠ 0)
    (hopen : Event.namei path ip ∈ (exec env c path argv p w).tr) :
    (exec env c path argv p w).tr.filter Event.isIunlockput = [Event.iunlockput ip]
    ∧ (exec env c path argv p w).tr.count Event.end_op = 1 := by
  have hs := exec_shape env c path argv p w
  generalize exec env c path argv p w = r at hs hopen ⊢
  rcases hs with
    ⟨hret, hproc, htr⟩ | ⟨ip1, n, hip1, hret, hproc, htr⟩ |
    ⟨ip1, n, hip1, hret, hproc, htr⟩ |
    ⟨ip1, n, pg, segs, hip1, hpg, hsegs, hret, hproc, htr⟩ |
    ⟨ip1, n, pg, segs, stk, hip1, hpg, hsegs, hstk, hret, hproc, htr⟩ |
    ⟨ip1, n, pg, segs, stk, src, k, hip1, hpg, hsegs, hstk, hret, hproc, htr⟩
  · rw [htr] at hopen
    simp at hopen
    exact absurd hopen hip
  · rw [htr] at hopen ⊢
    have h1 : ip = ip1 := by simpa using hopen
    subst h1
    simp [Event.isIunlockput, List.count_cons]
  · rw [htr] at hopen ⊢
    have h1 : ip = ip1 := by simpa using hopen
    subst h1
    simp [Event.isIunlockput, List.count_cons]
  · have a3 : ∀ x, Event.namei path x ∉ segs := fun x =>
      not_mem_of_all _ segs hsegs _ rfl
    have a4 := filter_nil_of_all _ Event.isIunlockput segs hsegs isSeg_not_iunlockput
    have a5 := count_zero_of_all _ segs hsegs Event.end_op rfl
    rw [htr] at hopen ⊢
    have h1 : ip = ip1 := by simpa [a3] using hopen
    subst h1
    simp [List.filter_append, a4, a5, Event.isIunlockput, List.count_cons]
  · have a3 : ∀ x, Event.namei path x ∉ segs := fun x =>
      not_mem_of_all _ segs hsegs _ rfl
    have a4 := filter_nil_of_all _ Event.isIunlockput segs hsegs isSeg_not_iunlockput
    have a5 := count_zero_of_all _ segs hsegs Event.end_op rfl
    have b3 : ∀ x, Event.namei path x ∉ stk := fun x =>
      not_mem_of_all _ stk hstk _ rfl
    have b4 := filter_nil_of_all _ Event.isIunlockput stk hstk isStk_not_iunlockput
    have b5 := count_zero_of_all _ stk hstk Event.end_op rfl
    rw [htr] at hopen ⊢
    have h1 : ip = ip1 := by simpa [a3, b3] using hopen
    subst h1
    simp [List.filter_append, a4, a5, b4, b5, Event.isIunlockput, List.count_cons]
  · have a3 : ∀ x, Event.namei path x ∉ segs := fun x =>
      not_mem_of_all _ segs hsegs _ rfl
    have a4 := filter_nil_of_all _ Event.isIunlockput segs hsegs isSeg_not_iunlockput
    have a5 := count_zero_of_all _ segs hsegs Event.end_op rfl
    have b3 : ∀ x, Event.namei path x ∉ stk := fun x =>
      not_mem_of_all _ stk hstk _ rfl
    have b4 := filter_nil_of_all _ Event.isIunlockput stk hstk isStk_not_iunlockput
    have b5 := count_zero_of_all _ stk hstk Event.end_op rfl
    rw [htr] at hopen ⊢
    have h1 : ip = ip1 := by simpa [a3, b3] using hopen
    subst h1
    simp [List.filter_append, a4, a5, b4, b5, Event.isIunlockput, List.count_cons]

/-- C1 (atomic commit). For every path, argv, process record and behaviour of the
collaborators: if `exec` returns -1 then the process record (`pgdir`, `sz`, `tf->eip`,
`tf->esp`, `name`) is exactly the one before the call, `switchuvm` has not been called,
and every page table passed to `freevm` is one that `setupkvm` returned during this
call; so the old `pgdir` has not been freed unless `setupkvm` itself handed it out as
the new page table. This holds whether or not `namei` found the file. -/
theorem exec_failure_atomic {W : Type} (env : Env W) (c : Consts) (path : List Nat)
    (argv : List (List Nat)) (p : Proc) (w : W)
    (hfail : (exec env c path argv p w).ret = -1) :
    (exec env c path argv p w).proc = p
    ∧ (∀ q, Event.switchuvm q ∉ (exec env c path argv p w).tr)
    ∧ (∀ pg, Event.freevm pg ∈ (exec env c path argv p w).tr →
        Event.setupkvm pg ∈ (exec env c path argv p w).tr)
    ∧ (Event.setupkvm p.pgdir ∉ (exec env c path argv p w).tr →
        Event.freevm p.pgdir ∉ (exec env c path argv p w).tr) := by
  obtain ⟨h1, h2, h3, _, _⟩ := exec_fail_facts env c path argv p w hfail
  exact ⟨h1, h2, h3, fun h hm => h (h3 _ hm)⟩

/-- C1 at a concrete input: the file ends before its only program header, so `exec` fails
inside the segment loop, after `setupkvm`; the old page table 3 is not freed. -/
theorem exec_failure_atomic_witness :
    (exec (fileEnv truncElf) xv6Consts [47, 97] [[97]] proc0 ()).proc = proc0
    ∧ Event.freevm 3 ∉ (exec (fileEnv truncElf) xv6Consts [47, 97] [[97]] proc0 ()).tr :=
  ⟨(exec_failure_atomic (fileEnv truncElf) xv6Consts [47, 97] [[97]] proc0 ()
      (by decide)).1,
    (exec_failure_atomic (fileEnv truncElf) xv6Consts [47, 97] [[97]] proc0 ()
      (by decide)).2.2.2 (by decide)⟩

/-- C9 (rollback releases everything exactly once). For every behaviour of the
collaborators: when `exec` returns -1, `freevm` is called exactly once, on the new page
table, if `setupkvm` returned one, and not at all if `setupkvm` was not called or
returned null; and on every run, failing or not, on which `namei` returned an inode,
`iunlockput` is called exactly once, on that inode, and `end_op` exactly once. -/
theorem exec_releases_once {W : Type} (env : Env W) (c : Consts) (path : List Nat)
    (argv : List (List Nat)) (p : Proc) (w : W) :
    ((exec env c path argv p w).ret = -1 →
      (∀ pg, pg ≠ 0 → Event.setupkvm pg ∈ (exec env c path argv p w).tr →
        (exec env c path argv p w).tr.filter Event.isFreevm = [Event.freevm pg])
      ∧ ((∀ pg, Event.setupkvm pg ∈ (exec env c path argv p w).tr → pg = 0) →
        (exec env c path argv p w).tr.filter Event.isFreevm = []))
    ∧ (∀ ip, ip ≠ 0 → Event.namei path ip ∈ (exec env c path argv p w).tr →
        (exec env c path argv p w).tr.filter Event.isIunlockput = [Event.iunlockput ip]
        ∧ (exec env c path argv p w).tr.count Event.end_op = 1) := by
  refine ⟨fun hfail => ?_, fun ip hip hopen => exec_inode_facts env c path argv p w ip hip hopen⟩
  obtain ⟨_, _, _, h4, h5⟩ := exec_fail_facts env c path argv p w hfail
  exact ⟨h4, h5⟩

/-! ### Header validation -/

theorem byteAt_take_append (file rest : List Nat) (n i : Nat) (hi : i < n)
    (hn : n ≤ file.length) : byteAt (file.take n ++ rest) i = byteAt file i := by
  unfold byteAt
  have h1 : i < (file.take n).length := by
    rw [List.length_take]; omega
  rw [List.getD_append _ _ _ _ h1]
  simp [List.getD_eq_getElem?_getD, List.getElem?_take, hi]

theorem le32_take_append (file rest : List Nat) (n : Nat) (h4 : 4 ≤ n)
    (hn : n ≤ file.length) : le32 (file.take n ++ rest) 0 = le32 file 0 := by
  unfold le32
  rw [byteAt_take_append file rest n 0 (by omega) hn,
    byteAt_take_append file rest n (0 + 1) (by omega) hn,
    byteAt_take_append file rest n (0 + 2) (by omega) hn,
    byteAt_take_append file rest n (0 + 3) (by omega) hn]

/-- C6 (header validation). Let `namei` return an inode and let the header read deliver
what a file with contents `file` holds, for a file of any length (the count is
`min 52 length`, the buffer starts with the bytes read). If the first four bytes of the
file are not `ELF_MAGIC`, then `exec` returns -1 with the process record untouched, and
its calls are exactly `begin_op`, `namei`, `ilock`, `readi`, `iunlockput`, `end_op`: in
particular `setupkvm` and `freevm` are never called and the inode is released. -/
theorem exec_bad_magic {W : Type} (env : Env W) (c : Consts) (path : List Nat)
    (argv : List (List Nat)) (p : Proc) (w : W) (file buf : List Nat)
    (hopen : (env.namei path (env.begin_op w)).1 ≠ 0)
    (hread : (env.readi (env.namei path (env.begin_op w)).1 0 SIZEOF_ELFHDR
        (env.ilock (env.namei path (env.begin_op w)).1
          (env.namei path (env.begin_op w)).2)).1 = readiFile file buf 0 SIZEOF_ELFHDR)
    (hmagic : le32 file 0 ≠ ELF_MAGIC) :
    (exec env c path argv p w).ret = -1
    ∧ (exec env c path argv p w).proc = p
    ∧ (exec env c path argv p w).tr
      = [Event.begin_op, Event.namei path (env.namei path (env.begin_op w)).1,
          Event.ilock (env.namei path (env.begin_op w)).1,
          Event.readi (env.namei path (env.begin_op w)).1 0 SIZEOF_ELFHDR
            ((min SIZEOF_ELFHDR file.length : Nat) : Int),
          Event.iunlockput (env.namei path (env.begin_op w)).1, Event.end_op]
    ∧ (∀ pg, Event.setupkvm pg ∉ (exec env c path argv p w).tr)
    ∧ (∀ pg, Event.freevm pg ∉ (exec env c path argv p w).tr) := by
  have hfile : readiFile file buf 0 SIZEOF_ELFHDR
      = (((min SIZEOF_ELFHDR file.length : Nat) : Int),
          file.take SIZEOF_ELFHDR ++ buf.drop (min SIZEOF_ELFHDR file.length)) := by
    simp [readiFile]
  rw [hfile] at hread
  have key : (exec env c path argv p w).ret = -1
      ∧ (exec env c path argv p w).proc = p
      ∧ (exec env c path argv p w).tr
        = [Event.begin_op, Event.namei path (env.namei path (env.begin_op w)).1,
            Event.ilock (env.namei path (env.begin_op w)).1,
            Event.readi (env.namei path (env.begin_op w)).1 0 SIZEOF_ELFHDR
              ((min SIZEOF_ELFHDR file.length : Nat) : Int),
            Event.iunlockput (env.namei path (env.begin_op w)).1, Event.end_op] := by
    unfold exec
    simp only
    rw [if_neg hopen]
    unfold execOpened
    simp only
    rw [hread]
    simp only
    by_cases hlen : SIZEOF_ELFHDR ≤ file.length
    · have hmin : min SIZEOF_ELFHDR file.length = SIZEOF_ELFHDR := Nat.min_eq_left hlen
      have hm : (parse_elfhdr (file.take SIZEOF_ELFHDR
          ++ buf.drop (min SIZEOF_ELFHDR file.length))).magic ≠ ELF_MAGIC := by
        show le32 _ 0 ≠ ELF_MAGIC
        rw [le32_take_append file _ SIZEOF_ELFHDR (by decide) hlen]
        exact hmagic
      rw [hmin] at hm ⊢
      rw [if_neg (by simp), if_pos hm]
      exact ⟨rfl, rfl, by rw [bad_tr_inode _ _ _ _ hopen]; simp⟩
    · have hmin : min SIZEOF_ELFHDR file.length = file.length := Nat.min_eq_right (by omega)
      rw [hmin]
      have hne : ((file.length : Nat) : Int) ≠ ((SIZEOF_ELFHDR : Nat) : Int) := by
        intro h
        have := Int.ofNat_inj.mp h
        omega
      rw [if_pos hne]
      exact ⟨rfl, rfl, by rw [bad_tr_inode _ _ _ _ hopen]; simp⟩
  refine ⟨key.1, key.2.1, key.2.2, fun pg => ?_, fun pg => ?_⟩ <;> rw [key.2.2] <;> simp

/-- C6 at concrete inputs: a two-byte file. -/
theorem exec_bad_magic_witness :
    (exec (fileEnv [0x7F, 0x45]) xv6Consts [97] [[97]] proc0 ()).ret = -1 :=
  (exec_bad_magic (fileEnv [0x7F, 0x45]) xv6Consts [97] [[97]] proc0 () [0x7F, 0x45] []
    (by decide) rfl (by decide)).1

/-! ### Too many arguments -/

theorem pushArgs_overflow {W : Type} (env : Env W) (c : Consts) (pgdir : Nat) :
    ∀ (argv : List (List Nat)) (argc sp : Nat) (ustack : List Nat) (s : XState W),
      argc ≤ c.MAXARG → c.MAXARG < argc + argv.length →
      (pushArgs env c pgdir argv argc sp ustack s).1 = none
  | [], argc, _, _, _, h1, h2 => by
    simp only [List.length_nil] at h2
    omega
  | a :: rest, argc, sp, ustack, s, h1, h2 => by
    unfold pushArgs
    simp only
    split_ifs with h3 h4
    · rfl
    · rfl
    · apply pushArgs_overflow env c pgdir rest
      · omega
      · simp only [List.length_cons] at h2
        omega

theorem execArgs_overflow {W : Type} (env : Env W) (c : Consts) (path : List Nat)
    (argv : List (List Nat)) (p : Proc) (pgdir sz entry : Nat) (s : XState W)
    (hlen : c.MAXARG < argv.length) :
    (execArgs env c path argv p pgdir sz entry s).ret = -1 := by
  unfold execArgs
  split
  · rfl
  · rename_i argc sp ustack s3 heq
    have h := pushArgs_overflow env c pgdir argv 0 _ _ _ (Nat.zero_le _)
      (by omega) ▸ congrArg Prod.fst heq
    cases h

theorem execStack_overflow {W : Type} (env : Env W) (c : Consts) (path : List Nat)
    (argv : List (List Nat)) (p : Proc) (pgdir sz entry : Nat) (s : XState W)
    (hlen : c.MAXARG < argv.length) :
    (execStack env c path argv p pgdir sz entry s).ret = -1 := by
  unfold execStack
  simp only
  split_ifs with h0
  · rfl
  · exact execArgs_overflow env c path argv p pgdir _ entry _ hlen

theorem exec_overflow_ret {W : Type} (env : Env W) (c : Consts) (path : List Nat)
    (argv : List (List Nat)) (p : Proc) (w : W) (hlen : c.MAXARG < argv.length) :
    (exec env c path argv p w).ret = -1 := by
  unfold exec
  simp only
  split_ifs with hn
  · rfl
  · unfold execOpened
    simp only
    split_ifs
    · rfl
    · rfl
    · rfl
    · split
      · rfl
      · exact execStack_overflow env c path argv p _ _ _ _ hlen

/-- C8 (argument overflow). For every argv with more than `MAXARG` entries and every
behaviour of the collaborators, `exec` returns -1, the process record (`pgdir`, `sz`,
`eip`, `esp`, `name`) is the one before the call, `switchuvm` is not called, and a page
table that `setupkvm` returned is freed, exactly once. -/
theorem exec_argv_overflow {W : Type} (env : Env W) (c : Consts) (path : List Nat)
    (argv : List (List Nat)) (p : Proc) (w : W) (hlen : c.MAXARG < argv.length) :
    (exec env c path argv p w).ret = -1
    ∧ (exec env c path argv p w).proc = p
    ∧ (∀ q, Event.switchuvm q ∉ (exec env c path argv p w).tr)
    ∧ (∀ pg, pg ≠ 0 → Event.setupkvm pg ∈ (exec env c path argv p w).tr →
        (exec env c path argv p w).tr.count (Event.freevm pg) = 1) := by
  have hret := exec_overflow_ret env c path argv p w hlen
  obtain ⟨h1, h2, _, h4, _⟩ := exec_fail_facts env c path argv p w hret
  refine ⟨hret, h1, h2, fun pg hpg hs => ?_⟩
  rw [← List.count_filter (isFreevm_true pg), h4 pg hpg hs]
  simp

/-- C8 at a concrete input: 33 arguments with `MAXARG` = 32 and collaborators that all
succeed; the new page table 2 is freed once. -/
theorem exec_argv_overflow_witness :
    (exec (fileEnv emptyElf) xv6Consts [97] (List.replicate 33 [97]) proc0 ()).ret = -1
    ∧ (exec (fileEnv emptyElf) xv6Consts [97] (List.replicate 33 [97]) proc0 ()).tr.count
        (Event.freevm 2) = 1 :=
  ⟨(exec_argv_overflow (fileEnv emptyElf) xv6Consts [97] (List.replicate 33 [97]) proc0 ()
      (by decide)).1,
    (exec_argv_overflow (fileEnv emptyElf) xv6Consts [97] (List.replicate 33 [97]) proc0 ()
      (by decide)).2.2.2 2 (by decide) (by decide)⟩

/-! ### The argument block -/

theorem userMem_append (t1 t2 : List Event) (m : Mem) :
    userMem (t1 ++ t2) m = userMem t2 (userMem t1 m) := by
  unfold userMem
  rw [List.foldl_append]

theorem userMem_cons (e : Event) (t : List Event) (m : Mem) :
    userMem (e :: t) m = userMem t (e.write m) := rfl

theorem userMem_nil (m : Mem) : userMem [] m = m := rfl

theorem writeBytes_in (m : Mem) (va : Nat) (data : List Nat) (j : Nat)
    (hj : j < data.length) : writeBytes m va data (va + j) = data.getD j 0 := by
  unfold writeBytes
  have h : va ≤ va + j ∧ va + j < va + data.length := by omega
  rw [if_pos h]
  congr 1
  omega

theorem writeBytes_out (m : Mem) (va : Nat) (data : List Nat) (a : Nat)
    (ha : a < va ∨ va + data.length ≤ a) : writeBytes m va data a = m a := by
  unfold writeBytes
  have h : ¬ (va ≤ a ∧ a < va + data.length) := by omega
  rw [if_neg h]

theorem wordsBytes_length :
    ∀ (us : List Nat) (n : Nat), n ≤ us.length → (wordsBytes us n).length = 4 * n
  | _, 0, _ => by simp [wordsBytes]
  | [], n + 1, h => by simp at h
  | u :: us, n + 1, h => by
    have ih := wordsBytes_length us n (by simpa using h)
    unfold wordsBytes at ih ⊢
    simp only [List.take_succ_cons, List.map_cons, List.flatten_cons, List.length_append, ih]
    simp [bytes32]
    omega

theorem wordsBytes_getD :
    ∀ (us : List Nat) (n k b : Nat), k < n → n ≤ us.length → b < 4 →
      (wordsBytes us n).getD (4 * k + b) 0 = (bytes32 (us.getD k 0)).getD b 0
  | [], n, k, b, hk, hn, _ => by simp at hn; omega
  | u :: us, 0, k, b, hk, _, _ => by omega
  | u :: us, n + 1, 0, b, _, _, hb => by
    unfold wordsBytes
    simp only [List.take_succ_cons, List.map_cons, List.flatten_cons]
    rw [List.getD_append _ _ _ _ (by simp [bytes32]; omega)]
    simp
  | u :: us, n + 1, k + 1, b, hk, hn, hb => by
    have ih := wordsBytes_getD us n k b (by omega) (by simpa using hn) hb
    unfold wordsBytes at ih ⊢
    simp only [List.take_succ_cons, List.map_cons, List.flatten_cons]
    rw [List.getD_append_right _ _ _ _ (by simp [bytes32]; omega)]
    have h4 : (bytes32 u).length = 4 := by simp [bytes32]
    rw [h4]
    have : 4 * (k + 1) + b - 4 = 4 * k + b := by omega
    rw [this, ih]
    simp

/-- Reading back word `k` of an array written by `copyout`. -/
theorem load32_writeBytes_words (m : Mem) (va : Nat) (us : List Nat) (n k : Nat)
    (hk : k < n) (hn : n ≤ us.length) :
    load32 (writeBytes m va (wordsBytes us n)) (va + 4 * k) = us.getD k 0 % U32 := by
  have hlen := wordsBytes_length us n hn
  have hb : ∀ b, b < 4 → writeBytes m va (wordsBytes us n) (va + 4 * k + b)
      = (bytes32 (us.getD k 0)).getD b 0 := by
    intro b hb
    rw [Nat.add_assoc, writeBytes_in _ _ _ _ (by omega), wordsBytes_getD us n k b hk hn hb]
  have h0 := hb 0 (by omega)
  have h1 := hb 1 (by omega)
  have h2 := hb 2 (by omega)
  have h3 := hb 3 (by omega)
  simp only [Nat.add_zero] at h0
  unfold load32
  rw [h0, h1, h2, h3]
  simp only [bytes32, List.getD_cons_zero, List.getD_cons_succ]
  unfold U32
  omega

theorem finishUstack_length (us : List Nat) (argc sp : Nat) :
    (finishUstack us argc sp).length = us.length := by
  simp [finishUstack]

theorem finishUstack_getD (us : List Nat) (argc sp : Nat) (h : 3 + argc < us.length) :
    (finishUstack us argc sp).getD 0 0 = 0xffffffff
    ∧ (finishUstack us argc sp).getD 1 0 = argc
    ∧ (finishUstack us argc sp).getD 2 0 = usub sp ((argc + 1) * 4)
    ∧ (finishUstack us argc sp).getD (3 + argc) 0 = 0
    ∧ ∀ i, i < argc → (finishUstack us argc sp).getD (3 + i) 0 = us.getD (3 + i) 0 := by
  have h0 : 0 < us.length := by omega
  have h1 : 1 < us.length := by omega
  have h2 : 2 < us.length := by omega
  refine ⟨?_, ?_, ?_, ?_, fun i hi => ?_⟩
  · simp [finishUstack, List.getD_eq_getElem?_getD, List.getElem?_set, h0]
  · simp [finishUstack, List.getD_eq_getElem?_getD, List.getElem?_set, h1]
  · simp [finishUstack, List.getD_eq_getElem?_getD, List.getElem?_set, h2]
  · have e2 : 2 ≠ 3 + argc := by omega
    have e1 : 1 ≠ 3 + argc := by omega
    have e0 : 0 ≠ 3 + argc := by omega
    simp [finishUstack, List.getD_eq_getElem?_getD, List.getElem?_set, h, e0, e1, e2]
  · have e2 : 2 ≠ 3 + i := by omega
    have e1 : 1 ≠ 3 + i := by omega
    have e0 : 0 ≠ 3 + i := by omega
    have e3 : 3 + argc ≠ 3 + i := by omega
    simp [finishUstack, List.getD_eq_getElem?_getD, List.getElem?_set, e0, e1, e2, e3]

/-- What the name loop computes from a scan position `s` and a candidate `last`: the
candidate when no '/' is left, and otherwise what follows the last '/' of `s`. -/
theorem lastElem_spec :
    ∀ (s last : List Nat),
      (47 ∉ s → lastElem s last = last)
      ∧ (47 ∈ s → ∃ pre, s = pre ++ 47 :: lastElem s last ∧ 47 ∉ lastElem s last)
  | [], last => ⟨fun _ => rfl, fun h => by cases h⟩
  | ch :: s, last => by
    obtain ⟨ih1, ih2⟩ := lastElem_spec s s
    obtain ⟨jh1, jh2⟩ := lastElem_spec s last
    by_cases hc : ch = 47
    · subst hc
      have hl : lastElem (47 :: s) last = lastElem s s := by simp [lastElem]
      refine ⟨fun h => absurd (List.mem_cons_self _ _) h, fun _ => ?_⟩
      rw [hl]
      by_cases hs : 47 ∈ s
      · obtain ⟨pre, e1, e2⟩ := ih2 hs
        exact ⟨47 :: pre, by rw [List.cons_append, ← e1], e2⟩
      · rw [ih1 hs]
        exact ⟨[], rfl, hs⟩
    · have hl : lastElem (ch :: s) last = lastElem s last := by simp [lastElem, hc]
      rw [hl]
      refine ⟨fun h => jh1 (fun hm => h (List.mem_cons_of_mem _ hm)), fun h => ?_⟩
      have hs : 47 ∈ s := by
        rcases List.mem_cons.mp h with h1 | h1
        · exact absurd h1.symm hc
        · exact h1
      obtain ⟨pre, e1, e2⟩ := jh2 hs
      exact ⟨ch :: pre, by rw [List.cons_append, ← e1], e2⟩

/-! ### What a successful run went through -/

/-- A committing argument phase: the argument loop finished, the last `copyout` did not
fail, and the record and the end of the trace are those of the commit. -/
theorem execArgs_success {W : Type} (env : Env W) (c : Consts) (path : List Nat)
    (argv : List (List Nat)) (p : Proc) (pgdir sz entry : Nat) (s : XState W)
    (hret : (execArgs env c path argv p pgdir sz entry s).ret = 0) :
    ∃ argc sp us s3 ret,
      pushArgs env c pgdir argv 0 sz (List.replicate (3 + c.MAXARG + 1) 0) s
        = (some (argc, sp, us), s3)
      ∧ ¬ ret < 0
      ∧ (execArgs env c path argv p pgdir sz entry s).proc.pgdir = pgdir
      ∧ (execArgs env c path argv p pgdir sz entry s).proc.sz = sz
      ∧ (execArgs env c path argv p pgdir sz entry s).proc.tf_eip = entry
      ∧ (execArgs env c path argv p pgdir sz entry s).proc.tf_esp
          = usub sp ((3 + argc + 1) * 4)
      ∧ (execArgs env c path argv p pgdir sz entry s).tr
          = s3.tr ++ [Event.copyout pgdir (usub sp ((3 + argc + 1) * 4))
              (wordsBytes (finishUstack us argc sp) (3 + argc + 1)) ret,
            Event.safestrcpy (lastElem path path) c.NAMESZ,
            Event.switchuvm (execArgs env c path argv p pgdir sz entry s).proc,
            Event.freevm p.pgdir] := by
  unfold execArgs at hret ⊢
  generalize hpa : pushArgs env c pgdir argv 0 sz (List.replicate (3 + c.MAXARG + 1) 0) s
    = res at hret ⊢
  rcases res with ⟨_ | ⟨argc, sp, us⟩, s3⟩
  · simp only at hret
    rw [(bad_ret _ _ _ _ _).1] at hret
    exact absurd hret (by decide)
  · simp only at hret ⊢
    split_ifs at hret ⊢ with hco
    · rw [(bad_ret _ _ _ _ _).1] at hret
      exact absurd hret (by decide)
    · exact ⟨argc, sp, us, s3, _, rfl, hco, rfl, rfl, rfl, rfl, by simp [execCommit]⟩

/-- A committing stack phase: `allocuvm` returned a non-zero size, and the rest is the
argument phase entered with that size. -/
theorem execStack_success {W : Type} (env : Env W) (c : Consts) (path : List Nat)
    (argv : List (List Nat)) (p : Proc) (pgdir sz entry : Nat) (s : XState W)
    (hret : (execStack env c path argv p pgdir sz entry s).ret = 0) :
    (env.allocuvm pgdir (PGROUNDUP c sz) ((PGROUNDUP c sz + 2 * c.PGSIZE) % U32) s.w).1
        % U32 ≠ 0
    ∧ execStack env c path argv p pgdir sz entry s
      = execArgs env c path argv p pgdir
          ((env.allocuvm pgdir (PGROUNDUP c sz)
            ((PGROUNDUP c sz + 2 * c.PGSIZE) % U32) s.w).1 % U32) entry
          ⟨env.clearpteu pgdir (usub ((env.allocuvm pgdir (PGROUNDUP c sz)
              ((PGROUNDUP c sz + 2 * c.PGSIZE) % U32) s.w).1 % U32) (2 * c.PGSIZE))
              (env.allocuvm pgdir (PGROUNDUP c sz)
                ((PGROUNDUP c sz + 2 * c.PGSIZE) % U32) s.w).2,
            s.tr ++ [Event.allocuvm pgdir (PGROUNDUP c sz)
                ((PGROUNDUP c sz + 2 * c.PGSIZE) % U32)
                (env.allocuvm pgdir (PGROUNDUP c sz)
                  ((PGROUNDUP c sz + 2 * c.PGSIZE) % U32) s.w).1]
              ++ [Event.clearpteu pgdir (usub ((env.allocuvm pgdir (PGROUNDUP c sz)
                ((PGROUNDUP c sz + 2 * c.PGSIZE) % U32) s.w).1 % U32) (2 * c.PGSIZE))]⟩ := by
  unfold execStack at hret ⊢
  simp only at hret ⊢
  split_ifs at hret ⊢ with h0
  · rw [(bad_ret _ _ _ _ _).1] at hret
    exact absurd hret (by decide)
  · exact ⟨h0, rfl⟩

/-- A run that returns 0 opened the file, got a page table, left the segment loop with a
size `sz`, released the inode and entered the stack phase. -/
theorem exec_success_stack {W : Type} (env : Env W) (c : Consts) (path : List Nat)
    (argv : List (List Nat)) (p : Proc) (w : W)
    (hret : (exec env c path argv p w).ret = 0) :
    openedInode env path w ≠ 0 ∧ (headerOf env path w).magic = ELF_MAGIC
    ∧ newPgdir env path w ≠ 0
    ∧ ∃ sz s4, segmentLoop env c path w = (some sz, s4)
      ∧ exec env c path argv p w
        = execStack env c path argv p (newPgdir env path w) sz (headerOf env path w).entry
            ⟨env.end_op (env.iunlockput (openedInode env path w) s4.w),
              s4.tr ++ [Event.iunlockput (openedInode env path w), Event.end_op]⟩ := by
  unfold exec at hret ⊢
  simp only at hret ⊢
  split_ifs at hret ⊢ with hn
  · simp only at hret
    exact absurd hret (by decide)
  · unfold execOpened at hret ⊢
    simp only at hret ⊢
    split_ifs at hret ⊢ with h1 h2 h3
    · rw [(bad_ret _ _ _ _ _).1] at hret
      exact absurd hret (by decide)
    · rw [(bad_ret _ _ _ _ _).1] at hret
      exact absurd hret (by decide)
    · rw [(bad_ret _ _ _ _ _).1] at hret
      exact absurd hret (by decide)
    · refine ⟨hn, not_not.mp h2, h3, ?_⟩
      unfold segmentLoop loopStart newPgdir headerOf headerRead openedInode
      generalize loadSegments _ _ _ _ _ _ _ _ = res at hret ⊢
      rcases res with ⟨_ | sz, s4⟩
      · simp only at hret
        rw [(bad_ret _ _ _ _ _).1] at hret
        exact absurd hret (by decide)
      · exact ⟨sz, s4, rfl, rfl⟩

/-- The end of the trace of a run that returns 0. -/
theorem exec_commit_tail {W : Type} (env : Env W) (c : Consts) (path : List Nat)
    (argv : List (List Nat)) (p : Proc) (w : W)
    (hret : (exec env c path argv p w).ret = 0) :
    ∃ t data ret,
      (exec env c path argv p w).tr
        = t ++ [Event.copyout (newPgdir env path w) (exec env c path argv p w).proc.tf_esp
              data ret,
            Event.safestrcpy (lastElem path path) c.NAMESZ,
            Event.switchuvm (exec env c path argv p w).proc,
            Event.freevm p.pgdir] := by
  obtain ⟨_, _, _, sz, s4, _, heq⟩ := exec_success_stack env c path argv p w hret
  rw [heq] at hret ⊢
  obtain ⟨_, heq2⟩ := execStack_success env c path argv p _ _ _ _ hret
  rw [heq2] at hret ⊢
  obtain ⟨argc, sp, us, s3, ret, _, _, _, _, _, e5, e6⟩ :=
    execArgs_success env c path argv p _ _ _ _ hret
  exact ⟨s3.tr, _, ret, by rw [e6, e5]⟩

theorem isSeg_not_safestrcpy (src : List Nat) (n : Nat) :
    (Event.safestrcpy src n).isSeg = false := rfl

theorem isStk_not_safestrcpy (src : List Nat) (n : Nat) :
    (Event.safestrcpy src n).isStk = false := rfl

/-- Every `safestrcpy` call of `exec` is given the result of the name loop. -/
theorem exec_safestrcpy_src {W : Type} (env : Env W) (c : Consts) (path : List Nat)
    (argv : List (List Nat)) (p : Proc) (w : W) (src : List Nat) (n : Nat)
    (hmem : Event.safestrcpy src n ∈ (exec env c path argv p w).tr) :
    src = lastElem path path ∧ n = c.NAMESZ := by
  have hs := exec_shape env c path argv p w
  have htail := exec_commit_tail env c path argv p w
  generalize exec env c path argv p w = r at hs hmem htail
  rcases hs with
    ⟨hret, hproc, htr⟩ | ⟨ip, n1, hip, hret, hproc, htr⟩ |
    ⟨ip, n1, hip, hret, hproc, htr⟩ |
    ⟨ip, n1, pg, segs, hip, hpg, hsegs, hret, hproc, htr⟩ |
    ⟨ip, n1, pg, segs, stk, hip, hpg, hsegs, hstk, hret, hproc, htr⟩ |
    ⟨ip, n1, pg, segs, stk, src1, k, hip, hpg, hsegs, hstk, hret, hproc, htr⟩
  · rw [htr] at hmem; simp at hmem
  · rw [htr] at hmem; simp at hmem
  · rw [htr] at hmem; simp at hmem
  · have a := not_mem_of_all _ segs hsegs _ (isSeg_not_safestrcpy src n)
    rw [htr] at hmem; simp [a] at hmem
  · have a := not_mem_of_all _ segs hsegs _ (isSeg_not_safestrcpy src n)
    have b := not_mem_of_all _ stk hstk _ (isStk_not_safestrcpy src n)
    rw [htr] at hmem; simp [a, b] at hmem
  · have a := not_mem_of_all _ segs hsegs _ (isSeg_not_safestrcpy src n)
    have b := not_mem_of_all _ stk hstk _ (isStk_not_safestrcpy src n)
    obtain ⟨t, data, ret, ht⟩ := htail hret
    have hm1 : Event.safestrcpy src n ∈ t ++ [Event.copyout (newPgdir env path w)
        r.proc.tf_esp data ret, Event.safestrcpy (lastElem path path) c.NAMESZ,
        Event.switchuvm r.proc, Event.freevm p.pgdir] := by rw [← ht]; exact hmem
    have hsrc : src = src1 ∧ n = k := by
      rw [htr] at hmem; simpa [a, b] using hmem
    have e3 : t ++ [Event.copyout (newPgdir env path w) r.proc.tf_esp data ret]
          ++ [Event.safestrcpy (lastElem path path) c.NAMESZ,
            Event.switchuvm r.proc, Event.freevm p.pgdir]
        = [Event.begin_op, Event.namei path ip, Event.ilock ip,
            Event.readi ip 0 SIZEOF_ELFHDR n1, Event.setupkvm pg] ++ segs
          ++ [Event.iunlockput ip, Event.end_op] ++ stk
          ++ [Event.safestrcpy src1 k, Event.switchuvm r.proc, Event.freevm p.pgdir] := by
      rw [← htr, ht]; simp
    have e4 := List.append_inj_right' e3 rfl
    simp only [List.cons.injEq, Event.safestrcpy.injEq, and_true] at e4
    exact ⟨hsrc.1.trans e4.1.symm, hsrc.2.trans e4.2.symm⟩

theorem suffix_after_last_slash (pre pre1 l : List Nat) (h : pre ++ [47] = pre1 ++ 47 :: l)
    (hl : 47 ∉ l) : l = [] := by
  rcases List.eq_nil_or_concat l with h0 | ⟨l1, x, h1⟩
  · exact h0
  · subst h1
    have h2 : pre ++ [47] = (pre1 ++ 47 :: l1) ++ [x] := by rw [h]; simp
    have h3 := List.append_inj_right' h2 rfl
    have hx : x = 47 := by simpa using h3.symm
    exact absurd (by rw [hx]; simp) hl

/-- C18 (program name). For every path, the string `exec` hands to `safestrcpy` is the
result of the name loop, and that result is: the whole path when the path has no '/',
otherwise the part of the path just after its last '/' (empty when the path ends in
'/'); it never contains a '/'. A run that returns 0 makes that call. -/
theorem exec_program_name {W : Type} (env : Env W) (c : Consts) (path : List Nat)
    (argv : List (List Nat)) (p : Proc) (w : W) :
    (∀ src n, Event.safestrcpy src n ∈ (exec env c path argv p w).tr →
        src = lastElem path path)
    ∧ ((exec env c path argv p w).ret = 0 →
        Event.safestrcpy (lastElem path path) c.NAMESZ ∈ (exec env c path argv p w).tr)
    ∧ (47 ∉ path → lastElem path path = path)
    ∧ (47 ∈ path → ∃ pre, path = pre ++ 47 :: lastElem path path)
    ∧ (∀ pre, path = pre ++ [47] → lastElem path path = [])
    ∧ 47 ∉ lastElem path path := by
  obtain ⟨h1, h2⟩ := lastElem_spec path path
  have hno : 47 ∉ lastElem path path := by
    by_cases hp : 47 ∈ path
    · obtain ⟨_, _, e⟩ := h2 hp
      exact e
    · rw [h1 hp]; exact hp
  refine ⟨fun src n hm => (exec_safestrcpy_src env c path argv p w src n hm).1,
    fun hret => ?_, h1, fun hp => ?_, fun pre hpre => ?_, hno⟩
  · obtain ⟨t, data, ret, ht⟩ := exec_commit_tail env c path argv p w hret
    rw [ht]; simp
  · obtain ⟨pre, e, _⟩ := h2 hp
    exact ⟨pre, e⟩
  · have hp : 47 ∈ path := by rw [hpre]; simp
    obtain ⟨pre1, e, _⟩ := h2 hp
    exact suffix_after_last_slash pre pre1 _ (hpre ▸ e) hno

/-! ## The second group of claims about the allocator -/

theorem runOps_kalloc_pair (c : Consts) (ops : List Op) (s : KState) :
    runOps c (Op.kalloc :: ops) s
      = (KEvent.alloc (kalloc s).1 :: (runOps c ops (kalloc s).2).1,
          (runOps c ops (kalloc s).2).2) := rfl

theorem runOps_kfree_pair (c : Consts) (ops : List Op) (s s1 : KState) (v : Nat)
    (h : kfree c v s = KResult.ok s1) :
    runOps c (Op.kfree v :: ops) s
      = (KEvent.free v :: (runOps c ops s1).1, (runOps c ops s1).2) := by
  simp only [runOps, h]

/-- Calls of `kfree` on distinct acceptable frames that are not on the free list push
them all; the run goes on from the resulting state. -/
theorem runOps_frees_state (c : Consts) (hc : c.WF) (rest : List Op) :
    ∀ (frames l : List Nat) (s : KState), FreeList c s l → frames.Nodup →
      (∀ v ∈ frames, okFrame c v) → (∀ v ∈ frames, v ∉ l) →
      ∃ s1, FreeList c s1 (frames.reverse ++ l) ∧
        runOps c (frames.map Op.kfree ++ rest) s
          = (frames.map KEvent.free ++ (runOps c rest s1).1, (runOps c rest s1).2)
  | [], l, s, hl, _, _, _ => ⟨s, by simpa using hl, by simp⟩
  | v :: frames, l, s, hl, hnd, hok, hdis => by
    obtain ⟨hvn, hnd1⟩ := List.nodup_cons.mp hnd
    obtain ⟨s1, hk, hl1, _⟩ := FreeList_kfree c s l v hc hl
      (hok v (List.mem_cons_self _ _)) (hdis v (List.mem_cons_self _ _))
    obtain ⟨s2, hl2, hrun⟩ := runOps_frees_state c hc rest frames (v :: l) s1 hl1 hnd1
      (fun u hu => hok u (List.mem_cons_of_mem _ hu))
      (fun u hu hmem => by
        rcases List.mem_cons.mp hmem with rfl | h
        · exact hvn hu
        · exact hdis u (List.mem_cons_of_mem _ hu) h)
    refine ⟨s2, by simpa using hl2, ?_⟩
    simp only [List.map_cons, List.cons_append]
    rw [runOps_kfree_pair c _ s s1 v hk, hrun]

/-- As many `kalloc` calls as the free list has leading frames pop exactly those frames;
the run goes on from the resulting state. -/
theorem runOps_allocs_state (c : Consts) (rest : List Op) :
    ∀ (l1 l2 : List Nat) (s : KState), FreeList c s (l1 ++ l2) →
      ∃ s1, FreeList c s1 l2 ∧
        runOps c (List.replicate l1.length Op.kalloc ++ rest) s
          = (l1.map KEvent.alloc ++ (runOps c rest s1).1, (runOps c rest s1).2)
  | [], l2, s, hl => ⟨s, by simpa using hl, by simp⟩
  | v :: l1, l2, s, hl => by
    obtain ⟨h1, h2, _⟩ := FreeList_kalloc_cons c s (l1 ++ l2) v hl
    obtain ⟨s1, hl1, hrun⟩ := runOps_allocs_state c rest l1 l2 (kalloc s).2 h2
    refine ⟨s1, hl1, ?_⟩
    simp only [List.length_cons, List.replicate_succ, List.cons_append, List.map_cons]
    rw [runOps_kalloc_pair, hrun, h1]

/-- C17 as stated fails when the frame is already on the free list: with the free list
holding the single frame `f` = 0x80200000, `kfree(f)` followed by `kalloc()` returns `f`,
but the free list is no longer the list `[f]`: the node `f` has become its own
successor. -/
theorem lifo_counterexample :
    chain (boot xv6Consts (fun _ => 0) 0x80200000 0x80201000 0x80201000
        0x80201000).state.mem
      (boot xv6Consts (fun _ => 0) 0x80200000 0x80201000 0x80201000
        0x80201000).state.freelist [0x80200000]
    ∧ (kalloc (kfree xv6Consts 0x80200000
        (boot xv6Consts (fun _ => 0) 0x80200000 0x80201000 0x80201000
          0x80201000).state).state).1 = 0x80200000
    ∧ ¬ chain (kalloc (kfree xv6Consts 0x80200000
        (boot xv6Consts (fun _ => 0) 0x80200000 0x80201000 0x80201000
          0x80201000).state).state).2.mem
      (kalloc (kfree xv6Consts 0x80200000
        (boot xv6Consts (fun _ => 0) 0x80200000 0x80201000 0x80201000
          0x80201000).state).state).2.freelist [0x80200000] := by
  refine ⟨⟨rfl, by decide, rfl⟩, rfl, ?_⟩
  rintro ⟨_, _, h⟩
  change _ = 0 at h
  exact absurd h (by decide)

/-- C17, amended. For every free list `l` and every frame `v` that `kfree` accepts and
that is not on `l`: `kfree(v)` does not panic, the `kalloc()` after it returns `v`, and
the free list is `l` again. More generally, after `kfree` of distinct acceptable frames
that are not on `l`, as many `kalloc` calls return those frames in the reverse order of
the `kfree` calls, and the free list is `l` again. -/
theorem kfree_kalloc_lifo (c : Consts) (s : KState) (l : List Nat) (v : Nat)
    (frames : List Nat) (hc : c.WF) (hl : FreeList c s l) (hv : okFrame c v)
    (hnew : v ∉ l) (hnd : frames.Nodup) (hok : ∀ u ∈ frames, okFrame c u)
    (hdis : ∀ u ∈ frames, u ∉ l) :
    (kfree c v s).panicked = false
    ∧ (kalloc (kfree c v s).state).1 = v
    ∧ FreeList c (kalloc (kfree c v s).state).2 l
    ∧ (runOps c (frames.map Op.kfree ++ List.replicate frames.length Op.kalloc) s).1
        = frames.map KEvent.free ++ frames.reverse.map KEvent.alloc
    ∧ FreeList c
        (runOps c (frames.map Op.kfree ++ List.replicate frames.length Op.kalloc) s).2 l := by
  have hs := FreeList_kfree_state c s l v hc hl hv hnew
  obtain ⟨a1, a2, _⟩ := FreeList_kalloc_cons c (kfree c v s).state l v hs
  obtain ⟨s1, hl1, hrun1⟩ := runOps_frees_state c hc
    (List.replicate frames.length Op.kalloc) frames l s hl hnd hok hdis
  have hrep : List.replicate frames.length Op.kalloc
      = List.replicate frames.reverse.length Op.kalloc ++ [] := by simp
  obtain ⟨s2, hl2, hrun2⟩ := runOps_allocs_state c [] frames.reverse l s1 hl1
  rw [← hrep] at hrun2
  refine ⟨by rw [kfree_state_ok c v s hv.1]; rfl, a1, a2, ?_, ?_⟩
  · rw [hrun1, hrun2]; simp [runOps]
  · rw [hrun1, hrun2]; exact hl2

/-- C17 amended, at a concrete input: two frames freed onto an empty list. -/
theorem kfree_kalloc_lifo_witness :
    (runOps xv6Consts ([0x80200000, 0x80201000].map Op.kfree
        ++ List.replicate 2 Op.kalloc) (kmem0 (fun _ => 0))).1
      = [KEvent.free 0x80200000, KEvent.free 0x80201000, KEvent.alloc 0x80201000,
          KEvent.alloc 0x80200000] :=
  (kfree_kalloc_lifo xv6Consts (kmem0 (fun _ => 0)) [] 0x80202000
    [0x80200000, 0x80201000] (by decide)
    ⟨rfl, List.nodup_nil, fun u hu => (by cases hu)⟩ (by decide) (by decide) (by decide)
    (by decide) (by decide)).2.2.2.1

/-! ### The bounds of `ustack` -/

theorem loopWrites_bound {W : Type} (env : Env W) (c : Consts) (pgdir : Nat) :
    ∀ (argv : List (List Nat)) (argc sp : Nat) (s : XState W),
      ∀ i ∈ loopWrites env c pgdir argv argc sp s, 3 + argc ≤ i ∧ i < 3 + c.MAXARG
  | [], _, _, _, i, hi => by simp [loopWrites] at hi
  | a :: rest, argc, sp, s, i, hi => by
    unfold loopWrites at hi
    simp only at hi
    split_ifs at hi with h1 h2
    · simp at hi
    · simp at hi
    · rcases List.mem_cons.mp hi with rfl | h
      · omega
      · have := loopWrites_bound env c pgdir rest (argc + 1) _ _ i h
        omega

/-- When the argument loop is left normally, it has counted every argument, at most
`MAXARG` of them, it has written `ustack` at the indices `3+argc0`, ..., `3+argc-1`, and
the array still has its declared length. -/
theorem pushArgs_count {W : Type} (env : Env W) (c : Consts) (pgdir : Nat) :
    ∀ (argv : List (List Nat)) (argc sp : Nat) (us : List Nat) (s : XState W)
      (argc1 sp1 : Nat) (us1 : List Nat) (s1 : XState W),
      pushArgs env c pgdir argv argc sp us s = (some (argc1, sp1, us1), s1) →
      argc ≤ c.MAXARG →
      argc1 = argc + argv.length ∧ argc1 ≤ c.MAXARG ∧ us1.length = us.length
      ∧ loopWrites env c pgdir argv argc sp s
          = (List.range argv.length).map (fun k => 3 + argc + k)
  | [], argc, sp, us, s, argc1, sp1, us1, s1, h, hargc => by
    simp only [pushArgs, Prod.mk.injEq, Option.some.injEq] at h
    obtain ⟨⟨rfl, rfl, rfl⟩, rfl⟩ := h
    exact ⟨by simp, hargc, rfl, by simp [loopWrites]⟩
  | a :: rest, argc, sp, us, s, argc1, sp1, us1, s1, h, hargc => by
    unfold pushArgs at h
    unfold loopWrites
    simp only at h ⊢
    split_ifs at h ⊢ with h1 h2
    · simp at h
    · simp at h
    · obtain ⟨e1, e2, e3, e4⟩ :=
        pushArgs_count env c pgdir rest (argc + 1) _ _ _ argc1 sp1 us1 s1 h (by omega)
      refine ⟨by rw [e1]; simp; omega, e2, by rw [e3, List.length_set], ?_⟩
      rw [e4, List.length_cons, List.range_succ_eq_map, List.map_cons, List.map_map]
      simp only [Nat.add_zero, List.cons.injEq, true_and]
      apply List.map_congr_left
      intro k _
      simp only [Function.comp_apply]
      omega

/-- C20 (ustack bounds). For every argv and every behaviour of `copyout`, every index at
which `exec` writes `ustack` (declared with `3+MAXARG+1` entries) is at most `3+MAXARG`,
the terminating null pointer at `3+argc` included; and when the loop is left normally,
`argc` is the number of arguments, at most `MAXARG`, and the `(3+argc+1)*4` bytes copied
out are all bytes of the array (no more than its `(3+MAXARG+1)*4` bytes). -/
theorem ustack_bounds {W : Type} (env : Env W) (c : Consts) (pgdir : Nat)
    (argv : List (List Nat)) (sz : Nat) (s : XState W) :
    (∀ i ∈ ustackWrites env c pgdir argv sz s, i ≤ 3 + c.MAXARG)
    ∧ (∀ argc sp us s3,
        pushArgs env c pgdir argv 0 sz (List.replicate (3 + c.MAXARG + 1) 0) s
          = (some (argc, sp, us), s3) →
        argc = argv.length ∧ 3 + argc ≤ 3 + c.MAXARG
        ∧ (3 + argc + 1) * 4 ≤ (3 + c.MAXARG + 1) * 4
        ∧ (finishUstack us argc sp).length = 3 + c.MAXARG + 1
        ∧ (wordsBytes (finishUstack us argc sp) (3 + argc + 1)).length
            = (3 + argc + 1) * 4) := by
  have hsome : ∀ argc sp us s3,
      pushArgs env c pgdir argv 0 sz (List.replicate (3 + c.MAXARG + 1) 0) s
        = (some (argc, sp, us), s3) →
      argc = argv.length ∧ argc ≤ c.MAXARG ∧ us.length = 3 + c.MAXARG + 1 := by
    intro argc sp us s3 h
    obtain ⟨e1, e2, e3, _⟩ :=
      pushArgs_count env c pgdir argv 0 sz _ s argc sp us s3 h (Nat.zero_le _)
    exact ⟨by simpa using e1, e2, by rw [e3]; simp⟩
  refine ⟨fun i hi => ?_, fun argc sp us s3 h => ?_⟩
  · unfold ustackWrites at hi
    rcases List.mem_append.mp hi with h | h
    · have := loopWrites_bound env c pgdir argv 0 sz s i h
      omega
    · generalize hpa : pushArgs env c pgdir argv 0 sz
        (List.replicate (3 + c.MAXARG + 1) 0) s = res at h
      rcases res with ⟨_ | ⟨argc, sp, us⟩, s3⟩
      · simp at h
      · obtain ⟨_, e2, _⟩ := hsome argc sp us s3 hpa
        simp only [List.mem_cons, List.mem_singleton, List.not_mem_nil, or_false] at h
        omega
  · obtain ⟨e1, e2, e3⟩ := hsome argc sp us s3 h
    have hl : (finishUstack us argc sp).length = 3 + c.MAXARG + 1 := by
      rw [finishUstack_length, e3]
    refine ⟨e1, by omega, by omega, hl, ?_⟩
    rw [wordsBytes_length _ _ (by omega)]
    omega

/-! ### No wrap-around reaches the collaborators -/

theorem byteAt_lt (b : List Nat) (i : Nat) : byteAt b i < 256 := by
  unfold byteAt
  exact Nat.mod_lt _ (by decide)

theorem le32_lt (b : List Nat) (i : Nat) : le32 b i < U32 := by
  have h0 := byteAt_lt b i
  have h1 := byteAt_lt b (i + 1)
  have h2 := byteAt_lt b (i + 2)
  have h3 := byteAt_lt b (i + 3)
  unfold le32 U32
  omega

theorem LoadGuarded_append (c : Consts) (t l : List Event) (h : LoadGuarded c t)
    (hl : ∀ e ∈ l, e.isLoaduvm = false) : LoadGuarded c (t ++ l) := by
  intro pg va ip off fsz lret hm
  rcases List.mem_append.mp hm with h1 | h1
  · obtain ⟨msz, oldsz, aret, a1, a2, a3, a4, a5⟩ := h pg va ip off fsz lret h1
    exact ⟨msz, oldsz, aret, a1, a2, a3, a4, a5.trans (List.infix_append' [] t l)⟩
  · have := hl _ h1
    simp [Event.isLoaduvm] at this

theorem LoadGuarded_step (c : Consts) (t : List Event) (pg oldsz va msz aret ip off fsz : Nat)
    (lret : Int) (h : LoadGuarded c t) (h1 : fsz ≤ msz) (h2 : va + msz < U32)
    (h3 : va % c.PGSIZE = 0) (h4 : aret % U32 ≠ 0) :
    LoadGuarded c (t ++ [Event.allocuvm pg oldsz (va + msz) aret]
      ++ [Event.loaduvm pg va ip off fsz lret]) := by
  intro pg1 va1 ip1 off1 fsz1 lret1 hm
  rw [List.append_assoc] at hm ⊢
  rcases List.mem_append.mp hm with hm1 | hm1
  · obtain ⟨msz1, oldsz1, aret1, a1, a2, a3, a4, a5⟩ := h _ _ _ _ _ _ hm1
    exact ⟨msz1, oldsz1, aret1, a1, a2, a3, a4, a5.trans (List.infix_append' [] t _)⟩
  · simp only [List.singleton_append, List.mem_cons, List.mem_singleton, List.not_mem_nil,
      or_false, false_or, reduceCtorEq] at hm1
    injection hm1 with e1 e2 e3 e4 e5 e6
    subst e1 e2 e3 e4 e5 e6
    exact ⟨msz, oldsz, aret, h1, h2, h3, h4, (List.suffix_append t _).isInfix⟩

/-- The wrap test of exec on values of type `uint`. -/
theorem wrap_test_iff (va msz : Nat) (hva : va < U32) (hm : msz < U32) :
    (va + msz) % U32 < va ↔ U32 ≤ va + msz := by
  unfold U32 at *
  omega

theorem proghdr_vaddr_lt (b : List Nat) : (parse_proghdr b).vaddr < U32 := le32_lt b 8

theorem proghdr_memsz_lt (b : List Nat) : (parse_proghdr b).memsz < U32 := le32_lt b 20

theorem loadSegments_guarded {W : Type} (env : Env W) (c : Consts) (ip pgdir : Nat) :
    ∀ (n off sz : Nat) (s : XState W), LoadGuarded c s.tr →
      LoadGuarded c (loadSegments env c ip pgdir n off sz s).2.tr
  | 0, _, _, _, h => h
  | n + 1, off, sz, s, h => by
    have hr : LoadGuarded c (s.tr ++ [Event.readi ip off SIZEOF_PROGHDR
        (env.readi ip off SIZEOF_PROGHDR s.w).1.1]) :=
      LoadGuarded_append c _ _ h (by simp [Event.isLoaduvm])
    unfold loadSegments
    simp only
    generalize env.readi ip off SIZEOF_PROGHDR s.w = rd at hr ⊢
    have hva := proghdr_vaddr_lt rd.1.2
    have hms := proghdr_memsz_lt rd.1.2
    split_ifs with h1 h2 h3 h4 h5 h6 h7
    · exact hr
    · exact loadSegments_guarded env c ip pgdir n _ _ ⟨_, _⟩ hr
    · exact hr
    · exact hr
    · exact LoadGuarded_append c _ _ hr (by simp [Event.isLoaduvm])
    · exact LoadGuarded_append c _ _ hr (by simp [Event.isLoaduvm])
    · have hnw : (parse_proghdr rd.1.2).vaddr + (parse_proghdr rd.1.2).memsz < U32 := by
        by_contra hc
        exact h4 ((wrap_test_iff _ _ hva hms).mpr (by omega))
      simp only [Nat.mod_eq_of_lt hnw] at h5 ⊢
      exact LoadGuarded_step c _ _ _ _ _ _ _ _ _ _ hr (by omega) hnw (not_not.mp h6) h5
    · have hnw : (parse_proghdr rd.1.2).vaddr + (parse_proghdr rd.1.2).memsz < U32 := by
        by_contra hc
        exact h4 ((wrap_test_iff _ _ hva hms).mpr (by omega))
      apply loadSegments_guarded env c ip pgdir n _ _ ⟨_, _⟩
      simp only [Nat.mod_eq_of_lt hnw] at h5 ⊢
      exact LoadGuarded_step c _ _ _ _ _ _ _ _ _ _ hr (by omega) hnw (not_not.mp h6) h5

theorem LoadGuarded_extends (c : Consts) (q : Event → Bool) (t t1 : List Event)
    (h : LoadGuarded c t) (he : Extends q t t1)
    (hq : ∀ e, q e = true → e.isLoaduvm = false) : LoadGuarded c t1 := by
  obtain ⟨l, rfl, hl⟩ := he
  exact LoadGuarded_append c t l h (fun e hm => hq e (hl e hm))

theorem isStk_not_loaduvm (e : Event) (h : e.isStk = true) : e.isLoaduvm = false := by
  cases e <;> simp_all [Event.isStk, Event.isLoaduvm]

theorem LoadGuarded_of_none (c : Consts) (t : List Event)
    (h : ∀ e ∈ t, e.isLoaduvm = false) : LoadGuarded c t := by
  intro pg va ip off fsz lret hm
  have := h _ hm
  simp [Event.isLoaduvm] at this

/-- In every run of `exec`, every `loaduvm` call is guarded as `LoadGuarded` says. -/
theorem exec_guarded {W : Type} (env : Env W) (c : Consts) (path : List Nat)
    (argv : List (List Nat)) (p : Proc) (w : W) :
    LoadGuarded c (exec env c path argv p w).tr := by
  unfold exec
  simp only
  generalize env.namei path (env.begin_op w) = nm
  split_ifs with hn
  · exact LoadGuarded_of_none c _ (by simp [Event.isLoaduvm])
  · unfold execOpened
    simp only
    generalize env.readi nm.1 0 SIZEOF_ELFHDR (env.ilock nm.1 nm.2) = rd
    generalize env.setupkvm rd.2 = pg
    split_ifs with h1 h2 h3
    · rw [bad_tr]
      exact LoadGuarded_of_none c _ (by
        intro e he
        by_cases h : nm.1 = 0 <;> simp [h] at he <;>
          rcases he with rfl | rfl | rfl | rfl | rfl | rfl <;> rfl)
    · rw [bad_tr]
      exact LoadGuarded_of_none c _ (by
        intro e he
        by_cases h : nm.1 = 0 <;> simp [h] at he <;>
          rcases he with rfl | rfl | rfl | rfl | rfl | rfl <;> rfl)
    · rw [bad_tr]
      exact LoadGuarded_of_none c _ (by
        intro e he
        by_cases h : nm.1 = 0 <;> simp [h, h3] at he <;>
          rcases he with rfl | rfl | rfl | rfl | rfl | rfl | rfl <;> rfl)
    · have h0 : LoadGuarded c ([Event.begin_op] ++ [Event.namei path nm.1]
          ++ [Event.ilock nm.1] ++ [Event.readi nm.1 0 SIZEOF_ELFHDR rd.1.1]
          ++ [Event.setupkvm pg.1]) :=
        LoadGuarded_of_none c _ (by simp [Event.isLoaduvm])
      have hloop := loadSegments_guarded env c nm.1 pg.1 (parse_elfhdr rd.1.2).phnum
        (parse_elfhdr rd.1.2).phoff 0 ⟨pg.2, _⟩ h0
      generalize loadSegments _ _ _ _ _ _ _ _ = res at hloop ⊢
      rcases res with ⟨_ | sz, s4⟩
      · simp only at hloop ⊢
        rw [bad_tr_both _ _ _ _ _ h3 hn]
        exact LoadGuarded_append c _ _ hloop (by simp [Event.isLoaduvm])
      · simp only at hloop ⊢
        have h5 : LoadGuarded c (s4.tr ++ [Event.iunlockput nm.1, Event.end_op]) :=
          LoadGuarded_append c _ _ hloop (by simp [Event.isLoaduvm])
        rcases execStack_shape env c path argv p pg.1 sz (parse_elfhdr rd.1.2).entry
          ⟨env.end_op (env.iunlockput nm.1 s4.w),
            s4.tr ++ [Event.iunlockput nm.1, Event.end_op]⟩ h3 with
          ⟨_, _, t, e3, e4⟩ | ⟨_, _, t, e3, e4⟩
        · rw [e3]
          exact LoadGuarded_append c _ _
            (LoadGuarded_extends c _ _ _ h5 e4 isStk_not_loaduvm) (by simp [Event.isLoaduvm])
        · rw [e3]
          exact LoadGuarded_append c _ _
            (LoadGuarded_extends c _ _ _ h5 e4 isStk_not_loaduvm) (by simp [Event.isLoaduvm])

/-- C19 (no wrap-around reaches the collaborators). For every program header as `exec`
reads it (32-bit fields), the test `ph.vaddr + ph.memsz < ph.vaddr` in `uint` arithmetic
is true exactly when the mathematical sum is at least 2^32. And in every run, every
`loaduvm` call for `fsz` bytes at `va` comes right after the `allocuvm` call that asked
for `va + msz`, where `va + fsz <= va + msz < 2^32`; so when that `allocuvm` returned at
least the size asked for, `va + fsz` is within the mapped size `sz` it returned. -/
theorem exec_no_wrap {W : Type} (env : Env W) (c : Consts) (path : List Nat)
    (argv : List (List Nat)) (p : Proc) (w : W) :
    (∀ b : List Nat,
      ((parse_proghdr b).vaddr + (parse_proghdr b).memsz) % U32 < (parse_proghdr b).vaddr
        ↔ U32 ≤ (parse_proghdr b).vaddr + (parse_proghdr b).memsz)
    ∧ ∀ pg va ip off fsz lret,
        Event.loaduvm pg va ip off fsz lret ∈ (exec env c path argv p w).tr →
        ∃ msz oldsz aret, va + fsz ≤ va + msz ∧ va + msz < U32
          ∧ [Event.allocuvm pg oldsz (va + msz) aret, Event.loaduvm pg va ip off fsz lret]
              <:+: (exec env c path argv p w).tr
          ∧ (va + msz ≤ aret % U32 → va + fsz ≤ aret % U32) := by
  refine ⟨fun b => wrap_test_iff _ _ (proghdr_vaddr_lt b) (proghdr_memsz_lt b), ?_⟩
  intro pg va ip off fsz lret hm
  obtain ⟨msz, oldsz, aret, a1, a2, _, _, a5⟩ :=
    exec_guarded env c path argv p w pg va ip off fsz lret hm
  exact ⟨msz, oldsz, aret, by omega, a2, a5, fun h => by omega⟩

/-! ### One program header -/

/-- One iteration of the segment loop, in the vocabulary of `descAt`, `allocAt`, `loadAt`. -/
theorem loadSegments_step {W : Type} (env : Env W) (c : Consts) (ip pgdir n off sz : Nat)
    (s : XState W) :
    loadSegments env c ip pgdir (n + 1) off sz s =
      if (env.readi ip off SIZEOF_PROGHDR s.w).1.1 ≠ SIZEOF_PROGHDR then
        (none, afterRead env ip off s)
      else if (descAt env ip off s).type ≠ ELF_PROG_LOAD then
        loadSegments env c ip pgdir n ((off + SIZEOF_PROGHDR) % U32) sz (afterRead env ip off s)
      else if (descAt env ip off s).memsz < (descAt env ip off s).filesz then
        (none, afterRead env ip off s)
      else if ((descAt env ip off s).vaddr + (descAt env ip off s).memsz) % U32
          < (descAt env ip off s).vaddr then
        (none, afterRead env ip off s)
      else if (allocAt env ip pgdir off sz s).1 % U32 = 0 then
        (none, afterAlloc env ip pgdir off sz s)
      else if (descAt env ip off s).vaddr % c.PGSIZE ≠ 0 then
        (none, afterAlloc env ip pgdir off sz s)
      else if (loadAt env ip pgdir off sz s).1 < 0 then
        (none, afterLoad env ip pgdir off sz s)
      else
        loadSegments env c ip pgdir n ((off + SIZEOF_PROGHDR) % U32)
          ((allocAt env ip pgdir off sz s).1 % U32) (afterLoad env ip pgdir off sz s) := by
  rw [loadSegments]
  rfl

/-- When the segment loop ends in `goto bad`, `exec` is the rollback from there. -/
theorem exec_of_loop_none {W : Type} (env : Env W) (c : Consts) (path : List Nat)
    (argv : List (List Nat)) (p : Proc) (w : W) (s4 : XState W)
    (hopen : openedInode env path w ≠ 0)
    (hcount : (headerRead env path w).1.1 = SIZEOF_ELFHDR)
    (hmagic : (headerOf env path w).magic = ELF_MAGIC)
    (hpg : newPgdir env path w ≠ 0)
    (hloop : segmentLoop env c path w = (none, s4)) :
    exec env c path argv p w
      = bad env (newPgdir env path w) (openedInode env path w) p s4 := by
  simp only [segmentLoop, loopStart, openedInode, headerRead, headerOf, newPgdir] at *
  unfold exec
  simp only
  rw [if_neg hopen]
  unfold execOpened
  simp only
  rw [if_neg (not_not.mpr hcount), if_neg (not_not.mpr hmagic), if_neg hpg, hloop]

/-- C11 as stated fails for the alignment check: for the single loadable segment of
`misalignedElf`, at address 1, `exec` returns -1 but has called `allocuvm` for that
descriptor, asking for the size 1 + 16, before it looks at the alignment. -/
theorem misaligned_counterexample :
    (descAt (fileEnv misalignedElf) 1 52 (loopStart (fileEnv misalignedElf) [97] ())).type
      = ELF_PROG_LOAD
    ∧ (descAt (fileEnv misalignedElf) 1 52
        (loopStart (fileEnv misalignedElf) [97] ())).vaddr % xv6Consts.PGSIZE ≠ 0
    ∧ (exec (fileEnv misalignedElf) xv6Consts [97] [[97]] proc0 ()).ret = -1
    ∧ (exec (fileEnv misalignedElf) xv6Consts [97] [[97]] proc0 ()).tr
      = [Event.begin_op, Event.namei [97] 1, Event.ilock 1, Event.readi 1 0 52 52,
          Event.setupkvm 2, Event.readi 1 52 32 32, Event.allocuvm 2 0 17 17,
          Event.freevm 2, Event.iunlockput 1, Event.end_op] := by
  decide

/-- C11, amended. Let `exec` reach, in its segment loop, a loadable program header (the
loop being in state `s` with `n + 1` headers left). If the header has `memsz < filesz`
or `vaddr + memsz` wraps, `exec` returns -1 and calls nothing for that header after
reading it: the rollback follows the `readi`. If it passes those two checks but `vaddr`
is not a multiple of `PGSIZE`, `exec` returns -1 as well and `loaduvm` is not called
for the header, but `allocuvm` has been called for it: the rollback follows that call.
In both cases the process record is untouched. -/
theorem segment_validation {W : Type} (env : Env W) (c : Consts) (path : List Nat)
    (argv : List (List Nat)) (p : Proc) (w : W) (n off sz : Nat) (s : XState W)
    (hloop : ReachesLoop env path w)
    (hreach : segmentLoop env c path w
      = loadSegments env c (openedInode env path w) (newPgdir env path w) (n + 1) off sz s)
    (hread : (env.readi (openedInode env path w) off SIZEOF_PROGHDR s.w).1.1
      = SIZEOF_PROGHDR)
    (hload : (descAt env (openedInode env path w) off s).type = ELF_PROG_LOAD)
    (hbad : (descAt env (openedInode env path w) off s).memsz
          < (descAt env (openedInode env path w) off s).filesz
      ∨ U32 ≤ (descAt env (openedInode env path w) off s).vaddr
          + (descAt env (openedInode env path w) off s).memsz
      ∨ (descAt env (openedInode env path w) off s).vaddr % c.PGSIZE ≠ 0) :
    (exec env c path argv p w).ret = -1
    ∧ (exec env c path argv p w).proc = p
    ∧ (((descAt env (openedInode env path w) off s).memsz
          < (descAt env (openedInode env path w) off s).filesz
        ∨ U32 ≤ (descAt env (openedInode env path w) off s).vaddr
          + (descAt env (openedInode env path w) off s).memsz) →
      (exec env c path argv p w).tr
        = (afterRead env (openedInode env path w) off s).tr
          ++ [Event.freevm (newPgdir env path w), Event.iunlockput (openedInode env path w),
            Event.end_op])
    ∧ (¬ ((descAt env (openedInode env path w) off s).memsz
          < (descAt env (openedInode env path w) off s).filesz
        ∨ U32 ≤ (descAt env (openedInode env path w) off s).vaddr
          + (descAt env (openedInode env path w) off s).memsz) →
      (exec env c path argv p w).tr
        = (afterAlloc env (openedInode env path w) (newPgdir env path w) off sz s).tr
          ++ [Event.freevm (newPgdir env path w), Event.iunlockput (openedInode env path w),
            Event.end_op]) := by
  obtain ⟨hopen, hcount, hmagic, hpg⟩ := hloop
  have hva : (descAt env (openedInode env path w) off s).vaddr < U32 :=
    proghdr_vaddr_lt _
  have hms : (descAt env (openedInode env path w) off s).memsz < U32 :=
    proghdr_memsz_lt _
  have hw := wrap_test_iff _ _ hva hms
  have hstep := loadSegments_step env c (openedInode env path w) (newPgdir env path w)
    n off sz s
  rw [if_neg (not_not.mpr hread), if_neg (not_not.mpr hload)] at hstep
  by_cases h1 : (descAt env (openedInode env path w) off s).memsz
      < (descAt env (openedInode env path w) off s).filesz
  · rw [if_pos h1] at hstep
    have he := exec_of_loop_none env c path argv p w _ hopen hcount hmagic hpg
      (hreach.trans hstep)
    rw [he]
    exact ⟨rfl, rfl, fun _ => bad_tr_both _ _ _ _ _ hpg hopen,
      fun h => absurd (Or.inl h1) h⟩
  · rw [if_neg h1] at hstep
    by_cases h2 : U32 ≤ (descAt env (openedInode env path w) off s).vaddr
        + (descAt env (openedInode env path w) off s).memsz
    · rw [if_pos (hw.mpr h2)] at hstep
      have he := exec_of_loop_none env c path argv p w _ hopen hcount hmagic hpg
        (hreach.trans hstep)
      rw [he]
      exact ⟨rfl, rfl, fun _ => bad_tr_both _ _ _ _ _ hpg hopen,
        fun h => absurd (Or.inr h2) h⟩
    · have h3 : (descAt env (openedInode env path w) off s).vaddr % c.PGSIZE ≠ 0 := by
        rcases hbad with h | h | h
        · exact absurd h h1
        · exact absurd h h2
        · exact h
      rw [if_neg (fun h => h2 (hw.mp h))] at hstep
      have hnone : loadSegments env c (openedInode env path w) (newPgdir env path w)
          (n + 1) off sz s
          = (none, afterAlloc env (openedInode env path w) (newPgdir env path w) off sz s) := by
        rw [hstep]
        split_ifs <;> rfl
      have he := exec_of_loop_none env c path argv p w _ hopen hcount hmagic hpg
        (hreach.trans hnone)
      rw [he]
      refine ⟨rfl, rfl, fun h => ?_, fun _ => bad_tr_both _ _ _ _ _ hpg hopen⟩
      rcases h with h | h
      · exact absurd h h1
      · exact absurd h h2

/-- C11 amended, at a concrete input: the misaligned segment of `misalignedElf`. -/
theorem segment_validation_witness :
    (exec (fileEnv misalignedElf) xv6Consts [97] [[97]] proc0 ()).ret = -1 :=
  (segment_validation (fileEnv misalignedElf) xv6Consts [97] [[97]] proc0 () 0 52 0
    (loopStart (fileEnv misalignedElf) [97] ()) (by decide) rfl (by decide) (by decide)
    (by decide)).1

/-- C15 as stated fails for `vaddr = 0` as the first segment: for the single loadable
segment of `zeroSegElf` (`filesz = memsz = 0`, `vaddr = 0`), with collaborators that all
succeed, `allocuvm` is asked for the size 0 and reports the top 0, which `exec` takes
for a failure: it returns -1 without calling `loaduvm`. -/
theorem zero_segment_counterexample :
    (descAt (fileEnv zeroSegElf) 1 52 (loopStart (fileEnv zeroSegElf) [97] ())).type
      = ELF_PROG_LOAD
    ∧ (descAt (fileEnv zeroSegElf) 1 52 (loopStart (fileEnv zeroSegElf) [97] ())).filesz = 0
    ∧ (descAt (fileEnv zeroSegElf) 1 52 (loopStart (fileEnv zeroSegElf) [97] ())).memsz = 0
    ∧ (descAt (fileEnv zeroSegElf) 1 52 (loopStart (fileEnv zeroSegElf) [97] ())).vaddr = 0
    ∧ (exec (fileEnv zeroSegElf) xv6Consts [97] [[97]] proc0 ()).ret = -1
    ∧ (exec (fileEnv zeroSegElf) xv6Consts [97] [[97]] proc0 ()).tr
      = [Event.begin_op, Event.namei [97] 1, Event.ilock 1, Event.readi 1 0 52 52,
          Event.setupkvm 2, Event.readi 1 52 32 32, Event.allocuvm 2 0 0 0,
          Event.freevm 2, Event.iunlockput 1, Event.end_op] := by
  decide

/-- C15, amended. Let the segment loop read a loadable program header with
`filesz = memsz = 0` and a page-aligned `vaddr`. If `allocuvm`, asked for the size
`vaddr`, returns a non-zero size and `loaduvm` does not fail, the loop does not abort on
this header: it goes on to the next header with the size `allocuvm` returned (so with
a top of at least `vaddr` when `allocuvm` returns at least the size asked for), having
called `allocuvm` for `vaddr` and `loaduvm` for 0 bytes. -/
theorem zero_segment_legal {W : Type} (env : Env W) (c : Consts) (ip pgdir n off sz : Nat)
    (s : XState W)
    (hread : (env.readi ip off SIZEOF_PROGHDR s.w).1.1 = SIZEOF_PROGHDR)
    (hload : (descAt env ip off s).type = ELF_PROG_LOAD)
    (hfsz : (descAt env ip off s).filesz = 0) (hmsz : (descAt env ip off s).memsz = 0)
    (halign : (descAt env ip off s).vaddr % c.PGSIZE = 0)
    (halloc : (allocAt env ip pgdir off sz s).1 % U32 ≠ 0)
    (hld : ¬ (loadAt env ip pgdir off sz s).1 < 0) :
    loadSegments env c ip pgdir (n + 1) off sz s
      = loadSegments env c ip pgdir n ((off + SIZEOF_PROGHDR) % U32)
          ((allocAt env ip pgdir off sz s).1 % U32) (afterLoad env ip pgdir off sz s)
    ∧ (afterLoad env ip pgdir off sz s).tr
      = s.tr ++ [Event.readi ip off SIZEOF_PROGHDR (env.readi ip off SIZEOF_PROGHDR s.w).1.1,
          Event.allocuvm pgdir sz (descAt env ip off s).vaddr
            (allocAt env ip pgdir off sz s).1,
          Event.loaduvm pgdir (descAt env ip off s).vaddr ip (descAt env ip off s).off 0
            (loadAt env ip pgdir off sz s).1]
    ∧ ((descAt env ip off s).vaddr ≤ (allocAt env ip pgdir off sz s).1 →
        (allocAt env ip pgdir off sz s).1 < U32 →
        (descAt env ip off s).vaddr ≤ (allocAt env ip pgdir off sz s).1 % U32) := by
  have hva : (descAt env ip off s).vaddr < U32 := proghdr_vaddr_lt _
  have hreq : ((descAt env ip off s).vaddr + (descAt env ip off s).memsz) % U32
      = (descAt env ip off s).vaddr := by
    rw [hmsz, Nat.add_zero, Nat.mod_eq_of_lt hva]
  refine ⟨?_, ?_, fun h1 h2 => by rw [Nat.mod_eq_of_lt h2]; exact h1⟩
  · rw [loadSegments_step, if_neg (not_not.mpr hread), if_neg (not_not.mpr hload),
      if_neg (by rw [hfsz, hmsz]; exact Nat.lt_irrefl 0),
      if_neg (by rw [hreq]; exact Nat.lt_irrefl _), if_neg halloc,
      if_neg (not_not.mpr halign), if_neg hld]
  · simp only [afterLoad, afterAlloc, afterRead, hreq, hfsz, List.append_assoc,
      List.singleton_append, List.cons_append, List.nil_append]

/-- C15 amended, at a concrete input: a zero-size segment at address 4096. -/
theorem zero_segment_legal_witness :
    loadSegments (fileEnv zeroSegHighElf) xv6Consts 1 2 1 52 0
        (loopStart (fileEnv zeroSegHighElf) [97] ())
      = loadSegments (fileEnv zeroSegHighElf) xv6Consts 1 2 0 84 4096
          (afterLoad (fileEnv zeroSegHighElf) 1 2 52 0
            (loopStart (fileEnv zeroSegHighElf) [97] ())) :=
  (zero_segment_legal (fileEnv zeroSegHighElf) xv6Consts 1 2 0 52 0
    (loopStart (fileEnv zeroSegHighElf) [97] ()) (by decide) (by decide) (by decide)
    (by decide) (by decide) (by decide) (by decide)).1

/-! ### Commit on success -/

theorem pushArgs_copyouts {W : Type} (env : Env W) (c : Consts) (pgdir : Nat) :
    ∀ (argv : List (List Nat)) (argc sp : Nat) (ustack : List Nat) (s : XState W),
      Extends Event.isCopyout s.tr (pushArgs env c pgdir argv argc sp ustack s).2.tr
  | [], _, _, _, s => Extends.refl _ _
  | a :: rest, argc, sp, ustack, s => by
    unfold pushArgs
    simp only
    split_ifs
    · exact Extends.refl _ _
    · exact Extends.cons _ _ _ _ (Extends.refl _ _) rfl
    · exact Extends.cons _ _ _ _ (pushArgs_copyouts env c pgdir rest _ _ _ ⟨_, _⟩) rfl

theorem pushArgs_copyouts_eq {W : Type} (env : Env W) (c : Consts) (pgdir : Nat)
    (argv : List (List Nat)) (argc sp : Nat) (ustack : List Nat) (s : XState W)
    (r : Option (Nat × Nat × List Nat) × XState W)
    (h : pushArgs env c pgdir argv argc sp ustack s = r) :
    Extends Event.isCopyout s.tr r.2.tr := by
  rw [← h]; exact pushArgs_copyouts env c pgdir argv argc sp ustack s

/-- The whole trace and the record of a run that returns 0. -/
theorem exec_success_trace {W : Type} (env : Env W) (c : Consts) (path : List Nat)
    (argv : List (List Nat)) (p : Proc) (w : W)
    (hret : (exec env c path argv p w).ret = 0) :
    ReachesLoop env path w
    ∧ (exec env c path argv p w).proc.pgdir = newPgdir env path w
    ∧ (exec env c path argv p w).proc.tf_eip = (headerOf env path w).entry
    ∧ ∃ top s4 aret args data cret,
        segmentLoop env c path w = (some top, s4)
        ∧ aret = (env.allocuvm (newPgdir env path w) (PGROUNDUP c top)
            ((PGROUNDUP c top + 2 * c.PGSIZE) % U32)
            (env.end_op (env.iunlockput (openedInode env path w) s4.w))).1
        ∧ aret % U32 ≠ 0
        ∧ (exec env c path argv p w).proc.sz = aret % U32
        ∧ (∀ e ∈ args, e.isCopyout = true)
        ∧ ¬ cret < 0
        ∧ (exec env c path argv p w).tr
          = s4.tr ++ [Event.iunlockput (openedInode env path w), Event.end_op,
              Event.allocuvm (newPgdir env path w) (PGROUNDUP c top)
                ((PGROUNDUP c top + 2 * c.PGSIZE) % U32) aret,
              Event.clearpteu (newPgdir env path w) (usub (aret % U32) (2 * c.PGSIZE))]
            ++ args
            ++ [Event.copyout (newPgdir env path w) (exec env c path argv p w).proc.tf_esp
                data cret,
              Event.safestrcpy (lastElem path path) c.NAMESZ,
              Event.switchuvm (exec env c path argv p w).proc,
              Event.freevm p.pgdir] := by
  obtain ⟨h1, h2, h3, top, s4, hloop, heq⟩ := exec_success_stack env c path argv p w hret
  have hcount : (headerRead env path w).1.1 = SIZEOF_ELFHDR := by
    by_contra hc
    have hb : exec env c path argv p w
        = bad env 0 (openedInode env path w) p
            ⟨(headerRead env path w).2,
              [Event.begin_op] ++ [Event.namei path (openedInode env path w)]
                ++ [Event.ilock (openedInode env path w)]
                ++ [Event.readi (openedInode env path w) 0 SIZEOF_ELFHDR
                  (headerRead env path w).1.1]⟩ := by
      simp only [openedInode, headerRead] at h1 hc ⊢
      unfold exec
      simp only
      rw [if_neg h1]
      unfold execOpened
      simp only
      rw [if_pos hc]
    rw [hb, (bad_ret _ _ _ _ _).1] at hret
    exact absurd hret (by decide)
  rw [heq] at hret ⊢
  obtain ⟨ha, heq2⟩ := execStack_success env c path argv p _ _ _ _ hret
  rw [heq2] at hret ⊢
  obtain ⟨argc, sp, us, s3, cret, hpa, hc, e1, e2, e3, e4, e5⟩ :=
    execArgs_success env c path argv p _ _ _ _ hret
  obtain ⟨args1, ht1, hargs1⟩ := pushArgs_copyouts_eq _ _ _ _ _ _ _ _ _ hpa
  refine ⟨⟨h1, hcount, h2, h3⟩, e1, e3, top, s4,
    (env.allocuvm (newPgdir env path w) (PGROUNDUP c top)
      ((PGROUNDUP c top + 2 * c.PGSIZE) % U32)
      (env.end_op (env.iunlockput (openedInode env path w) s4.w))).1,
    args1, wordsBytes (finishUstack us argc sp) (3 + argc + 1), cret, hloop, rfl, ha, e2,
    hargs1, hc, ?_⟩
  rw [e5, e4, ht1]
  simp

/-- When the segment loop is left normally, `exec` releases the inode and goes on with
the stack phase. -/
theorem exec_of_loop_some {W : Type} (env : Env W) (c : Consts) (path : List Nat)
    (argv : List (List Nat)) (p : Proc) (w : W) (top : Nat) (s4 : XState W)
    (hreach : ReachesLoop env path w)
    (hloop : segmentLoop env c path w = (some top, s4)) :
    exec env c path argv p w
      = execStack env c path argv p (newPgdir env path w) top (headerOf env path w).entry
          ⟨env.end_op (env.iunlockput (openedInode env path w) s4.w),
            s4.tr ++ [Event.iunlockput (openedInode env path w), Event.end_op]⟩ := by
  obtain ⟨hopen, hcount, hmagic, hpg⟩ := hreach
  simp only [segmentLoop, loopStart, openedInode, headerRead, headerOf, newPgdir] at *
  unfold exec
  simp only
  rw [if_neg hopen]
  unfold execOpened
  simp only
  rw [if_neg (not_not.mpr hcount), if_neg (not_not.mpr hmagic), if_neg hpg, hloop]

/-- When the stack `allocuvm` returns a non-zero size, the stack phase goes on with the
argument phase. -/
theorem execStack_of_alloc {W : Type} (env : Env W) (c : Consts) (path : List Nat)
    (argv : List (List Nat)) (p : Proc) (w : W) (top : Nat) (s4 : XState W)
    (ha : (stackAlloc env c path w top s4).1 % U32 ≠ 0) :
    execStack env c path argv p (newPgdir env path w) top (headerOf env path w).entry
        ⟨env.end_op (env.iunlockput (openedInode env path w) s4.w),
          s4.tr ++ [Event.iunlockput (openedInode env path w), Event.end_op]⟩
      = execArgs env c path argv p (newPgdir env path w)
          ((stackAlloc env c path w top s4).1 % U32) (headerOf env path w).entry
          (argsStart env c path w top s4) := by
  unfold execStack
  simp only
  unfold stackAlloc at ha
  rw [if_neg ha]
  rfl

theorem execArgs_ret_iff {W : Type} (env : Env W) (c : Consts) (path : List Nat)
    (argv : List (List Nat)) (p : Proc) (pgdir sz entry : Nat) (s : XState W) :
    (execArgs env c path argv p pgdir sz entry s).ret = 0 ↔
      ∃ argc sp us s3,
        pushArgs env c pgdir argv 0 sz (List.replicate (3 + c.MAXARG + 1) 0) s
          = (some (argc, sp, us), s3)
        ∧ ¬ (env.copyout pgdir (usub sp ((3 + argc + 1) * 4))
            (wordsBytes (finishUstack us argc sp) (3 + argc + 1)) s3.w).1 < 0 := by
  unfold execArgs
  generalize pushArgs env c pgdir argv 0 sz (List.replicate (3 + c.MAXARG + 1) 0) s = res
  rcases res with ⟨_ | ⟨argc, sp, us⟩, s3⟩
  · simp only
    constructor
    · intro h
      rw [(bad_ret _ _ _ _ _).1] at h
      exact absurd h (by decide)
    · rintro ⟨_, _, _, _, h, _⟩
      simp at h
  · simp only
    constructor
    · intro h
      split_ifs at h with hco
      · rw [(bad_ret _ _ _ _ _).1] at h
        exact absurd h (by decide)
      · exact ⟨argc, sp, us, s3, rfl, hco⟩
    · rintro ⟨argc1, sp1, us1, s31, h, hco⟩
      simp only [Prod.mk.injEq, Option.some.injEq] at h
      obtain ⟨⟨rfl, rfl, rfl⟩, rfl⟩ := h
      rw [if_neg hco]
      rfl

/-- `exec` returns 0 exactly when every fallible step succeeds. -/
theorem exec_ret_iff {W : Type} (env : Env W) (c : Consts) (path : List Nat)
    (argv : List (List Nat)) (p : Proc) (w : W) :
    (exec env c path argv p w).ret = 0 ↔ StepsSucceed env c path argv w := by
  constructor
  · intro hret
    obtain ⟨hreach, _, _, top, s4, _, _, _, _, hloop, _⟩ :=
      exec_success_trace env c path argv p w hret
    have he := exec_of_loop_some env c path argv p w top s4 hreach hloop
    rw [he] at hret
    have ha : (stackAlloc env c path w top s4).1 % U32 ≠ 0 :=
      (execStack_success env c path argv p _ _ _ _ hret).1
    rw [execStack_of_alloc env c path argv p w top s4 ha] at hret
    exact ⟨hreach, top, s4, hloop, ha, (execArgs_ret_iff _ _ _ _ _ _ _ _ _).mp hret⟩
  · rintro ⟨hreach, top, s4, hloop, ha, hrest⟩
    rw [exec_of_loop_some env c path argv p w top s4 hreach hloop,
      execStack_of_alloc env c path argv p w top s4 ha]
    exact (execArgs_ret_iff _ _ _ _ _ _ _ _ _).mpr hrest

theorem isSeg_not_switchuvm (e : Event) (h : e.isSeg = true) : e.isSwitchuvm = false := by
  cases e <;> simp_all [Event.isSeg, Event.isSwitchuvm]

theorem isStk_not_switchuvm (e : Event) (h : e.isStk = true) : e.isSwitchuvm = false := by
  cases e <;> simp_all [Event.isStk, Event.isSwitchuvm]

/-- The `freevm` and `switchuvm` calls of a run that returns 0. -/
theorem exec_success_filters {W : Type} (env : Env W) (c : Consts) (path : List Nat)
    (argv : List (List Nat)) (p : Proc) (w : W)
    (hret : (exec env c path argv p w).ret = 0) :
    (exec env c path argv p w).tr.filter Event.isFreevm = [Event.freevm p.pgdir]
    ∧ (exec env c path argv p w).tr.filter Event.isSwitchuvm
        = [Event.switchuvm (exec env c path argv p w).proc] := by
  have hs := exec_shape env c path argv p w
  generalize exec env c path argv p w = r at hs hret ⊢
  rcases hs with
    ⟨h, _, _⟩ | ⟨_, _, _, h, _, _⟩ | ⟨_, _, _, h, _, _⟩ | ⟨_, _, _, _, _, _, _, h, _, _⟩ |
    ⟨_, _, _, _, _, _, _, _, _, h, _, _⟩ |
    ⟨ip, n, pg, segs, stk, src, k, hip, hpg, hsegs, hstk, _, hproc, htr⟩
  · rw [h] at hret; exact absurd hret (by decide)
  · rw [h] at hret; exact absurd hret (by decide)
  · rw [h] at hret; exact absurd hret (by decide)
  · rw [h] at hret; exact absurd hret (by decide)
  · rw [h] at hret; exact absurd hret (by decide)
  · have a1 := filter_nil_of_all _ Event.isFreevm segs hsegs isSeg_not_freevm
    have a2 := filter_nil_of_all _ Event.isFreevm stk hstk isStk_not_freevm
    have b1 := filter_nil_of_all _ Event.isSwitchuvm segs hsegs isSeg_not_switchuvm
    have b2 := filter_nil_of_all _ Event.isSwitchuvm stk hstk isStk_not_switchuvm
    rw [htr]
    constructor
    · simp [List.filter_append, a1, a2, Event.isFreevm]
    · simp [List.filter_append, b1, b2, Event.isSwitchuvm]

/-- C12 (commit on success). `exec` returns 0 exactly when every fallible step succeeds,
and then: `pgdir` is the page table `setupkvm` returned, `tf->eip` is the entry address
of the header, `sz` is the size the last `allocuvm` call returned, `tf->esp` is the
address `ustack` was copied to; the trace ends with the `copyout` of `ustack`,
`safestrcpy`, `switchuvm` on the record that already holds these values, and `freevm`
of the old `pgdir`; that is the only `freevm` call of the run, so the new page table is
not freed (it differs from the old one). -/
theorem exec_commit_on_success {W : Type} (env : Env W) (c : Consts) (path : List Nat)
    (argv : List (List Nat)) (p : Proc) (w : W)
    (hret : (exec env c path argv p w).ret = 0) :
    ((exec env c path argv p w).ret = 0 ↔ StepsSucceed env c path argv w)
    ∧ (exec env c path argv p w).proc.pgdir = newPgdir env path w
    ∧ (exec env c path argv p w).proc.tf_eip = (headerOf env path w).entry
    ∧ (∃ t oldsz newsz aret args data cret,
        (exec env c path argv p w).proc.sz = aret % U32
        ∧ (∀ e ∈ args, e.isCopyout = true)
        ∧ (exec env c path argv p w).tr
          = t ++ [Event.allocuvm (newPgdir env path w) oldsz newsz aret,
              Event.clearpteu (newPgdir env path w) (usub (aret % U32) (2 * c.PGSIZE))]
            ++ args
            ++ [Event.copyout (newPgdir env path w) (exec env c path argv p w).proc.tf_esp
                data cret,
              Event.safestrcpy (lastElem path path) c.NAMESZ,
              Event.switchuvm (exec env c path argv p w).proc,
              Event.freevm p.pgdir])
    ∧ (exec env c path argv p w).tr.filter Event.isFreevm = [Event.freevm p.pgdir]
    ∧ (exec env c path argv p w).tr.filter Event.isSwitchuvm
        = [Event.switchuvm (exec env c path argv p w).proc]
    ∧ (newPgdir env path w ≠ p.pgdir →
        Event.freevm (newPgdir env path w) ∉ (exec env c path argv p w).tr) := by
  obtain ⟨_, e1, e2, top, s4, aret, args, data, cret, _, _, _, e3, e4, _, e5⟩ :=
    exec_success_trace env c path argv p w hret
  obtain ⟨f1, f2⟩ := exec_success_filters env c path argv p w hret
  refine ⟨exec_ret_iff env c path argv p w, e1, e2,
    ⟨s4.tr ++ [Event.iunlockput (openedInode env path w), Event.end_op],
      PGROUNDUP c top, (PGROUNDUP c top + 2 * c.PGSIZE) % U32, aret, args,
      data, cret, e3, e4, ?_⟩, f1, f2, fun hne hm => ?_⟩
  · rw [e5]
    simp only [List.append_assoc, List.cons_append, List.nil_append]
  · have hm1 : Event.freevm (newPgdir env path w)
        ∈ (exec env c path argv p w).tr.filter Event.isFreevm :=
      List.mem_filter.mpr ⟨hm, rfl⟩
    rw [f1] at hm1
    simp only [List.mem_singleton, Event.freevm.injEq] at hm1
    exact hne hm1

/-- C12 at a concrete input: a header without segments, one argument, collaborators
that succeed; the record holds the new page table 2 and the size of two pages. -/
theorem exec_commit_on_success_witness :
    (exec (fileEnv emptyElf) xv6Consts [47, 97] [[97]] proc0 ()).proc.pgdir = 2
    ∧ (exec (fileEnv emptyElf) xv6Consts [47, 97] [[97]] proc0 ()).tr.filter Event.isFreevm
        = [Event.freevm 3] :=
  ⟨(exec_commit_on_success (fileEnv emptyElf) xv6Consts [47, 97] [[97]] proc0 ()
      (by decide)).2.1,
    (exec_commit_on_success (fileEnv emptyElf) xv6Consts [47, 97] [[97]] proc0 ()
      (by decide)).2.2.2.2.1⟩


/-! ## The stack phase -/

theorem PGROUNDUP_lt (c : Consts) (sz : Nat) : PGROUNDUP c sz < U32 := by
  unfold PGROUNDUP
  have h1 : (sz + c.PGSIZE - 1) % U32 < U32 := Nat.mod_lt _ (by decide)
  exact lt_of_le_of_lt (Nat.div_mul_le_self _ _) h1

theorem PGROUNDUP_zero (c : Consts) (h : 0 < c.PGSIZE) (h2 : c.PGSIZE ≤ U32) :
    PGROUNDUP c 0 = 0 := by
  unfold PGROUNDUP
  have h3 : (0 + c.PGSIZE - 1) % U32 = c.PGSIZE - 1 := by
    rw [Nat.zero_add]
    exact Nat.mod_eq_of_lt (by omega)
  rw [h3, Nat.div_eq_of_lt (by omega), Nat.zero_mul]

theorem usub_add_mod (a b : Nat) (ha : a < U32) : usub ((a + b) % U32) b = a := by
  unfold usub U32 at *
  omega

/-- The stack phase when `allocuvm` returns the size it is asked for. -/
theorem exec_stack_phase {W : Type} (env : Env W) (c : Consts) (path : List Nat)
    (argv : List (List Nat)) (p : Proc) (w : W) (top : Nat) (s4 : XState W)
    (hreach : ReachesLoop env path w)
    (hloop : segmentLoop env c path w = (some top, s4))
    (halloc : (stackAlloc env c path w top s4).1 = (PGROUNDUP c top + 2 * c.PGSIZE) % U32)
    (hnz : (PGROUNDUP c top + 2 * c.PGSIZE) % U32 ≠ 0) :
    StackBuilt env c path argv p w s4.tr (PGROUNDUP c top) := by
  have hsz : (stackAlloc env c path w top s4).1 % U32
      = (PGROUNDUP c top + 2 * c.PGSIZE) % U32 := by rw [halloc, Nat.mod_mod]
  have ha : (stackAlloc env c path w top s4).1 % U32 ≠ 0 := by rw [hsz]; exact hnz
  have h1 := exec_of_loop_some env c path argv p w top s4 hreach hloop
  have h2 := execStack_of_alloc env c path argv p w top s4 ha
  refine ⟨argsStart env c path w top s4, ?_, ?_, ?_, ?_⟩
  · rw [h1, h2, hsz]
  · unfold argsStart
    simp only
    rw [hsz, halloc, usub_add_mod _ _ (PGROUNDUP_lt c top)]
    simp only [List.append_assoc, List.cons_append, List.nil_append]
  · rw [h1, h2, hsz]
    exact execArgs_ret_iff _ _ _ _ _ _ _ _ _
  · intro hret
    obtain ⟨_, _, _, top1, s41, aret, _, _, _, hl, har, _, e3, _⟩ :=
      exec_success_trace env c path argv p w hret
    rw [hloop] at hl
    simp only [Prod.mk.injEq, Option.some.injEq] at hl
    obtain ⟨ht, hs⟩ := hl
    subst ht
    subst hs
    rw [e3, har]
    exact hsz


/-- With `phnum = 0` the segment loop is left at once, with the size 0. -/
theorem segmentLoop_zero {W : Type} (env : Env W) (c : Consts) (path : List Nat) (w : W)
    (hph : (headerOf env path w).phnum = 0) :
    segmentLoop env c path w = (some 0, loopStart env path w) := by
  unfold segmentLoop
  rw [hph]
  rfl

/-- C14 (stack construction). Once `exec` has reached the segment loop: if the loop is
left with the running size `top` and `allocuvm` returns the size it is asked for (not 0),
then `exec` asks `allocuvm` for `PGROUNDUP(top) + 2*PGSIZE` (in `uint` arithmetic) from
`PGROUNDUP(top)`, calls `clearpteu` on `PGROUNDUP(top)`, the lower of the two pages,
enters the argument phase with `sp` equal to the new size, the top of the upper page, and
commits that size when it returns 0. A header with `phnum = 0` leaves the loop with size 0:
`allocuvm` is asked for `2*PGSIZE` from 0, `clearpteu` is called on address 0, `sp` starts
at `2*PGSIZE` and the committed `sz` is `2*PGSIZE`. -/
theorem exec_stack_construction {W : Type} (env : Env W) (c : Consts) (path : List Nat)
    (argv : List (List Nat)) (p : Proc) (w : W)
    (hreach : ReachesLoop env path w) :
    (∀ top s4, segmentLoop env c path w = (some top, s4) →
      (stackAlloc env c path w top s4).1 = (PGROUNDUP c top + 2 * c.PGSIZE) % U32 →
      (PGROUNDUP c top + 2 * c.PGSIZE) % U32 ≠ 0 →
      StackBuilt env c path argv p w s4.tr (PGROUNDUP c top)
      ∧ PGROUNDUP c top % c.PGSIZE = 0
      ∧ (top + c.PGSIZE ≤ U32 → 0 < c.PGSIZE →
          top ≤ PGROUNDUP c top ∧ PGROUNDUP c top < top + c.PGSIZE))
    ∧ ((headerOf env path w).phnum = 0 → 0 < c.PGSIZE → 2 * c.PGSIZE < U32 →
      (stackAlloc env c path w 0 (loopStart env path w)).1 = 2 * c.PGSIZE →
      segmentLoop env c path w = (some 0, loopStart env path w)
      ∧ ∃ st : XState W,
          exec env c path argv p w
            = execArgs env c path argv p (newPgdir env path w) (2 * c.PGSIZE)
                (headerOf env path w).entry st
          ∧ st.tr = (loopStart env path w).tr
              ++ [Event.iunlockput (openedInode env path w), Event.end_op,
                Event.allocuvm (newPgdir env path w) 0 (2 * c.PGSIZE) (2 * c.PGSIZE),
                Event.clearpteu (newPgdir env path w) 0]
          ∧ ((exec env c path argv p w).ret = 0 →
              (exec env c path argv p w).proc.sz = 2 * c.PGSIZE)) := by
  constructor
  · intro top s4 hloop halloc hnz
    refine ⟨exec_stack_phase env c path argv p w top s4 hreach hloop halloc hnz, ?_, ?_⟩
    · unfold PGROUNDUP
      exact Nat.mul_mod_left _ _
    · intro hle hP
      unfold PGROUNDUP
      rw [Nat.mod_eq_of_lt (by omega)]
      have hd := Nat.div_add_mod (top + c.PGSIZE - 1) c.PGSIZE
      have hm := Nat.mod_lt (top + c.PGSIZE - 1) hP
      rw [Nat.mul_comm] at hd
      constructor <;> omega
  · intro hph hP h2P halloc
    have hloop := segmentLoop_zero env c path w hph
    have h0 := PGROUNDUP_zero c hP (by omega)
    have hreq : (PGROUNDUP c 0 + 2 * c.PGSIZE) % U32 = 2 * c.PGSIZE := by
      rw [h0, Nat.zero_add]
      exact Nat.mod_eq_of_lt h2P
    obtain ⟨st, e1, e2, _, e4⟩ := exec_stack_phase env c path argv p w 0
      (loopStart env path w) hreach hloop (by rw [hreq]; exact halloc)
      (by rw [hreq]; omega)
    rw [hreq] at e1 e2 e4
    rw [h0] at e2
    exact ⟨hloop, st, e1, e2, e4⟩

/-- C14 at a concrete input: a header without segments, collaborators that succeed;
the space is two pages, the guard page is at 0 and the committed size is 8192. -/
theorem exec_stack_construction_witness :
    StackBuilt (fileEnv emptyElf) xv6Consts [47, 97] [[97]] proc0 ()
      (loopStart (fileEnv emptyElf) [47, 97] ()).tr (PGROUNDUP xv6Consts 0)
    ∧ segmentLoop (fileEnv emptyElf) xv6Consts [47, 97] ()
        = (some 0, loopStart (fileEnv emptyElf) [47, 97] ()) :=
  ⟨((exec_stack_construction (fileEnv emptyElf) xv6Consts [47, 97] [[97]] proc0 ()
      (by decide)).1 0 (loopStart (fileEnv emptyElf) [47, 97] ()) rfl rfl (by decide)).1,
    ((exec_stack_construction (fileEnv emptyElf) xv6Consts [47, 97] [[97]] proc0 ()
      (by decide)).2 rfl (by decide) (by decide) rfl).1⟩


/-! ## The guard page -/

theorem wrap_back (g va : Nat) (hg : g < U32) (hva : va < U32) :
    (va + (g + U32 - va) % U32) % U32 = g := by
  unfold U32 at *
  omega

theorem usub_lt (a b : Nat) : usub a b < U32 := Nat.mod_lt _ (by decide)

theorem usub_cases (sp len : Nat) (hsp : sp < U32) (hlen : len < U32) :
    (len ≤ sp ∧ usub sp len = sp - len) ∨ (sp < len ∧ usub sp len = sp + U32 - len) := by
  unfold usub U32 at *
  omega

/-- One step of the stack pointer: a write of `len ≥ 1` bytes at the aligned address
`len` below a `sp` of the stack page either touches the guard page or stays inside the
stack page, below `sp`. -/
theorem sp_step_bounds (c : Consts) (sz sp len : Nat) (hP : 4 ≤ c.PGSIZE)
    (h2P : 2 * c.PGSIZE ≤ sz) (hsz : sz < U32) (hlo : sz - c.PGSIZE ≤ sp) (hhi : sp ≤ sz)
    (hlen : 1 ≤ len)
    (hnt : ¬ TouchesGuard c sz (usub sp len / 4 * 4) len) :
    sz - c.PGSIZE ≤ usub sp len / 4 * 4 ∧ usub sp len / 4 * 4 + len ≤ sp := by
  by_contra hcon
  apply hnt
  have hx := usub_lt sp len
  have hva1 : usub sp len / 4 * 4 ≤ usub sp len := Nat.div_mul_le_self _ _
  have hva2 : usub sp len < usub sp len / 4 * 4 + 4 := by omega
  generalize usub sp len / 4 * 4 = va at *
  have hw := wrap_back (sz - 2 * c.PGSIZE) va (by omega) (by omega)
  have hj : (sz - 2 * c.PGSIZE + U32 - va) % U32 < U32 := Nat.mod_lt _ (by decide)
  refine ⟨(sz - 2 * c.PGSIZE + U32 - va) % U32, ?_, by rw [hw], by rw [hw]; omega⟩
  by_cases hbig : U32 ≤ len
  · omega
  · rcases usub_cases sp len (by omega) (by omega) with ⟨h1, h2⟩ | ⟨h1, h2⟩
    · rw [h2] at hva1 hva2
      have hlt : va < sz - c.PGSIZE := by
        by_contra hge
        exact hcon ⟨by omega, by omega⟩
      by_cases hle : va ≤ sz - 2 * c.PGSIZE
      · have : (sz - 2 * c.PGSIZE + U32 - va) % U32 = sz - 2 * c.PGSIZE - va := by
          unfold U32 at *
          omega
        rw [this]
        omega
      · exfalso
        apply hnt
        exact ⟨0, by omega, by rw [Nat.add_zero, Nat.mod_eq_of_lt (by omega)]; omega,
          by rw [Nat.add_zero, Nat.mod_eq_of_lt (by omega)]; omega⟩
    · rw [h2] at hva1 hva2
      have : (sz - 2 * c.PGSIZE + U32 - va) % U32 = sz - 2 * c.PGSIZE + U32 - va := by
        apply Nat.mod_eq_of_lt
        unfold U32 at *
        omega
      rw [this]
      unfold U32 at *
      omega


/-- The argument loop under the guard-page assumption: when it is left normally from a
`sp` of the stack page, every string was written inside the stack page at an aligned
address, these addresses are the pointers stored in `ustack`, and `sp` is still in the
stack page. -/
theorem pushArgs_guard {W : Type} (env : Env W) (c : Consts) (pgdir sz : Nat)
    (hP : 4 ≤ c.PGSIZE) (h2P : 2 * c.PGSIZE ≤ sz) (hsz : sz < U32)
    (hg : CopyoutGuarded env c sz) :
    ∀ (argv : List (List Nat)) (argc sp : Nat) (us : List Nat) (s : XState W)
      (argc1 sp1 : Nat) (us1 : List Nat) (s1 : XState W),
      pushArgs env c pgdir argv argc sp us s = (some (argc1, sp1, us1), s1) →
      argc ≤ c.MAXARG → us.length = 3 + c.MAXARG + 1 →
      sz - c.PGSIZE ≤ sp → sp ≤ sz → sp % 4 = 0 →
      sz - c.PGSIZE ≤ sp1 ∧ sp1 ≤ sz ∧ sp1 % 4 = 0 ∧ us1.length = us.length
        ∧ (∀ k, k < 3 + argc → us1.getD k 0 = us.getD k 0)
        ∧ (∀ i, i < argv.length → InStackPage c sz (us1.getD (3 + argc + i) 0))
        ∧ ∃ evs, s1.tr = s.tr ++ evs
          ∧ ∀ e ∈ evs, ∃ va data ret, e = Event.copyout pgdir va data ret
              ∧ InStackPage c sz va ∧ va + data.length ≤ sz
  | [], argc, sp, us, s, argc1, sp1, us1, s1, h, _, _, hlo, hhi, hal => by
    simp only [pushArgs, Prod.mk.injEq, Option.some.injEq] at h
    obtain ⟨⟨rfl, rfl, rfl⟩, rfl⟩ := h
    exact ⟨hlo, hhi, hal, rfl, fun k _ => rfl, fun i hi => by simp at hi, [], by simp,
      fun e he => by simp at he⟩
  | a :: rest, argc, sp, us, s, argc1, sp1, us1, s1, h, hargc, hus, hlo, hhi, hal => by
    unfold pushArgs at h
    simp only at h
    split_ifs at h with h1 h2
    · simp at h
    · simp at h
    · have hnt : ¬ TouchesGuard c sz (usub sp (a.length + 1) / 4 * 4) (a.length + 1) := by
        intro ht
        apply h2
        have := hg pgdir (usub sp (a.length + 1) / 4 * 4) (a ++ [0]) s.w
          (by rw [List.length_append, List.length_singleton]; exact ht)
        exact this
      obtain ⟨b1, b2⟩ := sp_step_bounds c sz sp (a.length + 1) hP h2P hsz hlo hhi
        (by omega) hnt
      have hal1 : usub sp (a.length + 1) / 4 * 4 % 4 = 0 := Nat.mul_mod_left _ _
      generalize usub sp (a.length + 1) / 4 * 4 = va at *
      obtain ⟨e1, e2, e3, e4, e5, e6, evs, e7, e8⟩ :=
        pushArgs_guard env c pgdir sz hP h2P hsz hg rest (argc + 1) va
          (us.set (3 + argc) va) _ argc1 sp1 us1 s1 h
          (by omega) (by rw [List.length_set]; exact hus) b1 (by omega) hal1
      have hidx : 3 + argc < us.length := by omega
      have hptr : us1.getD (3 + argc) 0 = va := by
        rw [e5 (3 + argc) (by omega)]
        simp [List.getD_eq_getElem?_getD, List.getElem?_set, hidx]
      have hin : InStackPage c sz va := ⟨b1, by omega, hal1⟩
      refine ⟨e1, e2, e3, by rw [e4, List.length_set], ?_, ?_,
        Event.copyout pgdir va (a ++ [0]) (env.copyout pgdir va (a ++ [0]) s.w).1 :: evs,
        ?_, ?_⟩
      · intro k hk
        rw [e5 k (by omega)]
        have hne : 3 + argc ≠ k := by omega
        simp [List.getD_eq_getElem?_getD, List.getElem?_set, hne]
      · intro i hi
        cases i with
        | zero => rw [Nat.add_zero, hptr]; exact hin
        | succ i =>
          have := e6 i (by simpa using hi)
          have hi1 : 3 + argc + (i + 1) = 3 + (argc + 1) + i := by omega
          rw [hi1]
          exact this
      · rw [e7]; simp
      · intro e he
        rcases List.mem_cons.mp he with rfl | he
        · exact ⟨va, a ++ [0], _, rfl, hin,
            by rw [List.length_append, List.length_singleton]; omega⟩
        · exact e8 e he


theorem usub_aligned (sp len : Nat) (h1 : sp % 4 = 0) (h2 : len % 4 = 0) :
    usub sp len / 4 * 4 = usub sp len := by
  unfold usub U32
  omega

/-- A word of `ustack` read back from the memory a committed run leaves. -/
theorem stackWord_execCommit {W : Type} (env : Env W) (c : Consts) (path : List Nat)
    (p : Proc) (pgdir sz entry esp : Nat) (w1 : W) (t : List Event) (us : List Nat)
    (n : Nat) (cret : Int) (m0 : Mem) (k : Nat) (hk : k < n) (hn : n ≤ us.length)
    (hc : ¬ cret < 0) :
    stackWord (execCommit env c path p pgdir sz entry esp
      ⟨w1, t ++ [Event.copyout pgdir esp (wordsBytes us n) cret]⟩) m0 k
      = us.getD k 0 % U32 := by
  unfold stackWord
  show load32 (userMem _ m0) (esp + 4 * k) = _
  simp only [execCommit, userMem_append, userMem_cons, userMem_nil, Event.write, if_neg hc]
  exact load32_writeBytes_words _ _ _ _ _ hk hn


/-- The argument phase under the guard-page assumption, when it commits: the final stack
pointer, the destination of every `copyout`, and every argument pointer read back from
the stack lie in the stack page and are aligned. -/
theorem execArgs_guard {W : Type} (env : Env W) (c : Consts) (path : List Nat)
    (argv : List (List Nat)) (p : Proc) (pgdir sz entry : Nat) (s : XState W) (m0 : Mem)
    (hP : 4 ≤ c.PGSIZE) (h2P : 2 * c.PGSIZE ≤ sz) (hsz : sz < U32) (hal : sz % 4 = 0)
    (hg : CopyoutGuarded env c sz)
    (hret : (execArgs env c path argv p pgdir sz entry s).ret = 0) :
    InStackPage c sz (execArgs env c path argv p pgdir sz entry s).proc.tf_esp
    ∧ (∀ e ∈ (execArgs env c path argv p pgdir sz entry s).tr,
        e ∈ s.tr ∨ e.inStackPage c sz)
    ∧ (∀ i, i < argv.length →
        InStackPage c sz (stackWord (execArgs env c path argv p pgdir sz entry s) m0
          (3 + i))) := by
  unfold execArgs at hret ⊢
  generalize hpa : pushArgs env c pgdir argv 0 sz (List.replicate (3 + c.MAXARG + 1) 0) s
    = res at hret ⊢
  rcases res with ⟨_ | ⟨argc, sp, us⟩, s3⟩
  · simp only at hret
    rw [(bad_ret _ _ _ _ _).1] at hret
    exact absurd hret (by decide)
  · simp only at hret ⊢
    split_ifs at hret ⊢ with hco
    · rw [(bad_ret _ _ _ _ _).1] at hret
      exact absurd hret (by decide)
    · obtain ⟨f1, f2, f3, f4, _, f6, evs, f7, f8⟩ :=
        pushArgs_guard env c pgdir sz hP h2P hsz hg argv 0 sz _ s argc sp us s3 hpa
          (Nat.zero_le _) (by simp) (Nat.sub_le _ _) (le_refl _) hal
      obtain ⟨k1, k2, _, _⟩ :=
        pushArgs_count env c pgdir argv 0 sz _ s argc sp us s3 hpa (Nat.zero_le _)
      simp only [Nat.zero_add] at k1
      have hlen : us.length = 3 + c.MAXARG + 1 := by rw [f4]; simp
      have hfl := finishUstack_length us argc sp
      have hdl := wordsBytes_length (finishUstack us argc sp) (3 + argc + 1) (by omega)
      have hq := usub_aligned sp ((3 + argc + 1) * 4) f3 (by omega)
      have hnt : ¬ TouchesGuard c sz (usub sp ((3 + argc + 1) * 4) / 4 * 4)
          ((3 + argc + 1) * 4) := by
        intro ht
        apply hco
        rw [hq] at ht
        have hdl1 : (wordsBytes (finishUstack us argc sp) (3 + argc + 1)).length
            = (3 + argc + 1) * 4 := by rw [hdl]; omega
        exact hg pgdir _ _ s3.w (by rw [hdl1]; exact ht)
      obtain ⟨b1, b2⟩ := sp_step_bounds c sz sp ((3 + argc + 1) * 4) hP h2P hsz f1 f2
        (by omega) hnt
      rw [hq] at b1 b2
      have hesp : InStackPage c sz (usub sp ((3 + argc + 1) * 4)) :=
        ⟨b1, by omega, by rw [← hq]; exact Nat.mul_mod_left _ _⟩
      refine ⟨hesp, ?_, ?_⟩
      · intro e he
        rw [(execCommit_shape _ _ _ _ _ _ _ _ _).2.2, f7] at he
        simp only [List.mem_append, List.mem_cons, List.mem_singleton, List.not_mem_nil,
          or_false] at he
        rcases he with ((he | he) | rfl) | rfl | rfl | rfl
        · exact Or.inl he
        · obtain ⟨va, data, ret, rfl, h1, h2⟩ := f8 e he
          exact Or.inr ⟨h1, h2⟩
        · exact Or.inr ⟨hesp, by rw [hdl]; omega⟩
        · exact Or.inr trivial
        · exact Or.inr trivial
        · exact Or.inr trivial
      · intro i hi
        rw [stackWord_execCommit env c path p pgdir sz entry _ _ s3.tr
          (finishUstack us argc sp) (3 + argc + 1) _ m0 (3 + i) (by omega) (by omega) hco]
        obtain ⟨_, _, _, _, g4⟩ := finishUstack_getD us argc sp (by omega)
        rw [g4 i (by omega)]
        have := f6 i hi
        simp only [Nat.add_zero] at this
        rw [Nat.mod_eq_of_lt (by have := this.2.1; omega)]
        exact this


theorem isSeg_inStackPage (c : Consts) (sz : Nat) (e : Event) (h : e.isSeg = true) :
    e.inStackPage c sz := by
  cases e <;> simp_all [Event.isSeg, Event.inStackPage]

/-- C16 (guard page). Assume `copyout` fails whenever its destination range touches the
guard page `[sz - 2*PGSIZE, sz - PGSIZE)` of the committed size `sz`, with `sz` at least
two pages and 4-byte aligned and `PGSIZE ≥ 4`. Then in a run of `exec` that returns 0
every `copyout` (an argument string or the initial stack image) starts at a 4-byte
aligned address of the stack page `[sz - PGSIZE, sz)` and ends inside it, so no write
that starts at or below the guard page is part of a successful run; the final stack
pointer and every argument pointer read back from the stack lie in the stack page and
are 4-byte aligned. -/
theorem exec_guard_page {W : Type} (env : Env W) (c : Consts) (path : List Nat)
    (argv : List (List Nat)) (p : Proc) (w : W) (m0 : Mem)
    (hP : 4 ≤ c.PGSIZE)
    (hg : CopyoutGuarded env c (exec env c path argv p w).proc.sz)
    (hret : (exec env c path argv p w).ret = 0)
    (h2P : 2 * c.PGSIZE ≤ (exec env c path argv p w).proc.sz)
    (hal : (exec env c path argv p w).proc.sz % 4 = 0) :
    InStackPage c (exec env c path argv p w).proc.sz (exec env c path argv p w).proc.tf_esp
    ∧ (∀ e ∈ (exec env c path argv p w).tr,
        e.inStackPage c (exec env c path argv p w).proc.sz)
    ∧ (∀ i, i < argv.length →
        InStackPage c (exec env c path argv p w).proc.sz
          (stackWord (exec env c path argv p w) m0 (3 + i))) := by
  obtain ⟨hreach, _, _, top, s4, aret, _, _, _, hloop, har, hnz, e3, _⟩ :=
    exec_success_trace env c path argv p w hret
  have har1 : aret = (stackAlloc env c path w top s4).1 := har
  subst har1
  have h1 := exec_of_loop_some env c path argv p w top s4 hreach hloop
  have h2 := execStack_of_alloc env c path argv p w top s4 hnz
  rw [e3] at hg h2P hal ⊢
  rw [h1, h2] at hret ⊢
  obtain ⟨g1, g2, g3⟩ := execArgs_guard env c path argv p (newPgdir env path w)
    ((stackAlloc env c path w top s4).1 % U32) (headerOf env path w).entry
    (argsStart env c path w top s4) m0 hP h2P (Nat.mod_lt _ (by decide)) hal hg hret
  refine ⟨g1, fun e he => ?_, g3⟩
  rcases g2 e he with hin | hin
  · obtain ⟨l, hl, hq⟩ := loadSegments_tr_eq env c _ _ _ _ _ _ _ hloop
    simp only at hl
    unfold argsStart at hin
    simp only at hin
    rw [hl] at hin
    simp only [loopStart, List.mem_append, List.mem_cons, List.mem_singleton,
      List.not_mem_nil, or_false] at hin
    rcases hin with (((((((rfl | rfl) | rfl) | rfl) | rfl) | hin) | rfl | rfl) | rfl) | rfl
    all_goals first
      | trivial
      | exact isSeg_inStackPage c _ e (hq e hin)
  · exact hin


/-- C16 at a concrete input: a header without segments, one argument, a `copyout` that
fails on the guard page `[0, 4096)`; the run returns 0 with `sz = 8192`, and the final
stack pointer lies in the stack page `[4096, 8192)`. -/
theorem exec_guard_page_witness :
    (exec (guardEnv emptyElf) xv6Consts [47, 97] [[97]] proc0 ()).ret = 0
    ∧ InStackPage xv6Consts (exec (guardEnv emptyElf) xv6Consts [47, 97] [[97]] proc0 ()).proc.sz
        (exec (guardEnv emptyElf) xv6Consts [47, 97] [[97]] proc0 ()).proc.tf_esp :=
  ⟨by decide,
    (exec_guard_page (guardEnv emptyElf) xv6Consts [47, 97] [[97]] proc0 () (fun _ => 0)
      (by decide)
      (fun _ va data w h => by
        have hsz : (exec (guardEnv emptyElf) xv6Consts [47, 97] [[97]] proc0 ()).proc.sz
            = 8192 := by decide
        rw [hsz] at h
        show (if TouchesGuard xv6Consts 8192 va data.length then ((-1 : Int), w)
          else ((0 : Int), w)).1 < 0
        rw [if_pos h]
        show (-1 : Int) < 0
        decide)
      (by decide) (by decide) (by decide)).1⟩


/-! ## Zero-fill of a segment -/

/-- Two segments at the same address: `exec` returns 0, the first segment has
`memsz = 4096 > filesz = 0`, and byte 0 of its range `[0, 4096)` holds the first byte of
the file, written by the `loaduvm` of the second segment. -/
theorem overlap_counterexample :
    (exec (fileEnv overlapElf) xv6Consts [97] [] proc0 ()).ret = 0
    ∧ (imageSegments (fileEnv overlapElf) xv6Consts [97] ()).map
        (fun ph => (ph.vaddr, ph.filesz, ph.memsz)) = [(0, 0, 4096), (0, 4, 4096)]
    ∧ imageMem xv6Consts (fileBytes overlapElf)
        (exec (fileEnv overlapElf) xv6Consts [97] [] proc0 ()).tr (fun _ => 0) 0 = 0x7F := by
  decide


theorem imageMem_nil (c : Consts) (file : Nat → Nat → Nat) (m : Mem) :
    imageMem c file [] m = m := rfl

theorem imageMem_cons (c : Consts) (file : Nat → Nat → Nat) (e : Event) (t : List Event)
    (m : Mem) : imageMem c file (e :: t) m = imageMem c file t (e.effect c file m) := rfl

theorem imageMem_append (c : Consts) (file : Nat → Nat → Nat) (t1 t2 : List Event)
    (m : Mem) : imageMem c file (t1 ++ t2) m = imageMem c file t2 (imageMem c file t1 m) := by
  unfold imageMem
  rw [List.foldl_append]

/-- Calls that keep a zero byte zero, one after the other, keep it zero. -/
theorem imageMem_keeps (c : Consts) (file : Nat → Nat → Nat) (a : Nat) :
    ∀ (t : List Event) (m : Mem), (∀ e ∈ t, KeepsZero c file a e) → m a = 0 →
      imageMem c file t m a = 0
  | [], _, _, hm => hm
  | e :: t, m, h, hm => by
    rw [imageMem_cons]
    exact imageMem_keeps c file a t _ (fun e1 he1 => h e1 (List.mem_cons_of_mem _ he1))
      (h e (List.mem_cons_self _ _) m hm)

theorem keepsZero_allocuvm (c : Consts) (file : Nat → Nat → Nat) (a pg o n r : Nat) :
    KeepsZero c file a (Event.allocuvm pg o n r) := by
  intro m hm
  show (if r % U32 = 0 then m
    else fun a =>
      if PGROUNDUP c o ≤ a ∧ a / c.PGSIZE * c.PGSIZE < r % U32 then 0 else m a) a = 0
  split_ifs with h1
  · exact hm
  · show (if PGROUNDUP c o ≤ a ∧ a / c.PGSIZE * c.PGSIZE < r % U32 then 0 else m a) = 0
    split_ifs
    · rfl
    · exact hm

theorem keepsZero_loaduvm (c : Consts) (file : Nat → Nat → Nat) (a pg va ip off sz : Nat)
    (r : Int) (h : a < va ∨ va + sz ≤ a) :
    KeepsZero c file a (Event.loaduvm pg va ip off sz r) := by
  intro m hm
  show (if r < 0 then m
    else fun a => if va ≤ a ∧ a < va + sz then file ip (off + (a - va)) else m a) a = 0
  split_ifs with h1
  · exact hm
  · show (if va ≤ a ∧ a < va + sz then file ip (off + (a - va)) else m a) = 0
    rw [if_neg (by omega)]
    exact hm

theorem keepsZero_copyout (c : Consts) (file : Nat → Nat → Nat) (a pg va : Nat)
    (data : List Nat) (r : Int) (h : a < va) :
    KeepsZero c file a (Event.copyout pg va data r) := by
  intro m hm
  show (if r < 0 then m else writeBytes m va data) a = 0
  split_ifs with h1
  · exact hm
  · rw [writeBytes_out _ _ _ _ (Or.inl h)]
    exact hm

/-- A call of the stack phase or of the commit keeps zero a byte below the stack page. -/
theorem keepsZero_of_inStackPage (c : Consts) (file : Nat → Nat → Nat) (sz a : Nat)
    (e : Event) (hin : e.inStackPage c sz) (ha : a < sz - c.PGSIZE)
    (hl : e.isLoaduvm = false) : KeepsZero c file a e := by
  cases e with
  | allocuvm pg o n r => exact keepsZero_allocuvm c file a pg o n r
  | loaduvm pg va ip off fsz r => simp [Event.isLoaduvm] at hl
  | copyout pg va data r =>
    exact keepsZero_copyout c file a pg va data r (lt_of_lt_of_le ha hin.1.1)
  | _ => exact fun m hm => hm

theorem PGROUNDUP_le_of_aligned (c : Consts) (sz va : Nat) (h : sz ≤ va)
    (hal : va % c.PGSIZE = 0) : PGROUNDUP c sz ≤ va := by
  unfold PGROUNDUP
  by_cases hP : c.PGSIZE = 0
  · rw [hP]; simp
  · have hP1 : 0 < c.PGSIZE := Nat.pos_of_ne_zero hP
    obtain ⟨k, hk⟩ := Nat.dvd_of_mod_eq_zero hal
    have h1 : (sz + c.PGSIZE - 1) % U32 ≤ sz + c.PGSIZE - 1 := Nat.mod_le _ _
    have h2 : (sz + c.PGSIZE - 1) % U32 < c.PGSIZE * (k + 1) := by
      rw [Nat.mul_add, Nat.mul_one, ← hk]
      omega
    have h3 : (sz + c.PGSIZE - 1) % U32 / c.PGSIZE < k + 1 :=
      (Nat.div_lt_iff_lt_mul hP1).mpr (by rw [Nat.mul_comm]; exact h2)
    have h4 : (sz + c.PGSIZE - 1) % U32 / c.PGSIZE * c.PGSIZE ≤ k * c.PGSIZE :=
      Nat.mul_le_mul_right _ (by omega)
    rw [hk, Nat.mul_comm c.PGSIZE k]
    exact h4


/-- One iteration of the loop for `loadedSegments`, in the vocabulary of `descAt`,
`allocAt`, `loadAt`. -/
theorem loadedSegments_step {W : Type} (env : Env W) (c : Consts) (ip pgdir n off sz : Nat)
    (s : XState W) :
    loadedSegments env c ip pgdir (n + 1) off sz s =
      if (env.readi ip off SIZEOF_PROGHDR s.w).1.1 ≠ SIZEOF_PROGHDR then []
      else if (descAt env ip off s).type ≠ ELF_PROG_LOAD then
        loadedSegments env c ip pgdir n ((off + SIZEOF_PROGHDR) % U32) sz
          (afterRead env ip off s)
      else if (descAt env ip off s).memsz < (descAt env ip off s).filesz then []
      else if ((descAt env ip off s).vaddr + (descAt env ip off s).memsz) % U32
          < (descAt env ip off s).vaddr then []
      else if (allocAt env ip pgdir off sz s).1 % U32 = 0 then []
      else if (descAt env ip off s).vaddr % c.PGSIZE ≠ 0 then []
      else if (loadAt env ip pgdir off sz s).1 < 0 then []
      else
        descAt env ip off s :: loadedSegments env c ip pgdir n ((off + SIZEOF_PROGHDR) % U32)
          ((allocAt env ip pgdir off sz s).1 % U32) (afterLoad env ip pgdir off sz s) := by
  rw [loadedSegments]
  rfl

/-- The three ways of one iteration of the segment loop: `goto bad`; a header that is
not loadable and is skipped; a segment that passes the checks and is loaded. -/
theorem loop_iteration {W : Type} (env : Env W) (c : Consts) (ip pgdir n off sz : Nat)
    (s : XState W) :
    (loadSegments env c ip pgdir (n + 1) off sz s).1 = none
    ∨ (loadSegments env c ip pgdir (n + 1) off sz s
          = loadSegments env c ip pgdir n ((off + SIZEOF_PROGHDR) % U32) sz
              (afterRead env ip off s)
        ∧ loadedSegments env c ip pgdir (n + 1) off sz s
          = loadedSegments env c ip pgdir n ((off + SIZEOF_PROGHDR) % U32) sz
              (afterRead env ip off s))
    ∨ (¬ (descAt env ip off s).memsz < (descAt env ip off s).filesz
        ∧ ¬ ((descAt env ip off s).vaddr + (descAt env ip off s).memsz) % U32
            < (descAt env ip off s).vaddr
        ∧ (allocAt env ip pgdir off sz s).1 % U32 ≠ 0
        ∧ (descAt env ip off s).vaddr % c.PGSIZE = 0
        ∧ ¬ (loadAt env ip pgdir off sz s).1 < 0
        ∧ loadSegments env c ip pgdir (n + 1) off sz s
          = loadSegments env c ip pgdir n ((off + SIZEOF_PROGHDR) % U32)
              ((allocAt env ip pgdir off sz s).1 % U32) (afterLoad env ip pgdir off sz s)
        ∧ loadedSegments env c ip pgdir (n + 1) off sz s
          = descAt env ip off s
            :: loadedSegments env c ip pgdir n ((off + SIZEOF_PROGHDR) % U32)
              ((allocAt env ip pgdir off sz s).1 % U32)
              (afterLoad env ip pgdir off sz s)) := by
  rw [loadSegments_step, loadedSegments_step]
  split_ifs with h1 h2 h3 h4 h5 h6 h7
  · exact Or.inl rfl
  · exact Or.inr (Or.inl ⟨rfl, rfl⟩)
  · exact Or.inl rfl
  · exact Or.inl rfl
  · exact Or.inl rfl
  · exact Or.inl rfl
  · exact Or.inl rfl
  · exact Or.inr (Or.inr ⟨h3, h4, h5, not_not.mp h6, h7, rfl, rfl⟩)


/-- A byte below the first page boundary at or above `o` lies in a page that starts
below `o`. -/
theorem page_below (c : Consts) (o a : Nat) (h : a < PGROUNDUP c o) :
    a / c.PGSIZE * c.PGSIZE < o := by
  unfold PGROUNDUP at h
  by_cases hP : c.PGSIZE = 0
  · rw [hP] at h
    simp at h
  · have hP1 : 0 < c.PGSIZE := Nat.pos_of_ne_zero hP
    have hx : (o + c.PGSIZE - 1) % U32 ≤ o + c.PGSIZE - 1 := Nat.mod_le _ _
    generalize (o + c.PGSIZE - 1) % U32 = x at h hx
    have h1 : a / c.PGSIZE < x / c.PGSIZE := (Nat.div_lt_iff_lt_mul hP1).mpr h
    have h2 : (a / c.PGSIZE + 1) * c.PGSIZE ≤ x / c.PGSIZE * c.PGSIZE :=
      Nat.mul_le_mul_right _ h1
    have h3 : x / c.PGSIZE * c.PGSIZE ≤ x := Nat.div_mul_le_self _ _
    rw [Nat.add_mul, Nat.one_mul] at h2
    omega

theorem allocuvm_effect (c : Consts) (file : Nat → Nat → Nat) (pg o n r : Nat) (m : Mem)
    (a : Nat) (h : r % U32 ≠ 0) :
    (Event.allocuvm pg o n r).effect c file m a
      = if PGROUNDUP c o ≤ a ∧ a / c.PGSIZE * c.PGSIZE < r % U32 then 0 else m a := by
  show (if r % U32 = 0 then m
    else fun a =>
      if PGROUNDUP c o ≤ a ∧ a / c.PGSIZE * c.PGSIZE < r % U32 then 0 else m a) a = _
  rw [if_neg h]

theorem loaduvm_effect (c : Consts) (file : Nat → Nat → Nat) (pg va ip off sz : Nat)
    (r : Int) (m : Mem) (a : Nat) (h : ¬ r < 0) :
    (Event.loaduvm pg va ip off sz r).effect c file m a
      = if va ≤ a ∧ a < va + sz then file ip (off + (a - va)) else m a := by
  show (if r < 0 then m
    else fun a => if va ≤ a ∧ a < va + sz then file ip (off + (a - va)) else m a) a = _
  rw [if_neg h]

/-- When `q` does not clobber `p`, no byte of `p` beyond its file bytes is written by the
`loaduvm` of `q`. -/
theorem not_clobbers_apart (q p : proghdr) (h : ¬ Clobbers q p) (a : Nat)
    (h1 : p.vaddr + p.filesz ≤ a) (h2 : a < p.vaddr + p.memsz) :
    ¬ (q.vaddr ≤ a ∧ a < q.vaddr + q.filesz) := by
  intro hq
  apply h
  unfold Clobbers
  omega

theorem isCopyout_not_loaduvm (e : Event) (h : e.isCopyout = true) :
    e.isLoaduvm = false := by
  cases e <;> simp_all [Event.isCopyout, Event.isLoaduvm]

/-- The memory right after the `allocuvm` and the `loaduvm` of one segment `ph` that the
loop loads from the size `sz`, when before them every byte of a page that starts below
`sz` is zero or a file byte of a segment of `D`: the same holds for the new size and
`D ++ [ph]`, and a byte that is neither zero-filled nor loaded keeps its value. -/
theorem segment_step_mem (c : Consts) (file : Nat → Nat → Nat) (pg ip sz r : Nat)
    (lr : Int) (ph : proghdr) (D : List proghdr) (m : Mem)
    (hr : r % U32 ≠ 0) (hlr : ¬ lr < 0)
    (hinv : ∀ a, a / c.PGSIZE * c.PGSIZE < sz →
      m a = 0 ∨ ∃ q ∈ D, q.vaddr ≤ a ∧ a < q.vaddr + q.filesz) (a : Nat) :
    (a / c.PGSIZE * c.PGSIZE < r % U32 →
      (Event.loaduvm pg ph.vaddr ip ph.off ph.filesz lr).effect c file
          ((Event.allocuvm pg sz ((ph.vaddr + ph.memsz) % U32) r).effect c file m) a = 0
        ∨ ∃ q ∈ D ++ [ph], q.vaddr ≤ a ∧ a < q.vaddr + q.filesz)
    ∧ (¬ (ph.vaddr ≤ a ∧ a < ph.vaddr + ph.filesz) → m a = 0 →
      (Event.loaduvm pg ph.vaddr ip ph.off ph.filesz lr).effect c file
          ((Event.allocuvm pg sz ((ph.vaddr + ph.memsz) % U32) r).effect c file m) a = 0)
    ∧ (¬ (ph.vaddr ≤ a ∧ a < ph.vaddr + ph.filesz) →
      PGROUNDUP c sz ≤ a ∧ a / c.PGSIZE * c.PGSIZE < r % U32 →
      (Event.loaduvm pg ph.vaddr ip ph.off ph.filesz lr).effect c file
          ((Event.allocuvm pg sz ((ph.vaddr + ph.memsz) % U32) r).effect c file m) a = 0) := by
  rw [loaduvm_effect c file _ _ _ _ _ _ _ _ hlr, allocuvm_effect c file _ _ _ _ _ _ hr]
  refine ⟨fun hmap => ?_, fun hf hm => ?_, fun hf hz => ?_⟩
  · by_cases hf : ph.vaddr ≤ a ∧ a < ph.vaddr + ph.filesz
    · exact Or.inr ⟨ph, by simp, hf⟩
    · rw [if_neg hf]
      by_cases hz : PGROUNDUP c sz ≤ a ∧ a / c.PGSIZE * c.PGSIZE < r % U32
      · rw [if_pos hz]
        exact Or.inl rfl
      · rw [if_neg hz]
        have hlt : a < PGROUNDUP c sz := by
          by_contra hge
          exact hz ⟨by omega, hmap⟩
        rcases hinv a (page_below c sz a hlt) with h0 | ⟨q, hq, hqa⟩
        · exact Or.inl h0
        · exact Or.inr ⟨q, List.mem_append_left _ hq, hqa⟩
  · rw [if_neg hf]
    split_ifs
    · rfl
    · exact hm
  · rw [if_neg hf, if_pos hz]


/-- The segment loop and the memory of the new address space. Let `allocuvm` grant what it
is asked for, and let no segment among `D` and those the loop loads clobber another. If,
when the loop is entered with size `sz`, every byte of a page that starts below `sz` is
zero or a file byte of a segment of `D`, and the bytes of the segments of `D` beyond their
file bytes are zero, then after the calls of the loop the bytes beyond the file bytes are
zero for every segment of `D` and every segment the loop loads. -/
theorem loadSegments_zero {W : Type} (env : Env W) (c : Consts) (file : Nat → Nat → Nat)
    (ip pgdir : Nat) (hgrant : AllocGrants env) :
    ∀ (n off sz : Nat) (s : XState W) (top : Nat) (s4 : XState W) (D : List proghdr),
      loadSegments env c ip pgdir n off sz s = (some top, s4) →
      (∀ p ∈ D ++ loadedSegments env c ip pgdir n off sz s,
        ∀ q ∈ D ++ loadedSegments env c ip pgdir n off sz s, ¬ Clobbers q p) →
      ∃ l, s4.tr = s.tr ++ l
        ∧ ∀ m : Mem,
          (∀ a, a / c.PGSIZE * c.PGSIZE < sz →
            m a = 0 ∨ ∃ q ∈ D, q.vaddr ≤ a ∧ a < q.vaddr + q.filesz) →
          (∀ p ∈ D, ∀ a, p.vaddr + p.filesz ≤ a → a < p.vaddr + p.memsz → m a = 0) →
          ∀ p ∈ D ++ loadedSegments env c ip pgdir n off sz s, ∀ a,
            p.vaddr + p.filesz ≤ a → a < p.vaddr + p.memsz → imageMem c file l m a = 0
  | 0, off, sz, s, top, s4, D, h, _ => by
    simp only [loadSegments, Prod.mk.injEq, Option.some.injEq] at h
    obtain ⟨_, rfl⟩ := h
    refine ⟨[], by simp, fun m _ hbss p hp a b1 b2 => ?_⟩
    simp only [loadedSegments, List.append_nil] at hp
    exact hbss p hp a b1 b2
  | n + 1, off, sz, s, top, s4, D, h, hnc => by
    rcases loop_iteration env c ip pgdir n off sz s with
      hf | ⟨q1, q2⟩ | ⟨h3, h4, h5, h6, h7, q1, q2⟩
    · rw [h] at hf
      exact absurd hf (by simp)
    · rw [q1] at h
      rw [q2] at hnc ⊢
      obtain ⟨l, e1, e2⟩ := loadSegments_zero env c file ip pgdir hgrant n _ sz _ top s4 D
        h hnc
      refine ⟨Event.readi ip off SIZEOF_PROGHDR (env.readi ip off SIZEOF_PROGHDR s.w).1.1
        :: l, by rw [e1]; simp [afterRead], fun m hinv hbss p hp a b1 b2 => ?_⟩
      rw [imageMem_cons]
      exact e2 _ hinv hbss p hp a b1 b2
    · rw [q1] at h
      rw [q2] at hnc ⊢
      have hva : (descAt env ip off s).vaddr < U32 := proghdr_vaddr_lt _
      have hms : (descAt env ip off s).memsz < U32 := proghdr_memsz_lt _
      have hnw : (descAt env ip off s).vaddr + (descAt env ip off s).memsz < U32 := by
        have := (wrap_test_iff _ _ hva hms).not.mp h4
        omega
      have hreq : ((descAt env ip off s).vaddr + (descAt env ip off s).memsz) % U32
          = (descAt env ip off s).vaddr + (descAt env ip off s).memsz :=
        Nat.mod_eq_of_lt hnw
      have hgr : sz ≤ (descAt env ip off s).vaddr + (descAt env ip off s).memsz →
          (allocAt env ip pgdir off sz s).1 % U32
            = (descAt env ip off s).vaddr + (descAt env ip off s).memsz := by
        intro hle
        have : (allocAt env ip pgdir off sz s).1
            = ((descAt env ip off s).vaddr + (descAt env ip off s).memsz) % U32 :=
          hgrant pgdir sz _ _ (by rw [hreq]; exact hle) h5
        rw [this, Nat.mod_mod, hreq]
      have hlist : (D ++ [descAt env ip off s])
          ++ loadedSegments env c ip pgdir n ((off + SIZEOF_PROGHDR) % U32)
            ((allocAt env ip pgdir off sz s).1 % U32) (afterLoad env ip pgdir off sz s)
          = D ++ descAt env ip off s
            :: loadedSegments env c ip pgdir n ((off + SIZEOF_PROGHDR) % U32)
              ((allocAt env ip pgdir off sz s).1 % U32) (afterLoad env ip pgdir off sz s) := by
        simp
      have hself : descAt env ip off s ∈ D ++ descAt env ip off s
          :: loadedSegments env c ip pgdir n ((off + SIZEOF_PROGHDR) % U32)
            ((allocAt env ip pgdir off sz s).1 % U32) (afterLoad env ip pgdir off sz s) :=
        List.mem_append_right _ (List.mem_cons_self _ _)
      obtain ⟨l, e1, e2⟩ := loadSegments_zero env c file ip pgdir hgrant n _
        ((allocAt env ip pgdir off sz s).1 % U32) _ top s4 (D ++ [descAt env ip off s]) h
        (by rw [hlist]; exact hnc)
      refine ⟨Event.readi ip off SIZEOF_PROGHDR (env.readi ip off SIZEOF_PROGHDR s.w).1.1
          :: Event.allocuvm pgdir sz
            (((descAt env ip off s).vaddr + (descAt env ip off s).memsz) % U32)
            (allocAt env ip pgdir off sz s).1
          :: Event.loaduvm pgdir (descAt env ip off s).vaddr ip (descAt env ip off s).off
            (descAt env ip off s).filesz (loadAt env ip pgdir off sz s).1 :: l,
        by rw [e1]; simp [afterLoad, afterAlloc, afterRead],
        fun m hinv hbss p hp a b1 b2 => ?_⟩
      rw [imageMem_cons, imageMem_cons, imageMem_cons]
      have hstep := fun a => segment_step_mem c file pgdir ip sz
        (allocAt env ip pgdir off sz s).1 (loadAt env ip pgdir off sz s).1
        (descAt env ip off s) D m h5 h7 hinv a
      refine e2 _ (fun a hmap => (hstep a).1 hmap) (fun p1 hp1 a1 c1 c2 => ?_) p
        (by rw [hlist]; exact hp) a b1 b2
      rcases List.mem_append.mp hp1 with hp1 | hp1
      · exact (hstep a1).2.1
          (not_clobbers_apart _ p1 (hnc p1 (List.mem_append_left _ hp1) _ hself) a1 c1 c2)
          (hbss p1 hp1 a1 c1 c2)
      · have hp2 : p1 = descAt env ip off s := List.mem_singleton.mp hp1
        subst hp2
        have hf : ¬ ((descAt env ip off s).vaddr ≤ a1
            ∧ a1 < (descAt env ip off s).vaddr + (descAt env ip off s).filesz) := by omega
        by_cases hz : PGROUNDUP c sz ≤ a1
            ∧ a1 / c.PGSIZE * c.PGSIZE < (allocAt env ip pgdir off sz s).1 % U32
        · exact (hstep a1).2.2 hf hz
        · refine (hstep a1).2.1 hf ?_
          have hpage : a1 / c.PGSIZE * c.PGSIZE ≤ a1 := Nat.div_mul_le_self _ _
          have hmap : a1 / c.PGSIZE * c.PGSIZE < sz := by
            by_cases hle : sz ≤ (descAt env ip off s).vaddr + (descAt env ip off s).memsz
            · have hlt : a1 < PGROUNDUP c sz := by
                by_contra hge
                exact hz ⟨by omega, by rw [hgr hle]; omega⟩
              exact page_below c sz a1 hlt
            · omega
          rcases hinv a1 hmap with h0 | ⟨q, hq, hqa⟩
          · exact h0
          · exact absurd hqa
              (not_clobbers_apart q _ (hnc _ hself q (List.mem_append_left _ hq)) a1 c1 c2)


/-- C13 (segment zero-fill), with the layout it needs. Assume `allocuvm` zero-fills the
bytes it newly maps and grants the size it is asked for, and `loaduvm` writes exactly the
requested bytes. If `exec` returns 0, no loaded segment has file bytes loaded into the
range `[vaddr + filesz, vaddr + memsz)` of a loaded segment (as is the case when the
segments do not overlap, in whatever order they come), every `copyout` of the run stays
in the stack page, and the stack page lies above every segment, then every byte in
`[vaddr + filesz, vaddr + memsz)` of every loaded segment reads as zero in the new
address space. -/
theorem segment_zero_fill {W : Type} (env : Env W) (c : Consts) (path : List Nat)
    (argv : List (List Nat)) (p : Proc) (w : W) (file : Nat → Nat → Nat) (m : Mem)
    (hret : (exec env c path argv p w).ret = 0)
    (hgrant : AllocGrants env)
    (hnc : ∀ ph ∈ imageSegments env c path w, ∀ q ∈ imageSegments env c path w,
      ¬ Clobbers q ph)
    (hstk : ∀ e ∈ (exec env c path argv p w).tr,
      e.inStackPage c (exec env c path argv p w).proc.sz)
    (habove : ∀ ph ∈ imageSegments env c path w,
      ph.vaddr + ph.memsz + c.PGSIZE ≤ (exec env c path argv p w).proc.sz) :
    ∀ ph ∈ imageSegments env c path w, ∀ a,
      ph.vaddr + ph.filesz ≤ a → a < ph.vaddr + ph.memsz →
      imageMem c file (exec env c path argv p w).tr m a = 0 := by
  intro ph hph a b1 b2
  obtain ⟨_, _, _, top, s4, aret, args, data, cret, hloop, _, _, _, hargs, _, htr⟩ :=
    exec_success_trace env c path argv p w hret
  obtain ⟨l, e1, e3⟩ := loadSegments_zero env c file _ _ hgrant _ _ _ _ top s4 [] hloop
    (by simpa using hnc)
  have hlt : a < (exec env c path argv p w).proc.sz - c.PGSIZE := by
    have := habove ph hph
    omega
  have hk : ∀ e, e ∈ (exec env c path argv p w).tr → e.isLoaduvm = false →
      KeepsZero c file a e :=
    fun e he hl => keepsZero_of_inStackPage c file _ a e (hstk e he) hlt hl
  generalize exec env c path argv p w = r at htr hk ⊢
  rw [htr] at hk ⊢
  rw [imageMem_append, imageMem_append, imageMem_append]
  apply imageMem_keeps
  · intro e he
    refine hk e (List.mem_append_right _ he) ?_
    simp only [List.mem_cons, List.mem_singleton, List.not_mem_nil, or_false] at he
    rcases he with rfl | rfl | rfl | rfl <;> rfl
  apply imageMem_keeps
  · intro e he
    exact hk e (List.mem_append_left _ (List.mem_append_right _ he))
      (isCopyout_not_loaduvm e (hargs e he))
  apply imageMem_keeps
  · intro e he
    refine hk e (List.mem_append_left _ (List.mem_append_left _
      (List.mem_append_right _ he))) ?_
    simp only [List.mem_cons, List.mem_singleton, List.not_mem_nil, or_false] at he
    rcases he with rfl | rfl | rfl | rfl <;> rfl
  rw [e1, imageMem_append]
  exact e3 _ (fun a1 h1 => absurd h1 (Nat.not_lt_zero _)) (fun q hq => by simp at hq)
    ph (by simpa using hph) a b1 b2

set_option maxRecDepth 8192 in
/-- C13, amended, at a concrete input: two segments that do not overlap, in descending
order (at 8192, then at 0), each with 4 bytes from the file and 4096 in memory, an
`allocuvm` that never shrinks the space, a memory that held 1 everywhere; byte 100 of the
second segment and byte 8292 of the first read as zero in the new address space. -/
theorem segment_zero_fill_witness :
    (exec (maxEnv descElf) xv6Consts [97] [] proc0 ()).ret = 0
    ∧ (imageSegments (maxEnv descElf) xv6Consts [97] ()).map
        (fun ph => (ph.vaddr, ph.filesz, ph.memsz)) = [(8192, 4, 4096), (0, 4, 4096)]
    ∧ imageMem xv6Consts (fileBytes descElf)
        (exec (maxEnv descElf) xv6Consts [97] [] proc0 ()).tr (fun _ => 1) 100 = 0
    ∧ imageMem xv6Consts (fileBytes descElf)
        (exec (maxEnv descElf) xv6Consts [97] [] proc0 ()).tr (fun _ => 1) 8292 = 0 :=
  ⟨by decide, by decide,
    segment_zero_fill (maxEnv descElf) xv6Consts [97] [] proc0 () (fileBytes descElf)
      (fun _ => 1) (by decide)
      (fun _ oldsz newsz _ hle _ => Nat.max_eq_right hle)
      (by decide) (by decide) (by decide)
      (descAt (maxEnv descElf) 1 84 (afterLoad (maxEnv descElf) 1 2 52 0
        (loopStart (maxEnv descElf) [97] ())))
      (List.mem_cons_of_mem _ (List.mem_singleton.mpr rfl)) 100 (by decide) (by decide),
    segment_zero_fill (maxEnv descElf) xv6Consts [97] [] proc0 () (fileBytes descElf)
      (fun _ => 1) (by decide)
      (fun _ oldsz newsz _ hle _ => Nat.max_eq_right hle)
      (by decide) (by decide) (by decide)
      (descAt (maxEnv descElf) 1 52 (loopStart (maxEnv descElf) [97] ()))
      (List.mem_cons_self _ _) 8292 (by decide) (by decide)⟩

end Xv6
